import Mathlib

/-!
Verification development for the mode-shifter archive engine
(`src/modes.ts` archive segment, `src/progress-modal.ts`).

The engine is asynchronous TypeScript operating against an Obsidian vault.
We shallow-embed it as a state-passing interpreter:

* the vault is a finite map from paths to file contents plus a folder set;
* every store operation is a step in a `St → Except Err α × St` monad that
  also records an event trace (reads, writes, removals, verification
  outcome, restore phases) used to state temporal properties;
* JS promise timeouts are modelled separately (`withTimeout` over a timed
  operation model); inside the interpreter every awaited operation settles
  immediately, so per-step timeouts never fire there;
* `Math.random()`-derived short hashes are drawn from an explicit supply
  carried in the state, and `new Date().toISOString()` is the state's
  fixed `now` string;
* fallible host-adapter behaviour (delete/remove/rename/write failures)
  is injected through an `Env` of per-path oracles, so that the engine's
  retry/rollback logic can be exercised.
-/

namespace ModeShifter

/-- Raw binary file contents are byte lists. -/
abbrev Bytes := List Nat

/-- A zip file entry as JSZip stores it: name, data and the optional
`unixPermissions` attribute passed via the options of `zip.file`.
The source calls `zip.file(relPath, data)` with no options, so entries it
creates carry no permission attribute. -/
structure ZipEntry where
  name : String
  data : Bytes
  unixPermissions : Option Nat
deriving Repr, DecidableEq

/-- In-memory zip archive: file entries in insertion order plus the
directory entries JSZip creates implicitly (each ending in "/"). -/
structure ZipFile where
  entries : List ZipEntry
  dirs : List String
deriving Repr, DecidableEq

/-- Contents of a vault file.  The zip binary produced by
`zip.generateAsync` is modelled structurally (`zipc`), and the JSON
metadata files written with `JSON.stringify` are modelled as the
structured objects they serialize. -/
inductive Content where
  | bytes (b : Bytes)
  | zipc (z : ZipFile)
  | jsonManifest (files : List String)
  | jsonCheckpoint (deleted : List String) (currentBatch totalBatches : Nat) (timestamp : String)
  | jsonDeleteLog (deleted failed : List String) (timestamp : String)
deriving Repr, DecidableEq

/-- The vault: association list of files (path, content) and a folder set. -/
structure Vault where
  files : List (String × Content)
  folders : List String
deriving Repr, DecidableEq

/-- Observation events recorded by the interpreter: store I/O plus
markers for the verification outcome, per-file rollback restores, and
the full-restore rollback phase. -/
inductive Event where
  | readF (p : String)
  | writeF (p : String)
  | removeF (p : String)
  | verifyDone (ok : Bool)
  | singleRestore (p : String)
  | fullRestoreStart
deriving Repr, DecidableEq

/-- Conceptual error kinds (the source throws `Error` objects with only a
message; the kind labels which `throw` site produced the error and is
used purely for stating theorems). -/
inductive ErrKind where
  | notFound
  | corruptZip
  | verificationFailed
  | entryMissing
  | deleteFailed
  | folderExists
  | writeFailed
  | renameFailed
  | timeout
  | cancelled
deriving Repr, DecidableEq

/-- A thrown error: kind, message, and the `rollbackError` field the
deletion rollback attaches (`(err as any).rollbackError = re`). -/
structure Err where
  kind : ErrKind
  msg : String
  rollbackError : Option String := none
deriving Repr, DecidableEq

/-- Interpreter state: the vault, the event trace, the supply of
6-character hashes standing in for `Math.random().toString(36).slice(2,8)`,
and the fixed ISO timestamp standing in for `new Date().toISOString()`. -/
structure St where
  vault : Vault
  events : List Event
  hashes : List String
  now : String
deriving Repr, DecidableEq

/-- Host-adapter fault model: whether `app.vault.delete` succeeds for a
path, the error message (if any) thrown by `adapter.remove` on an
existing path, the error (if any) thrown by `adapter.write`/`writeBinary`
for a path, whether the adapter exposes `rename`, and whether a rename
of a given existing path succeeds. -/
structure Env where
  vaultDeleteOk : String → Bool
  removeErr : String → Option String
  writeErr : String → Option String
  hasRename : Bool
  renameOk : String → Bool

/-- The all-benign environment: every store operation succeeds. -/
def benignEnv : Env :=
  { vaultDeleteOk := fun _ => true
    removeErr := fun _ => none
    writeErr := fun _ => none
    hasRename := false
    renameOk := fun _ => true }

instance {ε α : Type} [DecidableEq ε] [DecidableEq α] : DecidableEq (Except ε α) := fun a b =>
  match a, b with
  | Except.ok x, Except.ok y =>
      match decEq x y with
      | isTrue h => isTrue (by rw [h])
      | isFalse h => isFalse (by intro hc; cases hc; exact h rfl)
  | Except.ok _, Except.error _ => isFalse (by intro hc; cases hc)
  | Except.error _, Except.ok _ => isFalse (by intro hc; cases hc)
  | Except.error x, Except.error y =>
      match decEq x y with
      | isTrue h => isTrue (by rw [h])
      | isFalse h => isFalse (by intro hc; cases hc; exact h rfl)

/-- The interpreter monad: state passing with exceptions. -/
abbrev M (α : Type) : Type := St → Except Err α × St

def mPure {α : Type} (a : α) : M α := fun st => (Except.ok a, st)

def mBind {α β : Type} (m : M α) (f : α → M β) : M β := fun st =>
  match m st with
  | (Except.ok a, st₂) => f a st₂
  | (Except.error e, st₂) => (Except.error e, st₂)

instance : Monad M where
  pure := mPure
  bind := mBind

/-- JS `throw new Error(msg)`. -/
def mThrow {α : Type} (k : ErrKind) (msg : String) : M α := fun st =>
  (Except.error { kind := k, msg := msg }, st)

/-- JS `try { m } catch (e) { h e }`. -/
def mTryCatch {α : Type} (m : M α) (h : Err → M α) : M α := fun st =>
  match m st with
  | (Except.ok a, st₂) => (Except.ok a, st₂)
  | (Except.error e, st₂) => h e st₂

/-- `try { m } catch (e) { }` — the `.catch(()=>{})` pattern. -/
def catchIgnore (m : M Unit) : M Unit := mTryCatch m (fun _ => mPure ())

def getSt : M St := fun st => (Except.ok st, st)

def setSt (st₂ : St) : M Unit := fun _ => (Except.ok (), st₂)

/-- Record an observation event. -/
def emit (e : Event) : M Unit := fun st =>
  (Except.ok (), { st with events := st.events ++ [e] })

/-- Draw the next `Math.random()` hash from the supply. -/
def nextHash : M String := fun st =>
  match st.hashes with
  | [] => (Except.ok "000000", st)
  | h :: t => (Except.ok h, { st with hashes := t })

theorem run_pure {α : Type} (a : α) (st : St) :
    (pure a : M α) st = (Except.ok a, st) := rfl

theorem run_bind {α β : Type} (m : M α) (f : α → M β) (st : St) :
    (m >>= f) st =
      match m st with
      | (Except.ok a, st₂) => f a st₂
      | (Except.error e, st₂) => (Except.error e, st₂) := rfl

theorem run_bind_ok {α β : Type} {m : M α} {f : α → M β} {st st₂ : St} {a : α}
    (h : m st = (Except.ok a, st₂)) : (m >>= f) st = f a st₂ := by
  rw [run_bind, h]

theorem run_bind_err {α β : Type} {m : M α} {f : α → M β} {st st₂ : St} {e : Err}
    (h : m st = (Except.error e, st₂)) : (m >>= f) st = (Except.error e, st₂) := by
  rw [run_bind, h]

theorem run_tryCatch_ok {α : Type} {m : M α} {h : Err → M α} {st st₂ : St} {a : α}
    (hm : m st = (Except.ok a, st₂)) : mTryCatch m h st = (Except.ok a, st₂) := by
  unfold mTryCatch; rw [hm]

theorem run_tryCatch_err {α : Type} {m : M α} {h : Err → M α} {st st₂ : St} {e : Err}
    (hm : m st = (Except.error e, st₂)) : mTryCatch m h st = h e st₂ := by
  unfold mTryCatch; rw [hm]

/-! ## Path helpers (`normalizePath`, slugification, conflict names)

String operations are implemented on the character lists underlying the
strings (rather than through the positional core-library functions) so
that every definition evaluates by kernel reduction; each helper agrees
with the corresponding JS string method. -/

/-- Character-wise string map. -/
def strMap (f : Char → Char) (s : String) : String := String.mk (s.data.map f)

/-- `s.startsWith(pat)`. -/
def strStartsWith (s pat : String) : Bool := pat.data.isPrefixOf s.data

/-- `s.endsWith(pat)`. -/
def strEndsWith (s pat : String) : Bool := pat.data.reverse.isPrefixOf s.data.reverse

/-- Drop the first `n` characters. -/
def strDropL (s : String) (n : Nat) : String := String.mk (s.data.drop n)

/-- `s.toLowerCase()` (character-wise). -/
def strToLower (s : String) : String := String.mk (s.data.map Char.toLower)

/-- Accumulator worker for `split('/')`. -/
def splitSlashAux : List Char → List Char → List String
  | cur, [] => [String.mk cur.reverse]
  | cur, c :: t =>
    if c = '/' then String.mk cur.reverse :: splitSlashAux [] t
    else splitSlashAux (c :: cur) t

/-- `s.split('/')` — JS semantics: always at least one piece, empty
pieces preserved. -/
def strSplitSlash (s : String) : List String := splitSlashAux [] s.data

/-- `normalizePath` from the source: convert backslashes to forward
slashes and strip one leading "./"; falsy (empty) input is returned
unchanged. -/
def normalizePath (p : String) : String :=
  if p = "" then p
  else
    let fw := strMap (fun c => if c = '\\' then '/' else c) p
    if strStartsWith fw "./" then strDropL fw 2 else fw

def isSpaceOrUnderscore (c : Char) : Bool :=
  c = ' ' || c = '\t' || c = '\n' || c = '\r' || c = '\x0b' || c = '\x0c' || c = '_'

/-- Collapse runs of hyphens to a single hyphen (the second regex
replace of the slugification, hyphen-run to single hyphen); the flag
records whether the previous character was a hyphen. -/
def collapseHyphensAux : Bool → List Char → List Char
  | _, [] => []
  | prevHyphen, c :: t =>
    if c = '-' then
      if prevHyphen then collapseHyphensAux true t
      else '-' :: collapseHyphensAux true t
    else c :: collapseHyphensAux false t

def collapseHyphens (l : List Char) : List Char := collapseHyphensAux false l

/-- The base-name slugification in `createArchive`: replace runs of
whitespace or underscores with a hyphen, collapse hyphen runs, trim
leading and trailing hyphens.  Mapping every whitespace/underscore
character to '-' and then collapsing hyphen runs replicates the first
two regex replaces. -/
def slugify (s : String) : String :=
  let mapped := s.data.map (fun c => if isSpaceOrUnderscore c then '-' else c)
  let collapsed := collapseHyphens mapped
  let trimmed :=
    ((collapsed.dropWhile (fun c => c = '-')).reverse.dropWhile (fun c => c = '-')).reverse
  String.mk trimmed

/-- The timestamp slug for zip names: every ':' and '.' in the ISO
timestamp replaced by '-'. -/
def isoSlug (now : String) : String :=
  strMap (fun c => if c = ':' || c = '.' then '-' else c) now

/-- Index of the last '.' in a string (`base.lastIndexOf('.')`), or
`none` when absent. -/
def lastDotIndex (s : String) : Option Nat :=
  ((List.range s.data.length).filter (fun i => s.data.getD i ' ' = '.')).getLast?

/-- The conflict-copy name computation of `restoreArchive`: split the
entry into directory and base, split the base at its last dot, and
insert `-conflict-{hash}` before the extension. -/
def conflictPathOf (entry : String) (hash : String) : String :=
  let parts := strSplitSlash entry
  let base := parts.getLastD ""
  let dir := String.intercalate "/" parts.dropLast
  let name :=
    match lastDotIndex base with
    | none => base
    | some dot => String.mk (base.data.take dot)
  let extPart :=
    match lastDotIndex base with
    | none => ""
    | some dot => String.mk (base.data.drop dot)
  let newBase := name ++ "-conflict-" ++ hash ++ extPart
  if dir = "" then newBase else dir ++ "/" ++ newBase

/-! ## Vault and zip primitives -/

def lookupFileL : List (String × Content) → String → Option Content
  | [], _ => none
  | (q, c) :: t, p => if q = p then some c else lookupFileL t p

def lookupFile (v : Vault) (p : String) : Option Content := lookupFileL v.files p

/-- Create-or-overwrite upsert keeping the entry's position. -/
def insertL : List (String × Content) → String → Content → List (String × Content)
  | [], p, c => [(p, c)]
  | (q, c₀) :: t, p, c => if q = p then (p, c) :: t else (q, c₀) :: insertL t p c

def vaultInsert (v : Vault) (p : String) (c : Content) : Vault :=
  { v with files := insertL v.files p c }

def removeL : List (String × Content) → String → List (String × Content)
  | [], _ => []
  | (q, c) :: t, p => if q = p then removeL t p else (q, c) :: removeL t p

def vaultRemove (v : Vault) (p : String) : Vault :=
  { v with files := removeL v.files p }

theorem lookupL_insertL_self (l : List (String × Content)) (p : String) (c : Content) :
    lookupFileL (insertL l p c) p = some c := by
  induction l with
  | nil => simp [insertL, lookupFileL]
  | cons e t ih =>
    obtain ⟨q, c₀⟩ := e
    by_cases h : q = p
    · simp [insertL, lookupFileL, h]
    · simp [insertL, lookupFileL, h, ih]

theorem lookupL_insertL_other (l : List (String × Content)) (p q : String) (c : Content)
    (h : q ≠ p) : lookupFileL (insertL l p c) q = lookupFileL l q := by
  induction l with
  | nil => simp [insertL, lookupFileL, h.symm]
  | cons e t ih =>
    obtain ⟨r, c₀⟩ := e
    by_cases hr : r = p
    · subst hr
      simp [insertL, lookupFileL, h.symm]
    · by_cases hq : r = q
      · subst hq
        simp [insertL, lookupFileL, hr]
      · simp [insertL, lookupFileL, hr, hq, ih]

theorem lookupL_removeL_self (l : List (String × Content)) (p : String) :
    lookupFileL (removeL l p) p = none := by
  induction l with
  | nil => simp [removeL, lookupFileL]
  | cons e t ih =>
    obtain ⟨q, c₀⟩ := e
    by_cases h : q = p
    · simp [removeL, lookupFileL, h, ih]
    · simp [removeL, lookupFileL, h, ih]

theorem lookupL_removeL_other (l : List (String × Content)) (p q : String)
    (h : q ≠ p) : lookupFileL (removeL l p) q = lookupFileL l q := by
  induction l with
  | nil => simp [removeL, lookupFileL]
  | cons e t ih =>
    obtain ⟨r, c₀⟩ := e
    by_cases hr : r = p
    · subst hr
      simp [removeL, lookupFileL, h.symm, ih]
    · by_cases hq : r = q
      · subst hq
        simp [removeL, lookupFileL, hr]
      · simp [removeL, lookupFileL, hr, hq, ih]

theorem lookup_vaultInsert_self (v : Vault) (p : String) (c : Content) :
    lookupFile (vaultInsert v p c) p = some c :=
  lookupL_insertL_self v.files p c

theorem lookup_vaultInsert_other (v : Vault) (p q : String) (c : Content) (h : q ≠ p) :
    lookupFile (vaultInsert v p c) q = lookupFile v q :=
  lookupL_insertL_other v.files p q c h

theorem lookup_vaultRemove_self (v : Vault) (p : String) :
    lookupFile (vaultRemove v p) p = none :=
  lookupL_removeL_self v.files p

theorem lookup_vaultRemove_other (v : Vault) (p q : String) (h : q ≠ p) :
    lookupFile (vaultRemove v p) q = lookupFile v q :=
  lookupL_removeL_other v.files p q h

theorem vaultInsert_folders (v : Vault) (p : String) (c : Content) :
    (vaultInsert v p c).folders = v.folders := rfl

theorem vaultRemove_folders (v : Vault) (p : String) :
    (vaultRemove v p).folders = v.folders := rfl

/-- `app.vault.getAbstractFileByPath` resolves files and folders. -/
def existsInVault (v : Vault) (p : String) : Bool :=
  (lookupFile v p).isSome || v.folders.contains p

/-- Byte view of stored content, used when a non-byte file is read as
raw binary.  Zip structures and JSON metadata get a simple structural
flattening here; no claim archives a zip or a metadata file, so only
the `bytes` line is ever exercised by the theorems below. -/
def strBytes (s : String) : Bytes := s.data.map (fun c => c.toNat)

def contentBytes : Content → Bytes
  | Content.bytes b => b
  | Content.zipc z =>
      (z.entries.map (fun e => strBytes e.name ++ [0] ++ e.data ++ [0])).flatten
  | Content.jsonManifest fs => strBytes (String.intercalate "\n" fs)
  | Content.jsonCheckpoint d cb tb ts =>
      strBytes (String.intercalate "\n" d ++ "\n" ++ toString cb ++ "\n" ++ toString tb ++ "\n" ++ ts)
  | Content.jsonDeleteLog d f ts =>
      strBytes (String.intercalate "\n" d ++ "\n" ++ String.intercalate "\n" f ++ "\n" ++ ts)

/-- Implicit directory entries JSZip creates for a file path:
"a/b/c.txt" yields "a/" and "a/b/". -/
def zipFolderNames (p : String) : List String :=
  let parts := (strSplitSlash p).dropLast
  (List.range parts.length).map (fun i => String.intercalate "/" (parts.take (i + 1)) ++ "/")

def upsertEntry : List ZipEntry → ZipEntry → List ZipEntry
  | [], e => [e]
  | x :: t, e => if x.name == e.name then e :: t else x :: upsertEntry t e

/-- `zip.file(relPath, data)` — the source passes no options, so the
entry is stored without a `unixPermissions` attribute. -/
def zipAddFile (z : ZipFile) (name : String) (data : Bytes) : ZipFile :=
  { entries := upsertEntry z.entries { name := name, data := data, unixPermissions := none }
    dirs := z.dirs ++ (zipFolderNames name).filter (fun d => !(z.dirs.contains d)) }

/-- `zip.file(name)` — returns the file entry or null; directory
entries are not file entries. -/
def zipGetFile (z : ZipFile) (name : String) : Option ZipEntry :=
  z.entries.find? (fun e => e.name == name)

/-- `Object.keys(zip.files).filter(name => !name.endsWith('/'))` — all
entry names with the implicit directory entries filtered out. -/
def zipEntryNames (z : ZipFile) : List String :=
  ((z.entries.map ZipEntry.name) ++ z.dirs).filter (fun n => !(strEndsWith n "/"))

/-! ## Store operations in the interpreter -/

/-- `app.vault.adapter.readBinary(p)` / `adapter.read`: fails with
NotFound when the path is absent. -/
def readBinary (p : String) : M Content := fun st =>
  match lookupFile st.vault p with
  | some c => (Except.ok c, { st with events := st.events ++ [Event.readF p] })
  | none => (Except.error { kind := ErrKind.notFound, msg := "ENOENT: " ++ p }, st)

/-- `adapter.writeBinary` / `adapter.write`: creates or overwrites; the
environment may make the write fail (e.g. EPERM). -/
def writeFileC (env : Env) (p : String) (c : Content) : M Unit := fun st =>
  match env.writeErr p with
  | some m => (Except.error { kind := ErrKind.writeFailed, msg := m }, st)
  | none =>
      (Except.ok (),
        { st with
          vault := vaultInsert st.vault p c
          events := st.events ++ [Event.writeF p] })

/-- `app.vault.createFolder`: rejects when the folder already exists
(every call site ignores that rejection). -/
def createFolder (p : String) : M Unit := fun st =>
  if st.vault.folders.contains p then
    (Except.error { kind := ErrKind.folderExists, msg := "Folder already exists: " ++ p }, st)
  else
    (Except.ok (), { st with vault := { st.vault with folders := st.vault.folders ++ [p] } })

/-- `app.vault.getAbstractFileByPath(p) !== null`. -/
def getAbstractFileExists (p : String) : M Bool := fun st =>
  (Except.ok (existsInVault st.vault p), st)

/-- `app.vault.delete(af)` on a resolved abstract file; the environment
decides whether the high-level delete succeeds. -/
def vaultDelete (env : Env) (p : String) : M Unit := fun st =>
  if env.vaultDeleteOk p then
    (Except.ok (),
      { st with
        vault := vaultRemove st.vault p
        events := st.events ++ [Event.removeF p] })
  else
    (Except.error { kind := ErrKind.deleteFailed, msg := "Deleting " ++ p ++ " failed" }, st)

/-- `app.vault.adapter.remove(p)`: NotFound when absent, otherwise the
environment may inject an error message (EPERM & co). -/
def adapterRemove (env : Env) (p : String) : M Unit := fun st =>
  match lookupFile st.vault p with
  | none => (Except.error { kind := ErrKind.notFound, msg := "enoent: " ++ p }, st)
  | some _ =>
      match env.removeErr p with
      | some m => (Except.error { kind := ErrKind.deleteFailed, msg := m }, st)
      | none =>
          (Except.ok (),
            { st with
              vault := vaultRemove st.vault p
              events := st.events ++ [Event.removeF p] })

/-- `adapter.rename(src, dst)`: fails when the source is absent or the
environment says the rename fails. -/
def adapterRename (env : Env) (src dst : String) : M Unit := fun st =>
  match lookupFile st.vault src with
  | none => (Except.error { kind := ErrKind.notFound, msg := "enoent: " ++ src }, st)
  | some c =>
      if env.renameOk src then
        (Except.ok (), { st with vault := vaultInsert (vaultRemove st.vault src) dst c })
      else
        (Except.error { kind := ErrKind.renameFailed, msg := "rename failed: " ++ src }, st)

/-- `JSZip.loadAsync(data)`: succeeds exactly when the binary is a zip. -/
def loadZip (c : Content) : M ZipFile :=
  match c with
  | Content.zipc z => mPure z
  | _ => mThrow ErrKind.corruptZip "Corrupted zip"

/-! ## The timeout guard (`withTimeout`)

The source wraps promises with `Promise.race` against a timer.  We model
an asynchronous operation as its settle time plus its outcome; `race`
yields whichever side settles first (the promise listed first wins ties,
which the claims never depend on). -/

structure AsyncOp (α : Type) where
  settleAt : Nat
  outcome : Except Err α
deriving Repr

/-- The rejection timer `withTimeout` installs: fires at `ms` with a
timeout error carrying the given message. -/
def timerPromise (α : Type) (ms : Int) (message : String) : AsyncOp α :=
  { settleAt := ms.toNat, outcome := Except.error { kind := ErrKind.timeout, msg := message } }

/-- `Promise.race([p, timeout])`: the first promise to settle wins. -/
def race {α : Type} (a b : AsyncOp α) : AsyncOp α :=
  if a.settleAt ≤ b.settleAt then a else b

/-- `withTimeout(p, ms, message)` from the source: when `ms` is falsy or
non-positive the promise is returned unchanged (timeout disabled);
otherwise the promise races the timer (the timer-clearing `.then` does
not change the settled value). -/
def withTimeout {α : Type} (p : AsyncOp α) (ms : Int) (message : String) : AsyncOp α :=
  if ms = 0 || ms ≤ 0 then p
  else race p (timerPromise α ms message)

/-! ## Cancellation token (`src/progress-modal.ts`)

`CancellationToken` is a one-way boolean flag with subscriber callbacks;
only the flag and `throwIfCancelled` are observable to the engine. -/

structure CancellationToken where
  cancelled : Bool
deriving Repr, DecidableEq

/-- `throwIfCancelled()`: throws a distinguishable cancellation error
iff the token was cancelled. -/
def CancellationToken.throwIfCancelled (t : CancellationToken) : Except Err Unit :=
  if t.cancelled then
    Except.error { kind := ErrKind.cancelled, msg := "Operation was cancelled" }
  else Except.ok ()

/-! ## verifyZipIntegrity -/

structure ZipVerificationResult where
  isValid : Bool
  fileCount : Nat
  errors : List String
deriving Repr, DecidableEq

/-- `verifyZipIntegrity(app, zipPath, expectedFiles)`: load the zip,
compare its non-directory entry names with the normalized expected
list, and spot-check extraction of up to 5 entries (extraction of a
present entry always succeeds in this model, so the sample loop appends
no errors).  Only the expected side is normalized — the entry names are
compared as stored.  A failure to read or parse the zip is caught and
reported as a single error with `fileCount = 0`.  The interpreter
records the outcome as a `verifyDone` event. -/
def verifyZipIntegrity (zipPath : String) (expectedFiles : List String) :
    M ZipVerificationResult :=
  mTryCatch
    (do
      let data ← readBinary zipPath
      let zip ← loadZip data
      let zipEntries := zipEntryNames zip
      let normalizedExpected := expectedFiles.map normalizePath
      let missingFiles := normalizedExpected.filter (fun f => !(zipEntries.contains f))
      let extraFiles := zipEntries.filter (fun f => !(normalizedExpected.contains f))
      let errors₁ :=
        if missingFiles.length > 0 then
          ["Missing files in zip: " ++ String.intercalate ", " missingFiles]
        else []
      let errors₂ :=
        if extraFiles.length > 0 then
          ["Extra files in zip: " ++ String.intercalate ", " extraFiles]
        else []
      let errors := errors₁ ++ errors₂
      emit (Event.verifyDone (errors.length = 0))
      pure { isValid := errors.length == 0, fileCount := zipEntries.length, errors := errors })
    (fun error => do
      emit (Event.verifyDone false)
      pure { isValid := false, fileCount := 0,
             errors := ["Failed to verify zip: " ++ error.msg] })

/-! ## Restore (`restoreArchive`, `restoreFileFromZip`) -/

inductive RestorePolicy where
  | overwrite
  | skip
  | conflictCopy
deriving Repr, DecidableEq

/-- The folder-creation preamble before each restored file:
`filePath.split('/').slice(0,-1)` accumulated into successive paths,
each created with the rejection ignored. -/
def ensureFoldersLoop : String → List String → M Unit
  | _, [] => mPure ()
  | cur, f :: rest => do
    let cur₂ := if cur = "" then f else cur ++ "/" ++ f
    catchIgnore (createFolder cur₂)
    ensureFoldersLoop cur₂ rest

def ensureFolders (filePath : String) : M Unit :=
  ensureFoldersLoop "" (strSplitSlash filePath).dropLast

/-- The per-entry loop of `restoreArchive`: extract, ensure folders,
then apply the conflict policy against the current store state. -/
def restoreEntries (env : Env) (zip : ZipFile) (policy : RestorePolicy) :
    List String → M Unit
  | [] => mPure ()
  | entry :: rest => do
    match zipGetFile zip entry with
    | none => restoreEntries env zip policy rest
    | some file => do
      let ab := file.data
      ensureFolders entry
      let existing ← getAbstractFileExists entry
      if existing then
        match policy with
        | RestorePolicy.skip =>
            restoreEntries env zip policy rest
        | RestorePolicy.conflictCopy => do
            let hash ← nextHash
            writeFileC env (conflictPathOf entry hash) (Content.bytes ab)
            restoreEntries env zip policy rest
        | RestorePolicy.overwrite => do
            writeFileC env entry (Content.bytes ab)
            restoreEntries env zip policy rest
      else do
        writeFileC env entry (Content.bytes ab)
        restoreEntries env zip policy rest

/-- `restoreArchive(app, zipPath, options)`: read the zip, enumerate its
non-directory entries and restore each under the policy (default
`overwrite`).  Timeouts never fire in the interpreter and the progress
callback has no observable effect, so both are omitted. -/
def restoreArchive (env : Env) (zipPath : String) (policy : RestorePolicy) : M Unit := do
  let data ← readBinary zipPath
  let zip ← loadZip data
  let entries := zipEntryNames zip
  restoreEntries env zip policy entries

/-- `restoreFileFromZip(app, zipPath, filePath)`: the single-file
restore primitive used by the deletion rollback; throws when the entry
is absent from the zip.  The interpreter marks each invocation with a
`singleRestore` event. -/
def restoreFileFromZip (env : Env) (zipPath : String) (filePath : String) : M Unit := do
  emit (Event.singleRestore filePath)
  let data ← readBinary zipPath
  let zip ← loadZip data
  match zipGetFile zip filePath with
  | none => mThrow ErrKind.entryMissing ("File " ++ filePath ++ " not found in zip")
  | some file => do
    ensureFolders filePath
    writeFileC env filePath (Content.bytes file.data)

/-! ## createArchive -/

structure ArchiveResult where
  zipPath : String
  manifestFiles : List String
deriving Repr, DecidableEq

/-- `CreateArchiveOptions` (the progress callback has no observable
effect in the model and the two timeout budgets never fire in the
interpreter, so only the behaviour-relevant fields remain). -/
structure CreateArchiveOptions where
  deleteOriginals : Bool := false
  batchSize : Option Nat := none
  preserveBaseName : Bool := false
deriving Repr, DecidableEq

/-- The read loop of `createArchive`: read each file with the adapter
and add it to the in-memory zip, appending the path to the manifest. -/
def readFilesIntoZip : List String → ZipFile → List String → M (ZipFile × List String)
  | [], zip, manifest => mPure (zip, manifest)
  | relPath :: rest, zip, manifest => do
    let data ← readBinary relPath
    readFilesIntoZip rest (zipAddFile zip relPath (contentBytes data)) (manifest ++ [relPath])

/-- The base-name heuristic of `createArchive`: unless
`preserveBaseName` is set, when every input path shares a single
non-empty top-level folder that folder overrides `modeName`. -/
def chooseBaseName (modeName : String) (files : List String) (preserve : Bool) : String :=
  if !preserve && files.length > 0 then
    let tops := files.map (fun f => (strSplitSlash f).headD "")
    let uniq := tops.eraseDups
    if uniq.length = 1 && uniq.headD "" ≠ "" then uniq.headD "" else modeName
  else modeName

/-- The zip path `createArchive` generates, as a function of the inputs,
the state's timestamp and the first hash of the supply. -/
def plannedZipPath (archiveFolder modeName : String) (files : List String)
    (opts : CreateArchiveOptions) (now h : String) : String :=
  archiveFolder ++ "/" ++
    slugify (chooseBaseName modeName files opts.preserveBaseName) ++ "-" ++ isoSlug now ++
    "-" ++ h ++ ".zip"

/-- The `mainPromise` body of `createArchive`: read every file into the
zip, generate the binary, derive the name, ensure the destination
folder, write the zip and its manifest, and verify the written zip —
throwing (with the originals untouched and the artifacts left on disk)
when verification reports any error. -/
def createArchiveMain (env : Env) (archiveFolder modeName : String)
    (files : List String) (opts : CreateArchiveOptions) : M ArchiveResult := do
  let zm ← readFilesIntoZip files { entries := [], dirs := [] } []
  let zip := zm.1
  let manifestFiles := zm.2
  -- `zip.generateAsync({type:'uint8array'})` is modelled structurally.
  let st ← getSt
  let ts := isoSlug st.now
  let hash ← nextHash
  let baseName := chooseBaseName modeName files opts.preserveBaseName
  let safeBaseName := slugify baseName
  let zipName := safeBaseName ++ "-" ++ ts ++ "-" ++ hash ++ ".zip"
  let zipPath := archiveFolder ++ "/" ++ zipName
  catchIgnore (createFolder archiveFolder)
  writeFileC env zipPath (Content.zipc zip)
  let manifestPath := zipPath ++ ".manifest.json"
  writeFileC env manifestPath (Content.jsonManifest manifestFiles)
  let verification ← verifyZipIntegrity zipPath files
  if !verification.isValid then
    mThrow ErrKind.verificationFailed
      ("Zip verification failed: " ++ String.intercalate "; " verification.errors)
  else
    mPure { zipPath := zipPath, manifestFiles := manifestFiles }

/-! ## Deletion with rollback -/

/-- Substring test used to model `msg.includes(...)`. -/
def strContainsSub (s pat : String) : Bool := decide (pat.data <:+: s.data)

/-- The transient-error test of the adapter-remove retry loop:
the lowercased message mentions EPERM/EACCES/EBUSY/ENOTEMPTY or
"permission denied". -/
def isRetryableMsg (m : String) : Bool :=
  let low := strToLower m
  strContainsSub low "eperm" || strContainsSub low "eacces" || strContainsSub low "ebusy" ||
    strContainsSub low "enotempty" || strContainsSub low "permission denied"

/-- Re-throw a caught error object unchanged. -/
def mThrow' {α : Type} (e : Err) : M α := fun st => (Except.error e, st)

/-- The bounded retry loop of `tryRemove`: attempt `adapter.remove` up
to the remaining number of attempts, retrying (with backoff, which has
no observable effect here) on transient messages and breaking on any
other error.  Returns whether removal succeeded together with the last
error seen. -/
def removeAttemptLoop (env : Env) (p : String) : Nat → Option String → M (Bool × Option String)
  | 0, lastErr => mPure (false, lastErr)
  | Nat.succ k, _ =>
    mTryCatch (do adapterRemove env p; mPure (true, (none : Option String)))
      (fun err =>
        if isRetryableMsg err.msg then removeAttemptLoop env p k (some err.msg)
        else mPure (false, some err.msg))

/-- `tryRemove` from `deleteOriginalsWithRollback`: the retry loop, then
a rename-then-remove last resort (errors there are swallowed), then the
last error is re-thrown if one was recorded, else `false`. -/
def tryRemove (env : Env) (p : String) : M Bool := do
  let res ← removeAttemptLoop env p 5 none
  if res.1 then mPure true
  else do
    let renamed ← mTryCatch
      (do
        let h ← nextHash
        let tmp := p ++ ".deleting-" ++ h
        if env.hasRename then do
          adapterRename env p tmp
          adapterRemove env tmp
          mPure true
        else mPure false)
      (fun _ => mPure false)
    if renamed then mPure true
    else
      match res.2 with
      | some m => mThrow ErrKind.deleteFailed m
      | none => mPure false

/-- The per-file deletion strategy: prefer `app.vault.delete` on the
resolved abstract file, then fall back to `tryRemove`; every strategy's
throw is caught, so this step never throws — it reports success as a
boolean. -/
def deleteOneFile (env : Env) (p : String) : M Bool :=
  getAbstractFileExists p >>= fun af =>
  (if af then
    mTryCatch (vaultDelete env p >>= fun _ => mPure true) (fun _ => mPure false)
  else mPure false) >>= fun success₁ =>
  if success₁ then mPure true
  else mTryCatch (tryRemove env p) (fun _ => mPure false)

/-- The inner loop over one batch's paths, accumulating the global
`deleted` and `failed` lists and the batch-local `batchDeleted` list. -/
def processBatchFiles (env : Env) :
    List String → List String → List String → List String →
    M (List String × List String × List String)
  | [], deleted, failed, batchDeleted => mPure (deleted, failed, batchDeleted)
  | p :: rest, deleted, failed, batchDeleted => do
    let success ← deleteOneFile env p
    if success then
      processBatchFiles env rest (deleted ++ [p]) failed (batchDeleted ++ [p])
    else
      processBatchFiles env rest deleted (failed ++ [p]) batchDeleted

/-- Best-effort single-file rollback of a failed batch: each path
already removed in the batch is re-extracted from the zip, per-file
restore errors ignored. -/
def restoreBatchFiles (env : Env) (zipPath : String) : List String → M Unit
  | [] => mPure ()
  | f :: rest => do
    mTryCatch (restoreFileFromZip env zipPath f) (fun _ => mPure ())
    restoreBatchFiles env zipPath rest

/-- One batch of `deleteOriginalsWithRollback`: delete the batch's
paths (never throws — every per-file strategy is caught inside
`deleteOneFile`, so the only fallible step of the source's batch `try`
block is the checkpoint write), write the checkpoint, and on a batch
error restore the batch's removed files from the zip before re-throwing
the batch error. -/
def processOneBatch (env : Env) (zipPath : String) (batch : List String)
    (batchIndex totalBatches : Nat) (deleted failed : List String) :
    M (List String × List String) := do
  let res ← processBatchFiles env batch deleted failed []
  let deleted₂ := res.1
  let failed₂ := res.2.1
  let batchDeleted := res.2.2
  let st ← getSt
  let checkpointPath := zipPath ++ ".checkpoint.json"
  let r ← mTryCatch
    (do
      writeFileC env checkpointPath
        (Content.jsonCheckpoint deleted₂ (batchIndex + 1) totalBatches st.now)
      mPure (none : Option Err))
    (fun batchError => mPure (some batchError))
  match r with
  | none => mPure (deleted₂, failed₂)
  | some batchError => do
    restoreBatchFiles env zipPath batchDeleted
    mThrow' batchError

/-- The sequential batch loop. -/
def processBatches (env : Env) (zipPath : String) (totalBatches : Nat) :
    List (List String) → Nat → List String → List String → M (List String × List String)
  | [], _, deleted, failed => mPure (deleted, failed)
  | batch :: rest, batchIndex, deleted, failed => do
    let res ← processOneBatch env zipPath batch batchIndex totalBatches deleted failed
    processBatches env zipPath totalBatches rest (batchIndex + 1) res.1 res.2

/-- Batch partition (`files.slice(i, i + batchSize)` steps).  The
recursion is driven by a structural fuel argument so the definition
reduces definitionally; with fuel `l.length` and a positive chunk size
the fuel never runs out. -/
def chunkListAux (n : Nat) : Nat → List String → List (List String)
  | 0, _ => []
  | _, [] => []
  | Nat.succ fuel, x :: t =>
    (x :: t).take (max n 1) :: chunkListAux n fuel ((x :: t).drop (max n 1))

def chunkList (n : Nat) (l : List String) : List (List String) :=
  chunkListAux n l.length l

/-- The `opts?.batchSize || 10` default: 0 and absent both mean 10. -/
def effBatchSize (b : Option Nat) : Nat :=
  match b with
  | some n => if n = 0 then 10 else n
  | none => 10

/-- The `try` body of `deleteOriginalsWithRollback`: process every
batch, then write the final deletelog (with the `deleted` and `failed`
lists) and clean up the checkpoint file best-effort. -/
def deleteTryBody (env : Env) (zipPath : String) (files : List String)
    (batchSize? : Option Nat) : M Unit := do
  let batchSize := effBatchSize batchSize?
  let deleteBatches := chunkList batchSize files
  let res ← processBatches env zipPath deleteBatches.length deleteBatches 0 [] []
  let st ← getSt
  let logPath := zipPath ++ ".deletelog.json"
  writeFileC env logPath (Content.jsonDeleteLog res.1 res.2 st.now)
  catchIgnore (adapterRemove env (zipPath ++ ".checkpoint.json"))

/-- The outer `catch` of `deleteOriginalsWithRollback`: attempt a full
`restoreArchive` (default `overwrite` policy), attach a restore-time
failure to the original error as `rollbackError`, and re-throw the
original error.  The interpreter marks entry into this handler with a
`fullRestoreStart` event. -/
def rollbackHandler (env : Env) (zipPath : String) (err : Err) : M Unit := do
  emit Event.fullRestoreStart
  let r ← mTryCatch (do restoreArchive env zipPath RestorePolicy.overwrite
                        mPure (none : Option Err))
    (fun re => mPure (some re))
  match r with
  | none => mThrow' err
  | some re => mThrow' { err with rollbackError := some re.msg }

/-- `deleteOriginalsWithRollback(app, zipPath, files, opts)`: the batch
deletion protocol with full rollback on any error from the body. -/
def deleteOriginalsWithRollback (env : Env) (zipPath : String) (files : List String)
    (batchSize? : Option Nat) : M Unit :=
  mTryCatch (deleteTryBody env zipPath files batchSize?) (rollbackHandler env zipPath)

/-- `createArchive(app, vaultPath, archiveFolder, modeName, files,
options)`: the main body under the overall timeout (which never fires in
the interpreter), then — when `deleteOriginals` was requested — the
batched deletion, whose error is propagated to the caller unchanged. -/
def createArchive (env : Env) (archiveFolder modeName : String) (files : List String)
    (opts : CreateArchiveOptions) : M ArchiveResult := do
  let result ← createArchiveMain env archiveFolder modeName files opts
  if opts.deleteOriginals then do
    deleteOriginalsWithRollback env result.zipPath files opts.batchSize
    mPure result
  else
    mPure result

/-! # Concrete fixtures used by several evaluation theorems -/

def sampleVault : Vault :=
  { files := [("A/a.txt", Content.bytes [1, 2])], folders := [] }

def sampleSt : St :=
  { vault := sampleVault
    events := []
    hashes := ["h1", "h2"]
    now := "2025-01-02T03:04:05.678Z" }

def sampleZip : ZipFile :=
  { entries := [{ name := "a.txt", data := [1], unixPermissions := none }], dirs := [] }

def restoreSampleSt : St :=
  { vault := { files := [("Ar/x.zip", Content.zipc sampleZip)], folders := ["Ar"] }
    events := []
    hashes := ["h1", "h2"]
    now := "T" }

/-! # C9 — `withTimeout` -/

/-- C9: `withTimeout(operation, ms, message)` returns the operation
unchanged when `ms ≤ 0` (timeout disabled); otherwise, when the
operation settles strictly before the deadline the race yields the
operation itself (its own outcome), and when the deadline elapses
strictly before the operation settles the race yields a rejection with
a timeout error carrying `message`. -/
theorem c9_withTimeout_spec :
    (∀ (α : Type) (p : AsyncOp α) (ms : Int) (msg : String),
      ms ≤ 0 → withTimeout p ms msg = p) ∧
    (∀ (α : Type) (p : AsyncOp α) (ms : Int) (msg : String),
      0 < ms → (p.settleAt : Int) < ms → withTimeout p ms msg = p) ∧
    (∀ (α : Type) (p : AsyncOp α) (ms : Int) (msg : String),
      0 < ms → ms < (p.settleAt : Int) →
        (withTimeout p ms msg).outcome =
          Except.error { kind := ErrKind.timeout, msg := msg }) := by
  refine ⟨?_, ?_, ?_⟩
  · intro α p ms msg hms
    unfold withTimeout
    have : (ms = 0 || ms ≤ 0) = true := by
      simp only [Bool.or_eq_true, decide_eq_true_eq]
      right; exact hms
    simp [this]
  · intro α p ms msg hms hlt
    unfold withTimeout race timerPromise
    have h₁ : ¬(ms = 0 || ms ≤ 0) = true := by
      simp only [Bool.or_eq_true, decide_eq_true_eq, not_or]
      constructor
      · intro h; omega
      · omega
    simp only [h₁, if_false]
    have h₂ : p.settleAt ≤ ms.toNat := by omega
    simp [h₂]
  · intro α p ms msg hms hlt
    unfold withTimeout race timerPromise
    have h₁ : ¬(ms = 0 || ms ≤ 0) = true := by
      simp only [Bool.or_eq_true, decide_eq_true_eq, not_or]
      constructor
      · intro h; omega
      · omega
    simp only [h₁, if_false]
    have h₂ : ¬ p.settleAt ≤ ms.toNat := by omega
    simp [h₂]

/-- C9 witness: the pass-through (`ms = 0`), operation-first
(`settleAt 5 < ms 10`) and deadline-first (`ms 10 < settleAt 50`)
cases at concrete operations. -/
theorem c9_withTimeout_spec_witness :
    withTimeout (AsyncOp.mk 5 (Except.ok 1)) 0 "m" = AsyncOp.mk 5 (Except.ok 1) ∧
    withTimeout (AsyncOp.mk 5 (Except.ok 1)) 10 "m" = AsyncOp.mk 5 (Except.ok 1) ∧
    (withTimeout (AsyncOp.mk 50 (Except.ok (1 : Nat))) 10 "m").outcome =
      Except.error { kind := ErrKind.timeout, msg := "m" } :=
  ⟨c9_withTimeout_spec.1 Nat (AsyncOp.mk 5 (Except.ok 1)) 0 "m" (by decide),
   c9_withTimeout_spec.2.1 Nat (AsyncOp.mk 5 (Except.ok 1)) 10 "m" (by decide) (by decide),
   c9_withTimeout_spec.2.2 Nat (AsyncOp.mk 50 (Except.ok 1)) 10 "m" (by decide) (by decide)⟩

/-! # C7 — zip entry permissions (code bug)

The repository's own test suite
(`tests/permissions-and-deletion-behavior.test.ts`) asserts that every
entry is added with `unixPermissions` 0644, and the EPERM fix log in
the docs records that change as implemented; the `createArchive` in
`src/modes.ts` however calls `zip.file(relPath, data)` with no options,
so entries carry no permission attribute at all. -/

/-- C7: evaluating `createArchive` at a concrete input shows the
produced archive's sole entry is stored without any `unixPermissions`
attribute — in particular not with 0644 as the spec requires. -/
theorem c7_entries_lack_unix_permissions :
    (lookupFile ((createArchive benignEnv "Archive" "mode" ["A/a.txt"] {} sampleSt).2).vault
        "Archive/A-2025-01-02T03-04-05-678Z-h1.zip" =
      some (Content.zipc
        { entries := [{ name := "A/a.txt", data := [1, 2], unixPermissions := none }]
          dirs := ["A/"] })) ∧
    ((none : Option Nat) ≠ some 0o644) := by
  constructor
  · decide
  · decide

/-! # C8 — cancellation (code bug)

`CancellationToken` (src/progress-modal.ts) is faithfully embedded and
an already-cancelled token does throw a distinguishable `Cancelled`
error from `throwIfCancelled`.  But `createArchive`/`restoreArchive`
in `src/modes.ts` accept no cancellation signal at all (their options
carry no such field), so no cancellation check guards the work: the
repository's own cancellation tests
(`tests/archive-cancel.test.ts`) pass a `cancellationToken` option and
expect a throw, which this code cannot honour. -/

/-- C8: an already-cancelled token's `throwIfCancelled` yields the
distinguishable `Cancelled` error, yet `createArchive` and
`restoreArchive` — which take no signal — run to completion and their
very first recorded event is store I/O (a read), not a cancellation
abort. -/
theorem c8_engine_ignores_cancellation :
    (CancellationToken.mk true).throwIfCancelled =
      Except.error { kind := ErrKind.cancelled, msg := "Operation was cancelled" } ∧
    ((createArchive benignEnv "Archive" "mode" ["A/a.txt"] {} sampleSt).1 =
      Except.ok { zipPath := "Archive/A-2025-01-02T03-04-05-678Z-h1.zip"
                  manifestFiles := ["A/a.txt"] }) ∧
    ((createArchive benignEnv "Archive" "mode" ["A/a.txt"] {} sampleSt).2.events.head? =
      some (Event.readF "A/a.txt")) ∧
    ((restoreArchive benignEnv "Ar/x.zip" RestorePolicy.overwrite restoreSampleSt).1 =
      Except.ok ()) ∧
    ((restoreArchive benignEnv "Ar/x.zip" RestorePolicy.overwrite restoreSampleSt).2.events.head? =
      some (Event.readF "Ar/x.zip")) := by
  refine ⟨by decide, by decide, by decide, by decide, by decide⟩

/-! # C5 — `verifyZipIntegrity`

The source normalizes only the expected list before comparing
(`normalizedExpected = expectedFiles.map(normalizePath)`); the zip entry
names are compared exactly as stored.  The claim's "after normalizing
both sides' path separators" therefore fails on archives whose entry
names contain backslashes. -/

theorem bind_def {α β : Type} (m : M α) (f : α → M β) : m >>= f = mBind m f := rfl

def c5Zip : ZipFile :=
  { entries := [{ name := "a\\b.txt", data := [1], unixPermissions := none }], dirs := [] }

def c5St : St :=
  { vault := { files := [("z.zip", Content.zipc c5Zip)], folders := [] }
    events := []
    hashes := []
    now := "T" }

/-- C5 counterexample: for the archive with the single entry `a\b.txt`
and the expected list `[a\b.txt]`, normalizing both sides' path
separators yields the same singleton set (so the claim requires
`isValid = true` with `fileCount = 1`), but `verifyZipIntegrity`
returns `isValid = false` with both a missing- and an extra-files
error, because only the expected side is normalized. -/
theorem c5_two_sided_normalization_counterexample :
    ((zipEntryNames c5Zip).map normalizePath = ["a/b.txt"] ∧
      (["a\\b.txt"].map normalizePath = ["a/b.txt"])) ∧
    (verifyZipIntegrity "z.zip" ["a\\b.txt"] c5St).1 =
      Except.ok
        { isValid := false
          fileCount := 1
          errors := ["Missing files in zip: a/b.txt", "Extra files in zip: a\\b.txt"] } := by
  refine ⟨⟨by decide, by decide⟩, by decide⟩

/-- The missing-files set computed by `verifyZipIntegrity` (the
expected list is normalized, the entry names are not). -/
def verifyMissing (z : ZipFile) (expected : List String) : List String :=
  (expected.map normalizePath).filter (fun f => !((zipEntryNames z).contains f))

/-- The extra-files set computed by `verifyZipIntegrity`. -/
def verifyExtra (z : ZipFile) (expected : List String) : List String :=
  (zipEntryNames z).filter (fun f => !((expected.map normalizePath).contains f))

/-- The error list `verifyZipIntegrity` accumulates on the non-throwing
path. -/
def verifyErrorList (z : ZipFile) (expected : List String) : List String :=
  (if 0 < (verifyMissing z expected).length then
    ["Missing files in zip: " ++ String.intercalate ", " (verifyMissing z expected)]
  else []) ++
  (if 0 < (verifyExtra z expected).length then
    ["Extra files in zip: " ++ String.intercalate ", " (verifyExtra z expected)]
  else [])

/-- C5 amended: with normalization applied to the expected list only
(entry names compared as stored), `verifyZipIntegrity` reports a
missing-files error exactly when some normalized expected path is
absent from the non-directory entries and an extra-files error exactly
when some entry is absent from the normalized expected list;
`isValid` holds exactly when both sets are empty, in which case
`fileCount` is the number of non-directory entries; failure to read or
parse the archive yields `isValid = false`, `fileCount = 0` and a
single error. -/
theorem c5_amended_verify_characterization :
    ∀ (zipPath : String) (expected : List String) (st : St),
      (∀ z : ZipFile, lookupFile st.vault zipPath = some (Content.zipc z) →
        (verifyZipIntegrity zipPath expected st).1 =
          Except.ok
            { isValid := (verifyMissing z expected).isEmpty && (verifyExtra z expected).isEmpty
              fileCount := (zipEntryNames z).length
              errors := verifyErrorList z expected } ∧
        (((verifyMissing z expected).isEmpty && (verifyExtra z expected).isEmpty) = true ↔
          ((∀ f ∈ expected.map normalizePath, f ∈ zipEntryNames z) ∧
            (∀ f ∈ zipEntryNames z, f ∈ expected.map normalizePath)))) ∧
      (∀ c : Content, lookupFile st.vault zipPath = some c →
        (∀ z : ZipFile, c ≠ Content.zipc z) →
        (verifyZipIntegrity zipPath expected st).1 =
          Except.ok
            { isValid := false, fileCount := 0
              errors := ["Failed to verify zip: Corrupted zip"] }) ∧
      (lookupFile st.vault zipPath = none →
        (verifyZipIntegrity zipPath expected st).1 =
          Except.ok
            { isValid := false, fileCount := 0
              errors := ["Failed to verify zip: " ++ ("ENOENT: " ++ zipPath)] }) := by
  intro zipPath expected st
  have hlen : ∀ (m x : List String) (s₁ s₂ : String),
      (((if 0 < m.length then [s₁] else []).length +
        (if 0 < x.length then [s₂] else []).length) == 0) = (m.isEmpty && x.isEmpty) := by
    intro m x s₁ s₂
    cases m <;> cases x <;> simp
  refine ⟨?_, ?_, ?_⟩
  · intro z hz
    have h₁ : readBinary zipPath st =
        (Except.ok (Content.zipc z),
          { st with events := st.events ++ [Event.readF zipPath] }) := by
      simp [readBinary, hz]
    constructor
    · simp only [verifyZipIntegrity, mTryCatch, bind_def, mBind, h₁, loadZip, mPure, emit,
        run_pure, verifyMissing, verifyExtra, verifyErrorList, List.length_append]
      rw [hlen]
    · simp only [verifyMissing, verifyExtra, Bool.and_eq_true, List.isEmpty_iff,
        List.filter_eq_nil_iff]
      constructor
      · rintro ⟨h₁m, h₂m⟩
        refine ⟨fun f hf => ?_, fun f hf => ?_⟩
        · have := h₁m f hf; simpa using this
        · have := h₂m f hf; simpa using this
      · rintro ⟨h₁m, h₂m⟩
        refine ⟨fun f hf => ?_, fun f hf => ?_⟩
        · have := h₁m f hf; simpa using this
        · have := h₂m f hf; simpa using this
  · intro c hc hnz
    have h₁ : readBinary zipPath st =
        (Except.ok c, { st with events := st.events ++ [Event.readF zipPath] }) := by
      simp [readBinary, hc]
    have h₂ : loadZip c = mThrow ErrKind.corruptZip "Corrupted zip" := by
      cases c with
      | zipc z => exact absurd rfl (hnz z)
      | bytes b => rfl
      | jsonManifest fs => rfl
      | jsonCheckpoint a b c d => rfl
      | jsonDeleteLog a b c => rfl
    simp [verifyZipIntegrity, mTryCatch, bind_def, mBind, h₁, h₂, mThrow, emit, mPure, run_pure]
  · intro hn
    have h₁ : readBinary zipPath st =
        (Except.error { kind := ErrKind.notFound, msg := "ENOENT: " ++ zipPath }, st) := by
      simp [readBinary, hn]
    simp [verifyZipIntegrity, mTryCatch, bind_def, mBind, h₁, emit, mPure, run_pure]

def c5WitnessSt : St :=
  { vault := { files := [("z.zip", Content.zipc sampleZip), ("plain.txt", Content.bytes [7])]
               folders := [] }
    events := []
    hashes := []
    now := "T" }

/-- C5 witness: the amended characterization evaluated on a matching
archive, a non-zip file, and a missing path. -/
theorem c5_amended_verify_characterization_witness :
    (verifyZipIntegrity "z.zip" ["a.txt"] c5WitnessSt).1 =
      Except.ok { isValid := true, fileCount := 1, errors := [] } ∧
    (verifyZipIntegrity "plain.txt" ["a.txt"] c5WitnessSt).1 =
      Except.ok
        { isValid := false, fileCount := 0
          errors := ["Failed to verify zip: Corrupted zip"] } ∧
    (verifyZipIntegrity "nope.zip" ["a.txt"] c5WitnessSt).1 =
      Except.ok
        { isValid := false, fileCount := 0
          errors := ["Failed to verify zip: ENOENT: nope.zip"] } := by
  refine ⟨?_, ?_, ?_⟩
  · have h := ((c5_amended_verify_characterization "z.zip" ["a.txt"] c5WitnessSt).1 sampleZip
      (by decide)).1
    exact h.trans (by decide)
  · have h := (c5_amended_verify_characterization "plain.txt" ["a.txt"] c5WitnessSt).2.1
      (Content.bytes [7]) (by decide) (fun z => by simp)
    exact h
  · have h := (c5_amended_verify_characterization "nope.zip" ["a.txt"] c5WitnessSt).2.2
      (by decide)
    exact h.trans (by decide)

/-! # Generic interpreter facts

`PreservesNow m`: the step never changes the state's timestamp.
`NeverThrows m`: the step always returns `Except.ok` (every failure
inside is caught). -/

def PreservesNow {α : Type} (m : M α) : Prop := ∀ st : St, ((m st).2).now = st.now

def NeverThrows {α : Type} (m : M α) : Prop :=
  ∀ st : St, ∃ a st', m st = (Except.ok a, st')

theorem preservesNow_bind {α β : Type} {m : M α} {f : α → M β}
    (hm : PreservesNow m) (hf : ∀ a, PreservesNow (f a)) : PreservesNow (m >>= f) := by
  intro st
  rw [run_bind]
  rcases hr : m st with ⟨r, st₂⟩
  have h₂ : st₂.now = st.now := by
    have := hm st; rw [hr] at this; exact this
  cases r with
  | ok a =>
    simp only []
    have := hf a st₂
    rw [h₂] at this
    exact this
  | error e => simpa using h₂

theorem preservesNow_tryCatch {α : Type} {m : M α} {h : Err → M α}
    (hm : PreservesNow m) (hh : ∀ e, PreservesNow (h e)) : PreservesNow (mTryCatch m h) := by
  intro st
  unfold mTryCatch
  rcases hr : m st with ⟨r, st₂⟩
  have h₂ : st₂.now = st.now := by
    have := hm st; rw [hr] at this; exact this
  cases r with
  | ok a => simpa using h₂
  | error e =>
    simp only []
    have := hh e st₂
    rw [h₂] at this
    exact this

theorem preservesNow_pure {α : Type} (a : α) : PreservesNow (pure a : M α) := by
  intro st; rfl

theorem preservesNow_mPure {α : Type} (a : α) : PreservesNow (mPure a : M α) := by
  intro st; rfl

theorem preservesNow_mThrow {α : Type} (k : ErrKind) (msg : String) :
    PreservesNow (mThrow k msg : M α) := by
  intro st; rfl

theorem preservesNow_mThrow' {α : Type} (e : Err) : PreservesNow (mThrow' e : M α) := by
  intro st; rfl

theorem preservesNow_emit (e : Event) : PreservesNow (emit e) := by
  intro st; rfl

theorem preservesNow_nextHash : PreservesNow nextHash := by
  intro st
  unfold nextHash
  cases st.hashes <;> rfl

theorem preservesNow_getSt : PreservesNow getSt := by
  intro st; rfl

theorem preservesNow_getAbstractFileExists (p : String) :
    PreservesNow (getAbstractFileExists p) := by
  intro st; rfl

theorem preservesNow_readBinary (p : String) : PreservesNow (readBinary p) := by
  intro st
  unfold readBinary
  cases lookupFile st.vault p <;> rfl

theorem preservesNow_writeFileC (env : Env) (p : String) (c : Content) :
    PreservesNow (writeFileC env p c) := by
  intro st
  unfold writeFileC
  cases env.writeErr p <;> rfl

theorem preservesNow_createFolder (p : String) : PreservesNow (createFolder p) := by
  intro st
  unfold createFolder
  split <;> rfl

theorem preservesNow_vaultDelete (env : Env) (p : String) :
    PreservesNow (vaultDelete env p) := by
  intro st
  unfold vaultDelete
  split <;> rfl

theorem preservesNow_adapterRemove (env : Env) (p : String) :
    PreservesNow (adapterRemove env p) := by
  intro st
  unfold adapterRemove
  cases lookupFile st.vault p with
  | none => rfl
  | some c => cases env.removeErr p <;> rfl

theorem preservesNow_adapterRename (env : Env) (src dst : String) :
    PreservesNow (adapterRename env src dst) := by
  intro st
  unfold adapterRename
  split
  · rfl
  · split <;> rfl

theorem preservesNow_catchIgnore {m : M Unit} (hm : PreservesNow m) :
    PreservesNow (catchIgnore m) :=
  preservesNow_tryCatch hm (fun _ => preservesNow_mPure ())

theorem neverThrows_tryCatch {α : Type} {m : M α} {h : Err → M α}
    (hh : ∀ e, NeverThrows (h e)) : NeverThrows (mTryCatch m h) := by
  intro st
  unfold mTryCatch
  rcases hr : m st with ⟨r, st₂⟩
  cases r with
  | ok a => exact ⟨a, st₂, rfl⟩
  | error e =>
    obtain ⟨a, st₃, hrun⟩ := hh e st₂
    exact ⟨a, st₃, hrun⟩

theorem neverThrows_bind {α β : Type} {m : M α} {f : α → M β}
    (hm : NeverThrows m) (hf : ∀ a, NeverThrows (f a)) : NeverThrows (m >>= f) := by
  intro st
  obtain ⟨a, st₂, hrun⟩ := hm st
  obtain ⟨b, st₃, hrun₂⟩ := hf a st₂
  exact ⟨b, st₃, by rw [run_bind, hrun]; exact hrun₂⟩

theorem neverThrows_pure {α : Type} (a : α) : NeverThrows (pure a : M α) := by
  intro st; exact ⟨a, st, rfl⟩

theorem neverThrows_mPure {α : Type} (a : α) : NeverThrows (mPure a : M α) := by
  intro st; exact ⟨a, st, rfl⟩

/-! ## Facts about the per-file deletion strategies -/

theorem preservesNow_removeAttemptLoop (env : Env) (p : String) :
    ∀ (n : Nat) (le : Option String), PreservesNow (removeAttemptLoop env p n le) := by
  intro n
  induction n with
  | zero => intro le; exact preservesNow_mPure _
  | succ k ih =>
    intro le
    refine preservesNow_tryCatch ?_ ?_
    · exact preservesNow_bind (preservesNow_adapterRemove env p) (fun _ => preservesNow_mPure _)
    · intro e
      by_cases h : isRetryableMsg e.msg = true
      · simpa [removeAttemptLoop, h] using ih (some e.msg)
      · simpa [removeAttemptLoop, h] using preservesNow_mPure (α := Bool × Option String) _

theorem neverThrows_removeAttemptLoop (env : Env) (p : String) :
    ∀ (n : Nat) (le : Option String), NeverThrows (removeAttemptLoop env p n le) := by
  intro n
  induction n with
  | zero => intro le; exact neverThrows_mPure _
  | succ k ih =>
    intro le
    refine neverThrows_tryCatch ?_
    intro e
    by_cases h : isRetryableMsg e.msg = true
    · simpa [removeAttemptLoop, h] using ih (some e.msg)
    · simpa [removeAttemptLoop, h] using neverThrows_mPure (α := Bool × Option String) _

theorem preservesNow_tryRemove (env : Env) (p : String) : PreservesNow (tryRemove env p) := by
  refine preservesNow_bind (preservesNow_removeAttemptLoop env p 5 none) ?_
  intro res
  by_cases h : res.1 = true
  · simpa [tryRemove, h] using preservesNow_mPure (α := Bool) _
  · simp only [tryRemove, h]
    refine preservesNow_bind (preservesNow_tryCatch ?_ (fun _ => preservesNow_mPure _)) ?_
    · refine preservesNow_bind preservesNow_nextHash ?_
      intro hh
      by_cases hr : env.hasRename = true
      · simp only [hr, if_true]
        exact preservesNow_bind (preservesNow_adapterRename env p _)
          (fun _ => preservesNow_bind (preservesNow_adapterRemove env _)
            (fun _ => preservesNow_mPure _))
      · simpa [hr] using preservesNow_mPure (α := Bool) _
    · intro renamed
      by_cases hr : renamed = true
      · simpa [hr] using preservesNow_mPure (α := Bool) _
      · simp only [hr]
        cases res.2 with
        | some m => simpa using preservesNow_mThrow (α := Bool) _ _
        | none => simpa using preservesNow_mPure (α := Bool) _

theorem preservesNow_deleteOneFile (env : Env) (p : String) :
    PreservesNow (deleteOneFile env p) := by
  unfold deleteOneFile
  refine preservesNow_bind (preservesNow_getAbstractFileExists p) ?_
  intro af
  refine preservesNow_bind ?_ ?_
  · by_cases h : af = true
    · simp only [h, if_true]
      exact preservesNow_tryCatch
        (preservesNow_bind (preservesNow_vaultDelete env p) (fun _ => preservesNow_mPure _))
        (fun _ => preservesNow_mPure _)
    · simp only [h, if_false]
      exact preservesNow_mPure _
  · intro s₁
    by_cases h : s₁ = true
    · simp only [h, if_true]
      exact preservesNow_mPure _
    · simp only [h, if_false]
      exact preservesNow_tryCatch (preservesNow_tryRemove env p)
        (fun _ => preservesNow_mPure _)

theorem neverThrows_deleteOneFile (env : Env) (p : String) :
    NeverThrows (deleteOneFile env p) := by
  unfold deleteOneFile
  refine neverThrows_bind ?_ ?_
  · intro st; exact ⟨existsInVault st.vault p, st, rfl⟩
  · intro af
    refine neverThrows_bind ?_ ?_
    · by_cases h : af = true
      · simp only [h, if_true]
        exact neverThrows_tryCatch (fun _ => neverThrows_mPure _)
      · simp only [h, if_false]
        exact neverThrows_mPure _
    · intro s₁
      by_cases h : s₁ = true
      · simp only [h, if_true]
        exact neverThrows_mPure _
      · simp only [h, if_false]
        exact neverThrows_tryCatch (fun _ => neverThrows_mPure _)

/-- The per-file loop of a batch never throws, preserves the timestamp,
and partitions the batch into the newly deleted and newly failed lists
it appends to the running accumulators (`batchDeleted` receives exactly
the newly deleted paths). -/
theorem processBatchFiles_spec (env : Env) :
    ∀ (batch d f bd : List String) (st : St),
      ∃ (nD nF : List String) (st' : St),
        processBatchFiles env batch d f bd st =
          (Except.ok (d ++ nD, f ++ nF, bd ++ nD), st') ∧
        st'.now = st.now ∧
        (∀ p ∈ batch, p ∈ nD ∨ p ∈ nF) ∧
        (∀ p ∈ nD, p ∈ batch) ∧ (∀ p ∈ nF, p ∈ batch) := by
  intro batch
  induction batch with
  | nil =>
    intro d f bd st
    exact ⟨[], [], st, by simp [processBatchFiles, mPure], rfl, by simp, by simp, by simp⟩
  | cons p rest ih =>
    intro d f bd st
    obtain ⟨b, st₁, h₁⟩ := neverThrows_deleteOneFile env p st
    have hnow₁ : st₁.now = st.now := by
      have := preservesNow_deleteOneFile env p st
      rw [h₁] at this
      exact this
    cases b with
    | true =>
      obtain ⟨nD, nF, st', hrun, hnow, hmem, hsub₁, hsub₂⟩ := ih (d ++ [p]) f (bd ++ [p]) st₁
      refine ⟨p :: nD, nF, st', ?_, by rw [hnow, hnow₁], ?_, ?_, ?_⟩
      · show (processBatchFiles env (p :: rest) d f bd) st = _
        rw [show processBatchFiles env (p :: rest) d f bd =
          (deleteOneFile env p >>= fun success =>
            if success then processBatchFiles env rest (d ++ [p]) f (bd ++ [p])
            else processBatchFiles env rest d (f ++ [p]) bd) from rfl]
        rw [run_bind_ok h₁]
        simp only [if_true]
        rw [hrun]
        simp
      · intro q hq
        rcases List.mem_cons.mp hq with hq | hq
        · exact Or.inl (by simp [hq])
        · rcases hmem q hq with h | h
          · exact Or.inl (by simp [h])
          · exact Or.inr h
      · intro q hq
        rcases List.mem_cons.mp hq with hq | hq
        · simp [hq]
        · have := hsub₁ q hq; simp [this]
      · intro q hq
        have := hsub₂ q hq; simp [this]
    | false =>
      obtain ⟨nD, nF, st', hrun, hnow, hmem, hsub₁, hsub₂⟩ := ih d (f ++ [p]) bd st₁
      refine ⟨nD, p :: nF, st', ?_, by rw [hnow, hnow₁], ?_, ?_, ?_⟩
      · show (processBatchFiles env (p :: rest) d f bd) st = _
        rw [show processBatchFiles env (p :: rest) d f bd =
          (deleteOneFile env p >>= fun success =>
            if success then processBatchFiles env rest (d ++ [p]) f (bd ++ [p])
            else processBatchFiles env rest d (f ++ [p]) bd) from rfl]
        rw [run_bind_ok h₁]
        simp only [Bool.false_eq_true, if_false]
        rw [hrun]
        simp
      · intro q hq
        rcases List.mem_cons.mp hq with hq | hq
        · exact Or.inr (by simp [hq])
        · rcases hmem q hq with h | h
          · exact Or.inl h
          · exact Or.inr (by simp [h])
      · intro q hq
        have := hsub₁ q hq; simp [this]
      · intro q hq
        rcases List.mem_cons.mp hq with hq | hq
        · simp [hq]
        · have := hsub₂ q hq; simp [this]

theorem neverThrows_restoreBatchFiles (env : Env) (zipPath : String) :
    ∀ (l : List String), NeverThrows (restoreBatchFiles env zipPath l) := by
  intro l
  induction l with
  | nil => exact neverThrows_mPure _
  | cons p rest ih =>
    exact neverThrows_bind (neverThrows_tryCatch (fun _ => neverThrows_mPure _)) (fun _ => ih)

/-- When one batch step returns normally, its result extends the
accumulators with a partition of the batch and preserves the
timestamp (the checkpoint write succeeded). -/
theorem processOneBatch_ok (env : Env) (zipPath : String) (batch : List String)
    (bi tb : Nat) (d f : List String) (st : St) (D F : List String) (st' : St)
    (h : processOneBatch env zipPath batch bi tb d f st = (Except.ok (D, F), st')) :
    ∃ nD nF, D = d ++ nD ∧ F = f ++ nF ∧ (∀ p ∈ batch, p ∈ nD ∨ p ∈ nF) ∧
      st'.now = st.now := by
  obtain ⟨nD, nF, st₁, h₁, hnow₁, hmem, _, _⟩ := processBatchFiles_spec env batch d f [] st
  rw [show processOneBatch env zipPath batch bi tb d f =
    (processBatchFiles env batch d f [] >>= fun res =>
      getSt >>= fun st₀ =>
      mTryCatch
        (writeFileC env (zipPath ++ ".checkpoint.json")
          (Content.jsonCheckpoint res.1 (bi + 1) tb st₀.now) >>= fun _ =>
          mPure (none : Option Err))
        (fun batchError => mPure (some batchError)) >>= fun r =>
      match r with
      | none => mPure (res.1, res.2.1)
      | some batchError =>
          restoreBatchFiles env zipPath res.2.2 >>= fun _ => mThrow' batchError) from rfl]
    at h
  rw [run_bind_ok h₁] at h
  rw [run_bind_ok (show getSt st₁ = (Except.ok st₁, st₁) from rfl)] at h
  dsimp only at h
  cases hw : env.writeErr (zipPath ++ ".checkpoint.json") with
  | none =>
    have hwr : writeFileC env (zipPath ++ ".checkpoint.json")
        (Content.jsonCheckpoint (d ++ nD) (bi + 1) tb st₁.now) st₁ =
        (Except.ok (),
          { st₁ with
            vault := vaultInsert st₁.vault (zipPath ++ ".checkpoint.json")
              (Content.jsonCheckpoint (d ++ nD) (bi + 1) tb st₁.now)
            events := st₁.events ++ [Event.writeF (zipPath ++ ".checkpoint.json")] }) := by
      simp [writeFileC, hw]
    have hbody : (writeFileC env (zipPath ++ ".checkpoint.json")
        (Content.jsonCheckpoint (d ++ nD) (bi + 1) tb st₁.now) >>= fun _ =>
          mPure (none : Option Err)) st₁ =
        (Except.ok (none : Option Err),
          { st₁ with
            vault := vaultInsert st₁.vault (zipPath ++ ".checkpoint.json")
              (Content.jsonCheckpoint (d ++ nD) (bi + 1) tb st₁.now)
            events := st₁.events ++ [Event.writeF (zipPath ++ ".checkpoint.json")] }) := by
      rw [run_bind_ok hwr]; rfl
    rw [run_bind_ok (run_tryCatch_ok hbody)] at h
    dsimp only [mPure] at h
    simp only [Prod.mk.injEq, Except.ok.injEq] at h
    obtain ⟨⟨hD, hF⟩, hst⟩ := h
    refine ⟨nD, nF, hD.symm, hF.symm, hmem, ?_⟩
    rw [← hst]
    simp [hnow₁]
  | some m =>
    have hwr : writeFileC env (zipPath ++ ".checkpoint.json")
        (Content.jsonCheckpoint (d ++ nD) (bi + 1) tb st₁.now) st₁ =
        (Except.error { kind := ErrKind.writeFailed, msg := m }, st₁) := by
      simp [writeFileC, hw]
    have hcatch : mTryCatch
        (writeFileC env (zipPath ++ ".checkpoint.json")
          (Content.jsonCheckpoint (d ++ nD) (bi + 1) tb st₁.now) >>= fun _ =>
          mPure (none : Option Err))
        (fun batchError => mPure (some batchError)) st₁ =
        (Except.ok (some { kind := ErrKind.writeFailed, msg := m } : Option Err), st₁) := by
      rw [run_tryCatch_err (run_bind_err hwr)]; rfl
    rw [run_bind_ok hcatch] at h
    dsimp only at h
    simp only [List.nil_append] at h
    obtain ⟨u, st₂, h₂⟩ := neverThrows_restoreBatchFiles env zipPath nD st₁
    rw [run_bind_ok h₂] at h
    simp [mThrow'] at h

/-- When the whole batch loop returns normally, the accumulated
`deleted`/`failed` lists partition every path of every batch, and the
timestamp is preserved. -/
theorem processBatches_ok (env : Env) (zipPath : String) (tb : Nat) :
    ∀ (batches : List (List String)) (bi : Nat) (d f : List String) (st : St)
      (D F : List String) (st' : St),
      processBatches env zipPath tb batches bi d f st = (Except.ok (D, F), st') →
      ∃ nD nF, D = d ++ nD ∧ F = f ++ nF ∧
        (∀ p ∈ batches.flatten, p ∈ nD ∨ p ∈ nF) ∧ st'.now = st.now := by
  intro batches
  induction batches with
  | nil =>
    intro bi d f st D F st' h
    simp only [processBatches, mPure, Prod.mk.injEq, Except.ok.injEq] at h
    obtain ⟨⟨hD, hF⟩, hst⟩ := h
    exact ⟨[], [], by simp [← hD], by simp [← hF], by simp, by rw [← hst]⟩
  | cons batch rest ih =>
    intro bi d f st D F st' h
    rw [show processBatches env zipPath tb (batch :: rest) bi d f =
      (processOneBatch env zipPath batch bi tb d f >>= fun res =>
        processBatches env zipPath tb rest (bi + 1) res.1 res.2) from rfl] at h
    rcases h₀ : processOneBatch env zipPath batch bi tb d f st with ⟨r₀, st₁⟩
    cases r₀ with
    | error e =>
      rw [run_bind_err h₀] at h
      simp at h
    | ok res =>
      rw [run_bind_ok h₀] at h
      obtain ⟨nD₁, nF₁, hD₁, hF₁, hmem₁, hnow₁⟩ :=
        processOneBatch_ok env zipPath batch bi tb d f st res.1 res.2 st₁
          (by rw [h₀])
      obtain ⟨nD₂, nF₂, hD₂, hF₂, hmem₂, hnow₂⟩ := ih (bi + 1) res.1 res.2 st₁ D F st' h
      refine ⟨nD₁ ++ nD₂, nF₁ ++ nF₂, ?_, ?_, ?_, ?_⟩
      · rw [hD₂, hD₁, List.append_assoc]
      · rw [hF₂, hF₁, List.append_assoc]
      · intro p hp
        rw [List.flatten_cons] at hp
        rcases List.mem_append.mp hp with hp | hp
        · rcases hmem₁ p hp with hh | hh
          · exact Or.inl (List.mem_append.mpr (Or.inl hh))
          · exact Or.inr (List.mem_append.mpr (Or.inl hh))
        · rcases hmem₂ p hp with hh | hh
          · exact Or.inl (List.mem_append.mpr (Or.inr hh))
          · exact Or.inr (List.mem_append.mpr (Or.inr hh))
      · rw [hnow₂, hnow₁]

theorem chunkListAux_flatten (n : Nat) :
    ∀ (fuel : Nat) (l : List String), l.length ≤ fuel →
      (chunkListAux n fuel l).flatten = l := by
  intro fuel
  induction fuel with
  | zero =>
    intro l hl
    have : l = [] := List.length_eq_zero.mp (Nat.le_zero.mp hl)
    subst this
    rfl
  | succ k ih =>
    intro l hl
    cases l with
    | nil => rfl
    | cons x t =>
      show ((x :: t).take (max n 1) :: chunkListAux n k ((x :: t).drop (max n 1))).flatten
        = x :: t
      rw [List.flatten_cons]
      rw [ih ((x :: t).drop (max n 1))
        (by
          rw [List.length_drop]
          simp only [List.length_cons] at hl ⊢
          omega)]
      exact List.take_append_drop _ _

theorem chunkList_flatten (n : Nat) (l : List String) : (chunkList n l).flatten = l :=
  chunkListAux_flatten n l.length l (Nat.le_refl _)

/-- The rollback handler always re-throws: it yields an error whose
kind and message are those of the original error, with `rollbackError`
set to the restore failure's message when the full restore failed and
left unset when it succeeded. -/
theorem rollbackHandler_throws (env : Env) (zipPath : String) (err : Err) (st : St) :
    ∃ e' st', rollbackHandler env zipPath err st = (Except.error e', st') ∧
      e'.kind = err.kind ∧ e'.msg = err.msg := by
  rw [show rollbackHandler env zipPath err =
    (emit Event.fullRestoreStart >>= fun _ =>
      mTryCatch (restoreArchive env zipPath RestorePolicy.overwrite >>= fun _ =>
        mPure (none : Option Err)) (fun re => mPure (some re)) >>= fun r =>
      match r with
      | none => mThrow' err
      | some re => mThrow' { err with rollbackError := some re.msg }) from rfl]
  rw [run_bind_ok (show emit Event.fullRestoreStart st =
    (Except.ok (), { st with events := st.events ++ [Event.fullRestoreStart] }) from rfl)]
  rcases hr : restoreArchive env zipPath RestorePolicy.overwrite
      { st with events := st.events ++ [Event.fullRestoreStart] } with ⟨r₂, st₂⟩
  cases r₂ with
  | ok u =>
    have hcatch := run_tryCatch_ok (m := restoreArchive env zipPath RestorePolicy.overwrite
        >>= fun _ => mPure (none : Option Err)) (h := fun re => mPure (some re))
      (show _ = (Except.ok (none : Option Err), st₂) from by rw [run_bind_ok hr]; rfl)
    rw [run_bind_ok hcatch]
    exact ⟨err, st₂, rfl, rfl, rfl⟩
  | error re =>
    have hcatch := run_tryCatch_err (m := restoreArchive env zipPath RestorePolicy.overwrite
        >>= fun _ => mPure (none : Option Err)) (h := fun re => mPure (some re))
      (run_bind_err hr)
    have hcatch₂ : mTryCatch (restoreArchive env zipPath RestorePolicy.overwrite >>= fun _ =>
        mPure (none : Option Err)) (fun re => mPure (some re))
        { st with events := st.events ++ [Event.fullRestoreStart] } =
        (Except.ok (some re : Option Err), st₂) := by rw [hcatch]; rfl
    rw [run_bind_ok hcatch₂]
    exact ⟨{ err with rollbackError := some re.msg }, st₂, rfl, rfl, rfl⟩

theorem strAppend_ne_right {s a b : String} (h : a.data ≠ b.data) : s ++ a ≠ s ++ b := by
  intro hc
  exact h (List.append_cancel_left (congrArg String.data hc))

/-! # C2 — the deletion contract of `deleteOriginalsWithRollback`

The per-file strategies catch every throw (`try { success = await
tryRemove(); } catch { success = false; }`) and record unremovable
paths in the `failed` list instead of throwing; the function then
returns normally and writes that (possibly non-empty) `failed` list
into the deletelog.  The claimed binary contract therefore fails. -/

def c2Env : Env :=
  { vaultDeleteOk := fun _ => false
    removeErr := fun p => if p = "a.txt" then some "disk error" else none
    writeErr := fun _ => none
    hasRename := false
    renameOk := fun _ => true }

def c2St : St :=
  { vault := { files := [("a.txt", Content.bytes [1]), ("Ar/x.zip", Content.zipc sampleZip)]
               folders := ["Ar"] }
    events := []
    hashes := ["h1", "h2"]
    now := "T" }

/-- C2 counterexample: `a.txt` exists in the store and every deletion
strategy for it fails (non-retryably), yet `deleteOriginalsWithRollback`
returns normally with `a.txt` still present and a deletelog whose
`failed` list is `["a.txt"]` — contradicting the claimed binary
contract (normal return only with every requested existing file removed
and an empty `failed` list). -/
theorem c2_binary_contract_counterexample :
    existsInVault c2St.vault "a.txt" = true ∧
    (deleteOriginalsWithRollback c2Env "Ar/x.zip" ["a.txt"] none c2St).1 = Except.ok () ∧
    lookupFile ((deleteOriginalsWithRollback c2Env "Ar/x.zip" ["a.txt"] none c2St).2).vault
      "a.txt" = some (Content.bytes [1]) ∧
    lookupFile ((deleteOriginalsWithRollback c2Env "Ar/x.zip" ["a.txt"] none c2St).2).vault
      ("Ar/x.zip" ++ ".deletelog.json") =
      some (Content.jsonDeleteLog [] ["a.txt"] "T") := by
  refine ⟨by decide, by decide, by decide, by decide⟩

/-- C2 amended: on every normal return,
`deleteOriginalsWithRollback` has written the deletelog
`{deleted, failed, timestamp}` next to the zip, every requested path is
recorded in `deleted` or in `failed` (which may be non-empty — files
that could not be removed are recorded there rather than making the
call throw), and the checkpoint file has been cleaned up whenever its
removal succeeds (best-effort). -/
theorem c2_amended_normal_return_writes_deletelog :
    ∀ (env : Env) (zipPath : String) (files : List String) (bs : Option Nat)
      (st st' : St),
      deleteOriginalsWithRollback env zipPath files bs st = (Except.ok (), st') →
      ∃ deleted failed : List String,
        lookupFile st'.vault (zipPath ++ ".deletelog.json") =
          some (Content.jsonDeleteLog deleted failed st.now) ∧
        (∀ p ∈ files, p ∈ deleted ∨ p ∈ failed) ∧
        (env.removeErr (zipPath ++ ".checkpoint.json") = none →
          lookupFile st'.vault (zipPath ++ ".checkpoint.json") = none) := by
  intro env zipPath files bs st st' h
  unfold deleteOriginalsWithRollback at h
  rcases hb : deleteTryBody env zipPath files bs st with ⟨r₀, st₁⟩
  cases r₀ with
  | error e =>
    rw [run_tryCatch_err hb] at h
    obtain ⟨e', st₂, hrun, _, _⟩ := rollbackHandler_throws env zipPath e st₁
    rw [hrun] at h
    simp at h
  | ok u =>
    rw [run_tryCatch_ok hb] at h
    obtain ⟨_, hst⟩ := Prod.mk.injEq _ _ _ _ ▸ h
    subst hst
    -- analyze the successful body
    rw [show deleteTryBody env zipPath files bs =
      (processBatches env zipPath (chunkList (effBatchSize bs) files).length
        (chunkList (effBatchSize bs) files) 0 [] [] >>= fun res =>
        getSt >>= fun st₀ =>
        writeFileC env (zipPath ++ ".deletelog.json")
          (Content.jsonDeleteLog res.1 res.2 st₀.now) >>= fun _ =>
        catchIgnore (adapterRemove env (zipPath ++ ".checkpoint.json"))) from rfl] at hb
    rcases hp : processBatches env zipPath (chunkList (effBatchSize bs) files).length
        (chunkList (effBatchSize bs) files) 0 [] [] st with ⟨rp, st₂⟩
    cases rp with
    | error e =>
      rw [run_bind_err hp] at hb
      simp at hb
    | ok res =>
      rw [run_bind_ok hp] at hb
      rw [run_bind_ok (show getSt st₂ = (Except.ok st₂, st₂) from rfl)] at hb
      obtain ⟨nD, nF, hD, hF, hmem, hnow₂⟩ :=
        processBatches_ok env zipPath _ _ 0 [] [] st res.1 res.2 st₂ (by rw [hp])
      cases hw : env.writeErr (zipPath ++ ".deletelog.json") with
      | some m =>
        have hwr : writeFileC env (zipPath ++ ".deletelog.json")
            (Content.jsonDeleteLog res.1 res.2 st₂.now) st₂ =
            (Except.error { kind := ErrKind.writeFailed, msg := m }, st₂) := by
          simp [writeFileC, hw]
        rw [run_bind_err hwr] at hb
        simp at hb
      | none =>
        have hwr : writeFileC env (zipPath ++ ".deletelog.json")
            (Content.jsonDeleteLog res.1 res.2 st₂.now) st₂ =
            (Except.ok (),
              { st₂ with
                vault := vaultInsert st₂.vault (zipPath ++ ".deletelog.json")
                  (Content.jsonDeleteLog res.1 res.2 st₂.now)
                events := st₂.events ++ [Event.writeF (zipPath ++ ".deletelog.json")] }) := by
          simp [writeFileC, hw]
        rw [run_bind_ok hwr] at hb
        have hne : (zipPath ++ ".deletelog.json") ≠ (zipPath ++ ".checkpoint.json") :=
          strAppend_ne_right (by decide)
        -- the state after the deletelog write
        refine ⟨res.1, res.2, ?_⟩
        rcases hclean : lookupFile
            (vaultInsert st₂.vault (zipPath ++ ".deletelog.json")
              (Content.jsonDeleteLog res.1 res.2 st₂.now))
            (zipPath ++ ".checkpoint.json") with _ | c
        · -- checkpoint absent: adapter.remove throws, catch ignores, state unchanged
          have hrm : adapterRemove env (zipPath ++ ".checkpoint.json")
              { st₂ with
                vault := vaultInsert st₂.vault (zipPath ++ ".deletelog.json")
                  (Content.jsonDeleteLog res.1 res.2 st₂.now)
                events := st₂.events ++ [Event.writeF (zipPath ++ ".deletelog.json")] } =
              (Except.error
                  { kind := ErrKind.notFound
                    msg := "enoent: " ++ (zipPath ++ ".checkpoint.json") },
                { st₂ with
                  vault := vaultInsert st₂.vault (zipPath ++ ".deletelog.json")
                    (Content.jsonDeleteLog res.1 res.2 st₂.now)
                  events := st₂.events ++ [Event.writeF (zipPath ++ ".deletelog.json")] }) := by
            unfold adapterRemove
            simp only [hclean]
          rw [show catchIgnore (adapterRemove env (zipPath ++ ".checkpoint.json")) =
            mTryCatch (adapterRemove env (zipPath ++ ".checkpoint.json"))
              (fun _ => mPure ()) from rfl] at hb
          rw [run_tryCatch_err hrm] at hb
          simp only [mPure, Prod.mk.injEq] at hb
          obtain ⟨_, hst₁⟩ := hb
          subst hst₁
          refine ⟨?_, ?_, ?_⟩
          · rw [hnow₂]
            exact lookup_vaultInsert_self _ _ _
          · intro p hp
            have : p ∈ (chunkList (effBatchSize bs) files).flatten := by
              rw [chunkList_flatten]; exact hp
            have := hmem p this
            rw [hD, hF]
            simpa using this
          · intro _
            exact hclean
        · -- checkpoint present
          cases hwrm : env.removeErr (zipPath ++ ".checkpoint.json") with
          | some m =>
            have hrm : adapterRemove env (zipPath ++ ".checkpoint.json")
                { st₂ with
                  vault := vaultInsert st₂.vault (zipPath ++ ".deletelog.json")
                    (Content.jsonDeleteLog res.1 res.2 st₂.now)
                  events := st₂.events ++ [Event.writeF (zipPath ++ ".deletelog.json")] } =
                (Except.error { kind := ErrKind.deleteFailed, msg := m },
                  { st₂ with
                    vault := vaultInsert st₂.vault (zipPath ++ ".deletelog.json")
                      (Content.jsonDeleteLog res.1 res.2 st₂.now)
                    events := st₂.events ++ [Event.writeF (zipPath ++ ".deletelog.json")] }) := by
              unfold adapterRemove
              simp only [hclean, hwrm]
            rw [show catchIgnore (adapterRemove env (zipPath ++ ".checkpoint.json")) =
              mTryCatch (adapterRemove env (zipPath ++ ".checkpoint.json"))
                (fun _ => mPure ()) from rfl] at hb
            rw [run_tryCatch_err hrm] at hb
            simp only [mPure, Prod.mk.injEq] at hb
            obtain ⟨_, hst₁⟩ := hb
            subst hst₁
            refine ⟨?_, ?_, ?_⟩
            · rw [hnow₂]
              exact lookup_vaultInsert_self _ _ _
            · intro p hp
              have : p ∈ (chunkList (effBatchSize bs) files).flatten := by
                rw [chunkList_flatten]; exact hp
              have := hmem p this
              rw [hD, hF]
              simpa using this
            · intro hcontra
              simp [hwrm] at hcontra
          | none =>
            have hrm : adapterRemove env (zipPath ++ ".checkpoint.json")
                { st₂ with
                  vault := vaultInsert st₂.vault (zipPath ++ ".deletelog.json")
                    (Content.jsonDeleteLog res.1 res.2 st₂.now)
                  events := st₂.events ++ [Event.writeF (zipPath ++ ".deletelog.json")] } =
                (Except.ok (),
                  { st₂ with
                    vault := vaultRemove
                      (vaultInsert st₂.vault (zipPath ++ ".deletelog.json")
                        (Content.jsonDeleteLog res.1 res.2 st₂.now))
                      (zipPath ++ ".checkpoint.json")
                    events := st₂.events ++ [Event.writeF (zipPath ++ ".deletelog.json")] ++
                      [Event.removeF (zipPath ++ ".checkpoint.json")] }) := by
              unfold adapterRemove
              simp only [hclean, hwrm]
            rw [show catchIgnore (adapterRemove env (zipPath ++ ".checkpoint.json")) =
              mTryCatch (adapterRemove env (zipPath ++ ".checkpoint.json"))
                (fun _ => mPure ()) from rfl] at hb
            rw [run_tryCatch_ok hrm] at hb
            simp only [Prod.mk.injEq] at hb
            obtain ⟨_, hst₁⟩ := hb
            subst hst₁
            refine ⟨?_, ?_, ?_⟩
            · rw [hnow₂]
              rw [lookup_vaultRemove_other _ _ _ hne]
              exact lookup_vaultInsert_self _ _ _
            · intro p hp
              have : p ∈ (chunkList (effBatchSize bs) files).flatten := by
                rw [chunkList_flatten]; exact hp
              have := hmem p this
              rw [hD, hF]
              simpa using this
            · intro _
              exact lookup_vaultRemove_self _ _

def c2WitnessSt : St :=
  { vault := { files := [("a.txt", Content.bytes [1]), ("Ar/x.zip", Content.zipc sampleZip)]
               folders := ["Ar"] }
    events := []
    hashes := ["h1", "h2"]
    now := "T" }

/-- C2 amended witness: the benign run deletes `a.txt` and the amended
contract's conclusions hold at that concrete input. -/
theorem c2_amended_normal_return_writes_deletelog_witness :
    ∃ deleted failed : List String,
      lookupFile ((deleteOriginalsWithRollback benignEnv "Ar/x.zip" ["a.txt"] none
          c2WitnessSt).2).vault ("Ar/x.zip" ++ ".deletelog.json") =
        some (Content.jsonDeleteLog deleted failed "T") ∧
      (∀ p ∈ ["a.txt"], p ∈ deleted ∨ p ∈ failed) ∧
      (benignEnv.removeErr ("Ar/x.zip" ++ ".checkpoint.json") = none →
        lookupFile ((deleteOriginalsWithRollback benignEnv "Ar/x.zip" ["a.txt"] none
            c2WitnessSt).2).vault ("Ar/x.zip" ++ ".checkpoint.json") = none) :=
  c2_amended_normal_return_writes_deletelog benignEnv "Ar/x.zip" ["a.txt"] none
    c2WitnessSt _ (Prod.ext (by decide) rfl)

/-! # C3 — the rollback protocol of `deleteOriginalsWithRollback` -/

/-- The per-file restore markers in a trace segment. -/
def singleRestores (l : List Event) : List String :=
  l.filterMap (fun ev =>
    match ev with
    | Event.singleRestore p => some p
    | _ => none)

/-- `EmitsNoSingle m`: the step only appends events, none of which is a
per-file restore marker. -/
def EmitsNoSingle {α : Type} (m : M α) : Prop :=
  ∀ st : St, ∃ δ, ((m st).2).events = st.events ++ δ ∧ singleRestores δ = []

theorem singleRestores_append (a b : List Event) :
    singleRestores (a ++ b) = singleRestores a ++ singleRestores b := by
  simp [singleRestores]

theorem emitsNoSingle_bind {α β : Type} {m : M α} {f : α → M β}
    (hm : EmitsNoSingle m) (hf : ∀ a, EmitsNoSingle (f a)) : EmitsNoSingle (m >>= f) := by
  intro st
  rw [run_bind]
  rcases hr : m st with ⟨r, st₂⟩
  obtain ⟨δ₁, he₁, hs₁⟩ := hm st
  rw [hr] at he₁
  cases r with
  | ok a =>
    obtain ⟨δ₂, he₂, hs₂⟩ := hf a st₂
    exact ⟨δ₁ ++ δ₂, by simp only []; rw [he₂, he₁, List.append_assoc],
      by rw [singleRestores_append, hs₁, hs₂]; rfl⟩
  | error e => exact ⟨δ₁, by simpa using he₁, hs₁⟩

theorem emitsNoSingle_tryCatch {α : Type} {m : M α} {h : Err → M α}
    (hm : EmitsNoSingle m) (hh : ∀ e, EmitsNoSingle (h e)) :
    EmitsNoSingle (mTryCatch m h) := by
  intro st
  unfold mTryCatch
  rcases hr : m st with ⟨r, st₂⟩
  obtain ⟨δ₁, he₁, hs₁⟩ := hm st
  rw [hr] at he₁
  cases r with
  | ok a => exact ⟨δ₁, by simpa using he₁, hs₁⟩
  | error e =>
    obtain ⟨δ₂, he₂, hs₂⟩ := hh e st₂
    exact ⟨δ₁ ++ δ₂, by simp only []; rw [he₂, he₁, List.append_assoc],
      by rw [singleRestores_append, hs₁, hs₂]; rfl⟩

theorem emitsNoSingle_mPure {α : Type} (a : α) : EmitsNoSingle (mPure a : M α) := by
  intro st; exact ⟨[], by simp [mPure], rfl⟩

theorem emitsNoSingle_pure {α : Type} (a : α) : EmitsNoSingle (pure a : M α) :=
  emitsNoSingle_mPure a

theorem emitsNoSingle_mThrow {α : Type} (k : ErrKind) (m : String) :
    EmitsNoSingle (mThrow k m : M α) := by
  intro st; exact ⟨[], by simp [mThrow], rfl⟩

theorem emitsNoSingle_readBinary (p : String) : EmitsNoSingle (readBinary p) := by
  intro st
  unfold readBinary
  cases lookupFile st.vault p with
  | none => exact ⟨[], by simp, rfl⟩
  | some c => exact ⟨[Event.readF p], by simp, rfl⟩

theorem emitsNoSingle_writeFileC (env : Env) (p : String) (c : Content) :
    EmitsNoSingle (writeFileC env p c) := by
  intro st
  unfold writeFileC
  cases env.writeErr p with
  | some m => exact ⟨[], by simp, rfl⟩
  | none => exact ⟨[Event.writeF p], by simp, rfl⟩

theorem emitsNoSingle_createFolder (p : String) : EmitsNoSingle (createFolder p) := by
  intro st
  unfold createFolder
  split
  · exact ⟨[], by simp, rfl⟩
  · exact ⟨[], by simp, rfl⟩

theorem emitsNoSingle_loadZip (c : Content) : EmitsNoSingle (loadZip c) := by
  cases c with
  | zipc z => exact emitsNoSingle_mPure z
  | bytes b => exact emitsNoSingle_mThrow _ _
  | jsonManifest fs => exact emitsNoSingle_mThrow _ _
  | jsonCheckpoint a b c d => exact emitsNoSingle_mThrow _ _
  | jsonDeleteLog a b c => exact emitsNoSingle_mThrow _ _

theorem emitsNoSingle_ensureFoldersLoop :
    ∀ (segs : List String) (cur : String), EmitsNoSingle (ensureFoldersLoop cur segs) := by
  intro segs
  induction segs with
  | nil => intro cur; exact emitsNoSingle_mPure ()
  | cons f rest ih =>
    intro cur
    exact emitsNoSingle_bind
      (emitsNoSingle_tryCatch (emitsNoSingle_createFolder _) (fun _ => emitsNoSingle_mPure ()))
      (fun _ => ih _)

theorem emitsNoSingle_ensureFolders (p : String) : EmitsNoSingle (ensureFolders p) :=
  emitsNoSingle_ensureFoldersLoop _ ""

/-- `restoreFileFromZip` marks itself with exactly one `singleRestore`
event (first), whatever the outcome. -/
theorem restoreFileFromZip_trace (env : Env) (zipPath filePath : String) (st : St) :
    ∃ δ, ((restoreFileFromZip env zipPath filePath st).2).events =
      st.events ++ [Event.singleRestore filePath] ++ δ ∧ singleRestores δ = [] := by
  have hrest : EmitsNoSingle
      (readBinary zipPath >>= fun data =>
        loadZip data >>= fun zip =>
        match zipGetFile zip filePath with
        | none => mThrow ErrKind.entryMissing ("File " ++ filePath ++ " not found in zip")
        | some file =>
            ensureFolders filePath >>= fun _ =>
            writeFileC env filePath (Content.bytes file.data)) := by
    refine emitsNoSingle_bind (emitsNoSingle_readBinary _) ?_
    intro data
    refine emitsNoSingle_bind (emitsNoSingle_loadZip _) ?_
    intro zip
    cases zipGetFile zip filePath with
    | none => exact emitsNoSingle_mThrow _ _
    | some file =>
      exact emitsNoSingle_bind (emitsNoSingle_ensureFolders _)
        (fun _ => emitsNoSingle_writeFileC _ _ _)
  rw [show restoreFileFromZip env zipPath filePath =
    (emit (Event.singleRestore filePath) >>= fun _ =>
      readBinary zipPath >>= fun data =>
      loadZip data >>= fun zip =>
      match zipGetFile zip filePath with
      | none => mThrow ErrKind.entryMissing ("File " ++ filePath ++ " not found in zip")
      | some file =>
          ensureFolders filePath >>= fun _ =>
          writeFileC env filePath (Content.bytes file.data)) from rfl]
  rw [run_bind_ok (show emit (Event.singleRestore filePath) st =
    (Except.ok (), { st with events := st.events ++ [Event.singleRestore filePath] }) from rfl)]
  obtain ⟨δ, he, hs⟩ := hrest { st with events := st.events ++ [Event.singleRestore filePath] }
  exact ⟨δ, by rw [he], hs⟩

/-- The best-effort per-batch restore loop returns normally and its
`singleRestore` markers list exactly the batch's removed files, in
order. -/
theorem restoreBatchFiles_trace (env : Env) (zipPath : String) :
    ∀ (l : List String) (st : St),
      ∃ st', restoreBatchFiles env zipPath l st = (Except.ok (), st') ∧
        ∃ δ, st'.events = st.events ++ δ ∧ singleRestores δ = l := by
  intro l
  induction l with
  | nil =>
    intro st
    exact ⟨st, by simp [restoreBatchFiles, mPure], [], by simp, rfl⟩
  | cons f rest ih =>
    intro st
    rcases hr : restoreFileFromZip env zipPath f st with ⟨r₁, st₁⟩
    obtain ⟨δ₁, he₁, hs₁⟩ := restoreFileFromZip_trace env zipPath f st
    rw [hr] at he₁
    have hcatch : mTryCatch (restoreFileFromZip env zipPath f) (fun _ => mPure ()) st =
        (Except.ok (), st₁) := by
      cases r₁ with
      | ok u => exact run_tryCatch_ok hr
      | error e => rw [run_tryCatch_err hr]; rfl
    obtain ⟨st', hrun, δ₂, he₂, hs₂⟩ := ih st₁
    refine ⟨st', ?_, [Event.singleRestore f] ++ δ₁ ++ δ₂, ?_, ?_⟩
    · rw [show restoreBatchFiles env zipPath (f :: rest) =
        (mTryCatch (restoreFileFromZip env zipPath f) (fun _ => mPure ()) >>= fun _ =>
          restoreBatchFiles env zipPath rest) from rfl]
      rw [run_bind_ok hcatch]
      exact hrun
    · rw [he₂, he₁]
      simp [List.append_assoc]
    · rw [singleRestores_append, singleRestores_append, hs₁, hs₂]
      rfl

/-- C3: the rollback protocol.  First conjunct (outer handler):
whenever the deletion body throws `e`, `deleteOriginalsWithRollback`
marks the full-restore phase, runs `restoreArchive` with the default
`overwrite` policy from that point, and re-throws an error with the
original kind and message — `rollbackError` set to the restore
failure's message when the full restore failed, and left as the
original's otherwise.  Second conjunct (failing batch): whenever one
batch step throws, the per-file loop had completed normally with some
batch-local `batchDeleted` list, the batch error is the checkpoint
write failure, and before the error propagates the step runs exactly
one best-effort single-file restore per `batchDeleted` entry, in
order (their `singleRestore` markers are exactly that list). -/
theorem c3_rollback_protocol :
    (∀ (env : Env) (zipPath : String) (files : List String) (bs : Option Nat)
      (st : St) (e : Err) (st₁ : St),
      deleteTryBody env zipPath files bs st = (Except.error e, st₁) →
      ∃ e' st₂,
        deleteOriginalsWithRollback env zipPath files bs st = (Except.error e', st₂) ∧
        e'.kind = e.kind ∧ e'.msg = e.msg ∧
        st₂ = (restoreArchive env zipPath RestorePolicy.overwrite
          { st₁ with events := st₁.events ++ [Event.fullRestoreStart] }).2 ∧
        e'.rollbackError =
          (match (restoreArchive env zipPath RestorePolicy.overwrite
            { st₁ with events := st₁.events ++ [Event.fullRestoreStart] }).1 with
          | Except.ok _ => e.rollbackError
          | Except.error re => some re.msg)) ∧
    (∀ (env : Env) (zipPath : String) (batch : List String) (bi tb : Nat)
      (d f : List String) (st : St) (e : Err) (st' : St),
      processOneBatch env zipPath batch bi tb d f st = (Except.error e, st') →
      ∃ D F B st₁,
        processBatchFiles env batch d f [] st = (Except.ok (D, F, B), st₁) ∧
        env.writeErr (zipPath ++ ".checkpoint.json") = some e.msg ∧
        e.kind = ErrKind.writeFailed ∧
        ∃ δ, st'.events = st₁.events ++ δ ∧ singleRestores δ = B) := by
  constructor
  · intro env zipPath files bs st e st₁ h
    unfold deleteOriginalsWithRollback
    rw [run_tryCatch_err h]
    obtain ⟨e', st₂, hrun, hk, hm⟩ := rollbackHandler_throws env zipPath e st₁
    -- re-derive the handler's fine structure for the rollbackError field
    rw [show rollbackHandler env zipPath e =
      (emit Event.fullRestoreStart >>= fun _ =>
        mTryCatch (restoreArchive env zipPath RestorePolicy.overwrite >>= fun _ =>
          mPure (none : Option Err)) (fun re => mPure (some re)) >>= fun r =>
        match r with
        | none => mThrow' e
        | some re => mThrow' { e with rollbackError := some re.msg }) from rfl]
    rw [run_bind_ok (show emit Event.fullRestoreStart st₁ =
      (Except.ok (), { st₁ with events := st₁.events ++ [Event.fullRestoreStart] })
      from rfl)]
    rcases hr : restoreArchive env zipPath RestorePolicy.overwrite
        { st₁ with events := st₁.events ++ [Event.fullRestoreStart] } with ⟨rr, stR⟩
    cases rr with
    | ok u =>
      have hcatch : mTryCatch (restoreArchive env zipPath RestorePolicy.overwrite >>= fun _ =>
          mPure (none : Option Err)) (fun re => mPure (some re))
          { st₁ with events := st₁.events ++ [Event.fullRestoreStart] } =
          (Except.ok (none : Option Err), stR) := by
        refine run_tryCatch_ok ?_
        rw [run_bind_ok hr]; rfl
      rw [run_bind_ok hcatch]
      exact ⟨e, stR, rfl, rfl, rfl, by simp [hr], by simp [hr]⟩
    | error re =>
      have hcatch : mTryCatch (restoreArchive env zipPath RestorePolicy.overwrite >>= fun _ =>
          mPure (none : Option Err)) (fun re => mPure (some re))
          { st₁ with events := st₁.events ++ [Event.fullRestoreStart] } =
          (Except.ok (some re : Option Err), stR) := by
        rw [run_tryCatch_err (run_bind_err hr)]; rfl
      rw [run_bind_ok hcatch]
      exact ⟨{ e with rollbackError := some re.msg }, stR, rfl, rfl, rfl, by simp [hr],
        by simp [hr]⟩
  · intro env zipPath batch bi tb d f st e st' h
    obtain ⟨nD, nF, st₁, h₁, hnow₁, hmem, _, _⟩ := processBatchFiles_spec env batch d f [] st
    rw [show processOneBatch env zipPath batch bi tb d f =
      (processBatchFiles env batch d f [] >>= fun res =>
        getSt >>= fun st₀ =>
        mTryCatch
          (writeFileC env (zipPath ++ ".checkpoint.json")
            (Content.jsonCheckpoint res.1 (bi + 1) tb st₀.now) >>= fun _ =>
            mPure (none : Option Err))
          (fun batchError => mPure (some batchError)) >>= fun r =>
        match r with
        | none => mPure (res.1, res.2.1)
        | some batchError =>
            restoreBatchFiles env zipPath res.2.2 >>= fun _ => mThrow' batchError) from rfl]
      at h
    rw [run_bind_ok h₁] at h
    rw [run_bind_ok (show getSt st₁ = (Except.ok st₁, st₁) from rfl)] at h
    dsimp only at h
    cases hw : env.writeErr (zipPath ++ ".checkpoint.json") with
    | none =>
      have hwr : writeFileC env (zipPath ++ ".checkpoint.json")
          (Content.jsonCheckpoint (d ++ nD) (bi + 1) tb st₁.now) st₁ =
          (Except.ok (),
            { st₁ with
              vault := vaultInsert st₁.vault (zipPath ++ ".checkpoint.json")
                (Content.jsonCheckpoint (d ++ nD) (bi + 1) tb st₁.now)
              events := st₁.events ++ [Event.writeF (zipPath ++ ".checkpoint.json")] }) := by
        simp [writeFileC, hw]
      have hbody : (writeFileC env (zipPath ++ ".checkpoint.json")
          (Content.jsonCheckpoint (d ++ nD) (bi + 1) tb st₁.now) >>= fun _ =>
            mPure (none : Option Err)) st₁ =
          (Except.ok (none : Option Err),
            { st₁ with
              vault := vaultInsert st₁.vault (zipPath ++ ".checkpoint.json")
                (Content.jsonCheckpoint (d ++ nD) (bi + 1) tb st₁.now)
              events := st₁.events ++ [Event.writeF (zipPath ++ ".checkpoint.json")] }) := by
        rw [run_bind_ok hwr]; rfl
      rw [run_bind_ok (run_tryCatch_ok hbody)] at h
      dsimp only [mPure] at h
      simp at h
    | some m =>
      have hwr : writeFileC env (zipPath ++ ".checkpoint.json")
          (Content.jsonCheckpoint (d ++ nD) (bi + 1) tb st₁.now) st₁ =
          (Except.error { kind := ErrKind.writeFailed, msg := m }, st₁) := by
        simp [writeFileC, hw]
      have hcatch : mTryCatch
          (writeFileC env (zipPath ++ ".checkpoint.json")
            (Content.jsonCheckpoint (d ++ nD) (bi + 1) tb st₁.now) >>= fun _ =>
            mPure (none : Option Err))
          (fun batchError => mPure (some batchError)) st₁ =
          (Except.ok (some { kind := ErrKind.writeFailed, msg := m } : Option Err), st₁) := by
        rw [run_tryCatch_err (run_bind_err hwr)]; rfl
      rw [run_bind_ok hcatch] at h
      dsimp only at h
      simp only [List.nil_append] at h
      obtain ⟨stR, hrun, δ, he, hs⟩ := restoreBatchFiles_trace env zipPath nD st₁
      rw [run_bind_ok hrun] at h
      simp only [mThrow', Prod.mk.injEq, Except.error.injEq] at h
      obtain ⟨hE, hst⟩ := h
      subst hst
      subst hE
      exact ⟨d ++ nD, f ++ nF, nD, st₁, by simpa using h₁, rfl, rfl, δ, he, hs⟩

def c3Env : Env :=
  { benignEnv with
    writeErr := fun p => if p = "Ar/x.zip.checkpoint.json" then some "EPERM checkpoint" else none }

def c3St : St :=
  { vault := { files := [("a.txt", Content.bytes [1]), ("Ar/x.zip", Content.zipc sampleZip)]
               folders := ["Ar"] }
    events := []
    hashes := ["h1", "h2"]
    now := "T" }

/-- C3 witness: with a checkpoint write that fails, both parts of the
rollback protocol apply at a concrete input. -/
theorem c3_rollback_protocol_witness :
    (∃ e' st₂,
      deleteOriginalsWithRollback c3Env "Ar/x.zip" ["a.txt"] none c3St =
        (Except.error e', st₂) ∧
      e'.kind = ErrKind.writeFailed ∧
      e'.msg = "EPERM checkpoint" ∧
      st₂ = (restoreArchive c3Env "Ar/x.zip" RestorePolicy.overwrite
        { (deleteTryBody c3Env "Ar/x.zip" ["a.txt"] none c3St).2 with
          events := (deleteTryBody c3Env "Ar/x.zip" ["a.txt"] none c3St).2.events ++
            [Event.fullRestoreStart] }).2 ∧
      e'.rollbackError =
        (match (restoreArchive c3Env "Ar/x.zip" RestorePolicy.overwrite
          { (deleteTryBody c3Env "Ar/x.zip" ["a.txt"] none c3St).2 with
            events := (deleteTryBody c3Env "Ar/x.zip" ["a.txt"] none c3St).2.events ++
              [Event.fullRestoreStart] }).1 with
        | Except.ok _ => (none : Option String)
        | Except.error re => some re.msg)) ∧
    (∃ D F B st₁,
      processBatchFiles c3Env ["a.txt"] [] [] [] c3St = (Except.ok (D, F, B), st₁) ∧
      c3Env.writeErr ("Ar/x.zip" ++ ".checkpoint.json") = some "EPERM checkpoint" ∧
      ErrKind.writeFailed = ErrKind.writeFailed ∧
      ∃ δ, ((processOneBatch c3Env "Ar/x.zip" ["a.txt"] 0 1 [] [] c3St).2).events =
        st₁.events ++ δ ∧ singleRestores δ = B) :=
  ⟨c3_rollback_protocol.1 c3Env "Ar/x.zip" ["a.txt"] none c3St
      { kind := ErrKind.writeFailed, msg := "EPERM checkpoint" } _
      (Prod.ext (by decide) rfl),
   c3_rollback_protocol.2 c3Env "Ar/x.zip" ["a.txt"] 0 1 [] [] c3St
      { kind := ErrKind.writeFailed, msg := "EPERM checkpoint" } _
      (Prod.ext (by decide) rfl)⟩

/-! # Restore analysis (shared by the policy-matrix, conflict-name and
round-trip claims) -/

/-- The successive folder paths `ensureFoldersLoop` attempts to create. -/
def folderAcc : String → List String → List String
  | _, [] => []
  | cur, f :: rest =>
    let cur₂ := if cur = "" then f else cur ++ "/" ++ f
    cur₂ :: folderAcc cur₂ rest

/-- The ancestor folder paths created before writing `p`. -/
def foldersCreatedBy (p : String) : List String :=
  folderAcc "" (strSplitSlash p).dropLast

/-- `ensureFoldersLoop` succeeds, touches only the folder set, and only
adds paths from its accumulator list. -/
theorem ensureFoldersLoop_spec :
    ∀ (segs : List String) (cur : String) (st : St),
      ∃ st', ensureFoldersLoop cur segs st = (Except.ok (), st') ∧
        st'.vault.files = st.vault.files ∧ st'.events = st.events ∧
        st'.hashes = st.hashes ∧ st'.now = st.now ∧
        (∀ x ∈ st.vault.folders, x ∈ st'.vault.folders) ∧
        (∀ x ∈ st'.vault.folders, x ∈ st.vault.folders ∨ x ∈ folderAcc cur segs) := by
  intro segs
  induction segs with
  | nil =>
    intro cur st
    exact ⟨st, by simp [ensureFoldersLoop, mPure], rfl, rfl, rfl, rfl,
      fun x hx => hx, fun x hx => Or.inl hx⟩
  | cons f rest ih =>
    intro cur st
    by_cases hc : (if cur = "" then f else cur ++ "/" ++ f) ∈ st.vault.folders
    · -- folder exists: createFolder throws, catchIgnore leaves the state
      have hcf : createFolder (if cur = "" then f else cur ++ "/" ++ f) st =
          (Except.error
            { kind := ErrKind.folderExists
              msg := "Folder already exists: " ++ (if cur = "" then f else cur ++ "/" ++ f) },
           st) := by
        unfold createFolder
        simp [hc]
      obtain ⟨st', hrun, hf, he, hh, hn, hmono, hsub⟩ :=
        ih (if cur = "" then f else cur ++ "/" ++ f) st
      refine ⟨st', ?_, hf, he, hh, hn, hmono, ?_⟩
      · rw [show ensureFoldersLoop cur (f :: rest) =
          (catchIgnore (createFolder (if cur = "" then f else cur ++ "/" ++ f)) >>= fun _ =>
            ensureFoldersLoop (if cur = "" then f else cur ++ "/" ++ f) rest) from rfl]
        have : catchIgnore (createFolder (if cur = "" then f else cur ++ "/" ++ f)) st =
            (Except.ok (), st) := by
          unfold catchIgnore
          rw [run_tryCatch_err hcf]
          rfl
        rw [run_bind_ok this]
        exact hrun
      · intro x hx
        rcases hsub x hx with hx | hx
        · exact Or.inl hx
        · exact Or.inr (by simp [folderAcc]; right; exact hx)
    · -- folder absent: createFolder adds it
      have hcf : createFolder (if cur = "" then f else cur ++ "/" ++ f) st =
          (Except.ok (),
            { st with vault := { st.vault with
                folders := st.vault.folders ++ [if cur = "" then f else cur ++ "/" ++ f] } }) := by
        unfold createFolder
        simp [hc]
      obtain ⟨st', hrun, hf, he, hh, hn, hmono, hsub⟩ :=
        ih (if cur = "" then f else cur ++ "/" ++ f)
          { st with vault := { st.vault with
              folders := st.vault.folders ++ [if cur = "" then f else cur ++ "/" ++ f] } }
      refine ⟨st', ?_, hf, he, hh, hn, ?_, ?_⟩
      · rw [show ensureFoldersLoop cur (f :: rest) =
          (catchIgnore (createFolder (if cur = "" then f else cur ++ "/" ++ f)) >>= fun _ =>
            ensureFoldersLoop (if cur = "" then f else cur ++ "/" ++ f) rest) from rfl]
        have : catchIgnore (createFolder (if cur = "" then f else cur ++ "/" ++ f)) st =
            (Except.ok (),
              { st with vault := { st.vault with
                  folders := st.vault.folders ++
                    [if cur = "" then f else cur ++ "/" ++ f] } }) := by
          unfold catchIgnore
          rw [run_tryCatch_ok hcf]
        rw [run_bind_ok this]
        exact hrun
      · intro x hx
        exact hmono x (by simp [hx])
      · intro x hx
        rcases hsub x hx with hx | hx
        · rcases List.mem_append.mp hx with hx | hx
          · exact Or.inl hx
          · refine Or.inr ?_
            simp only [List.mem_singleton] at hx
            simp [folderAcc, hx]
        · exact Or.inr (by simp [folderAcc]; right; exact hx)

/-- Packaged form for `ensureFolders`. -/
theorem ensureFolders_spec (p : String) (st : St) :
    ∃ st', ensureFolders p st = (Except.ok (), st') ∧
      st'.vault.files = st.vault.files ∧ st'.events = st.events ∧
      st'.hashes = st.hashes ∧ st'.now = st.now ∧
      (∀ x ∈ st.vault.folders, x ∈ st'.vault.folders) ∧
      (∀ x ∈ st'.vault.folders, x ∈ st.vault.folders ∨ x ∈ foldersCreatedBy p) :=
  ensureFoldersLoop_spec (strSplitSlash p).dropLast "" st

theorem find_entry_of_mem_map (n : String) :
    ∀ (l : List ZipEntry), n ∈ l.map ZipEntry.name →
      ∃ e, l.find? (fun e => e.name == n) = some e ∧ e.name = n := by
  intro l
  induction l with
  | nil => intro h; simp at h
  | cons e t ih =>
    intro h
    by_cases he : e.name = n
    · exact ⟨e, by simp [List.find?, he], he⟩
    · rcases List.mem_map.mp h with ⟨x, hx, hxn⟩
      rcases List.mem_cons.mp hx with hx | hx
      · exact absurd (hx ▸ hxn) he
      · obtain ⟨e', hfind, hname⟩ := ih (List.mem_map.mpr ⟨x, hx, hxn⟩)
        have hbeq : (e.name == n) = false := by simp [he]
        exact ⟨e', by simp [List.find?, hbeq, hfind], hname⟩

/-- Every non-directory entry name resolves to an entry of that name
(provided the directory entries are well-formed, i.e. end in "/"). -/
theorem zipGetFile_of_mem_entryNames (z : ZipFile)
    (hdirs : ∀ d ∈ z.dirs, strEndsWith d "/" = true) (n : String)
    (hn : n ∈ zipEntryNames z) :
    ∃ e, zipGetFile z n = some e ∧ e.name = n := by
  unfold zipEntryNames at hn
  rcases List.mem_filter.mp hn with ⟨hmem, hslash⟩
  rcases List.mem_append.mp hmem with hmem | hmem
  · exact find_entry_of_mem_map n z.entries hmem
  · exact absurd (hdirs n hmem) (by simpa using hslash)

theorem existsInVault_mono {v v' : Vault} (hf : v'.files = v.files)
    (hfo : ∀ x ∈ v.folders, x ∈ v'.folders) {q : String}
    (h : existsInVault v q = true) : existsInVault v' q = true := by
  unfold existsInVault at h ⊢
  unfold lookupFile
  rw [hf]
  rcases Bool.or_eq_true_iff.mp h with h | h
  · exact Bool.or_eq_true_iff.mpr (Or.inl h)
  · exact Bool.or_eq_true_iff.mpr (Or.inr (by
      simp only [List.contains_eq_any_beq, List.any_eq_true] at h ⊢
      obtain ⟨x, hx, hb⟩ := h
      exact ⟨x, hfo x hx, hb⟩))

theorem existsInVault_insert (v : Vault) (p q : String) (c : Content)
    (h : existsInVault v q = true) : existsInVault (vaultInsert v p c) q = true := by
  unfold existsInVault at h ⊢
  by_cases hpq : q = p
  · subst hpq
    rw [lookup_vaultInsert_self]
    simp
  · rw [lookup_vaultInsert_other v p q c hpq, vaultInsert_folders]
    exact h

/-- Under policy `skip`, a destination that already exists is never
written: its content is preserved and no write event for it is ever
emitted, whatever else the restore loop does. -/
theorem restoreEntries_skip_spec (env : Env) (z : ZipFile) (q : String) :
    ∀ (names : List String) (st : St),
      existsInVault st.vault q = true →
      ∃ r st', restoreEntries env z RestorePolicy.skip names st = (r, st') ∧
        lookupFile st'.vault q = lookupFile st.vault q ∧
        existsInVault st'.vault q = true ∧
        ∃ δ, st'.events = st.events ++ δ ∧ Event.writeF q ∉ δ := by
  intro names
  induction names with
  | nil =>
    intro st hq
    exact ⟨Except.ok (), st, by simp [restoreEntries, mPure], rfl, hq, [], by simp, by simp⟩
  | cons entry rest ih =>
    intro st hq
    cases hzf : zipGetFile z entry with
    | none =>
      obtain ⟨r, st', hrun, hlook, hex, δ, he, hw⟩ := ih st hq
      exact ⟨r, st', by simp only [restoreEntries, hzf]; exact hrun, hlook, hex, δ, he, hw⟩
    | some file =>
      obtain ⟨st₁, hef, hf₁, he₁, hh₁, hn₁, hmono₁, _⟩ := ensureFolders_spec entry st
      have hq₁ : existsInVault st₁.vault q = true := existsInVault_mono hf₁ hmono₁ hq
      have hlook₁ : lookupFile st₁.vault q = lookupFile st.vault q := by
        unfold lookupFile; rw [hf₁]
      cases hexb : existsInVault st₁.vault entry with
      | true =>
        obtain ⟨r, st', hrun, hlook, hex, δ, he, hw⟩ := ih st₁ hq₁
        refine ⟨r, st', ?_, by rw [hlook, hlook₁], hex, δ, by rw [he, he₁], hw⟩
        simp only [restoreEntries, hzf]
        rw [run_bind_ok hef]
        rw [run_bind_ok (show getAbstractFileExists entry st₁ =
          (Except.ok true, st₁) from by simp [getAbstractFileExists, hexb])]
        simp only [if_true]
        exact hrun
      | false =>
        have hqe : q ≠ entry := by
          intro hc
          rw [hc] at hq₁
          rw [hq₁] at hexb
          cases hexb
        cases hw : env.writeErr entry with
        | some m =>
          refine ⟨Except.error { kind := ErrKind.writeFailed, msg := m }, st₁, ?_,
            hlook₁, hq₁, [], by simp [he₁], by simp⟩
          simp only [restoreEntries, hzf]
          rw [run_bind_ok hef]
          rw [run_bind_ok (show getAbstractFileExists entry st₁ =
            (Except.ok false, st₁) from by simp [getAbstractFileExists, hexb])]
          simp only [Bool.false_eq_true, if_false]
          rw [run_bind_err (show writeFileC env entry (Content.bytes file.data) st₁ =
            (Except.error { kind := ErrKind.writeFailed, msg := m }, st₁) from by
              simp [writeFileC, hw])]
        | none =>
          have hwr : writeFileC env entry (Content.bytes file.data) st₁ =
              (Except.ok (),
                { st₁ with
                  vault := vaultInsert st₁.vault entry (Content.bytes file.data)
                  events := st₁.events ++ [Event.writeF entry] }) := by
            simp [writeFileC, hw]
          obtain ⟨r, st', hrun, hlook, hex, δ, he, hwq⟩ := ih
            { st₁ with
              vault := vaultInsert st₁.vault entry (Content.bytes file.data)
              events := st₁.events ++ [Event.writeF entry] }
            (existsInVault_insert _ _ _ _ hq₁)
          refine ⟨r, st', ?_, ?_, hex, Event.writeF entry :: δ, ?_, ?_⟩
          · simp only [restoreEntries, hzf]
            rw [run_bind_ok hef]
            rw [run_bind_ok (show getAbstractFileExists entry st₁ =
              (Except.ok false, st₁) from by simp [getAbstractFileExists, hexb])]
            simp only [Bool.false_eq_true, if_false]
            rw [run_bind_ok hwr]
            exact hrun
          · rw [hlook]
            simp only []
            rw [lookup_vaultInsert_other _ _ _ _ hqe, hlook₁]
          · rw [he]
            simp only []
            rw [he₁]
            simp
          · simp only [List.mem_cons, not_or]
            exact ⟨by simp [hqe], hwq⟩

/-- With all writes succeeding, the `overwrite` restore loop never
throws. -/
theorem restoreEntries_overwrite_ok (env : Env) (z : ZipFile)
    (hWE : ∀ p, env.writeErr p = none) :
    ∀ (names : List String) (st : St),
      ∃ st', restoreEntries env z RestorePolicy.overwrite names st = (Except.ok (), st') := by
  intro names
  induction names with
  | nil => intro st; exact ⟨st, by simp [restoreEntries, mPure]⟩
  | cons entry rest ih =>
    intro st
    cases hzf : zipGetFile z entry with
    | none =>
      obtain ⟨st', hrun⟩ := ih st
      exact ⟨st', by simp only [restoreEntries, hzf]; exact hrun⟩
    | some file =>
      obtain ⟨st₁, hef, _, _, _, _, _, _⟩ := ensureFolders_spec entry st
      have hwr : writeFileC env entry (Content.bytes file.data) st₁ =
          (Except.ok (),
            { st₁ with
              vault := vaultInsert st₁.vault entry (Content.bytes file.data)
              events := st₁.events ++ [Event.writeF entry] }) := by
        simp [writeFileC, hWE entry]
      obtain ⟨st', hrun⟩ := ih
        { st₁ with
          vault := vaultInsert st₁.vault entry (Content.bytes file.data)
          events := st₁.events ++ [Event.writeF entry] }
      refine ⟨st', ?_⟩
      simp only [restoreEntries, hzf]
      rw [run_bind_ok hef]
      cases hexb : existsInVault st₁.vault entry with
      | true =>
        rw [run_bind_ok (show getAbstractFileExists entry st₁ =
          (Except.ok true, st₁) from by simp [getAbstractFileExists, hexb])]
        simp only [if_true]
        rw [run_bind_ok hwr]
        exact hrun
      | false =>
        rw [run_bind_ok (show getAbstractFileExists entry st₁ =
          (Except.ok false, st₁) from by simp [getAbstractFileExists, hexb])]
        simp only [Bool.false_eq_true, if_false]
        rw [run_bind_ok hwr]
        exact hrun

/-- The `overwrite` restore loop only writes at entry names: any other
path's content is preserved. -/
theorem restoreEntries_overwrite_frame (env : Env) (z : ZipFile) (q : String) :
    ∀ (names : List String) (st : St), q ∉ names →
      ∃ r st', restoreEntries env z RestorePolicy.overwrite names st = (r, st') ∧
        lookupFile st'.vault q = lookupFile st.vault q := by
  intro names
  induction names with
  | nil =>
    intro st _
    exact ⟨Except.ok (), st, by simp [restoreEntries, mPure], rfl⟩
  | cons entry rest ih =>
    intro st hq
    have hqe : q ≠ entry := fun hc => hq (by simp [hc])
    have hqr : q ∉ rest := fun hc => hq (by simp [hc])
    cases hzf : zipGetFile z entry with
    | none =>
      obtain ⟨r, st', hrun, hpres⟩ := ih st hqr
      exact ⟨r, st', by simp only [restoreEntries, hzf]; exact hrun, hpres⟩
    | some file =>
      obtain ⟨st₁, hef, hf₁, _, _, _, _, _⟩ := ensureFolders_spec entry st
      have hlook₁ : lookupFile st₁.vault q = lookupFile st.vault q := by
        unfold lookupFile; rw [hf₁]
      cases hw : env.writeErr entry with
      | some m =>
        have hwr : writeFileC env entry (Content.bytes file.data) st₁ =
            (Except.error { kind := ErrKind.writeFailed, msg := m }, st₁) := by
          simp [writeFileC, hw]
        refine ⟨Except.error { kind := ErrKind.writeFailed, msg := m }, st₁, ?_, hlook₁⟩
        simp only [restoreEntries, hzf]
        rw [run_bind_ok hef]
        cases hexb : existsInVault st₁.vault entry with
        | true =>
          rw [run_bind_ok (show getAbstractFileExists entry st₁ =
            (Except.ok true, st₁) from by simp [getAbstractFileExists, hexb])]
          simp only [if_true]
          rw [run_bind_err hwr]
        | false =>
          rw [run_bind_ok (show getAbstractFileExists entry st₁ =
            (Except.ok false, st₁) from by simp [getAbstractFileExists, hexb])]
          simp only [Bool.false_eq_true, if_false]
          rw [run_bind_err hwr]
      | none =>
        have hwr : writeFileC env entry (Content.bytes file.data) st₁ =
            (Except.ok (),
              { st₁ with
                vault := vaultInsert st₁.vault entry (Content.bytes file.data)
                events := st₁.events ++ [Event.writeF entry] }) := by
          simp [writeFileC, hw]
        obtain ⟨r, st', hrun, hpres⟩ := ih
          { st₁ with
            vault := vaultInsert st₁.vault entry (Content.bytes file.data)
            events := st₁.events ++ [Event.writeF entry] } hqr
        refine ⟨r, st', ?_, ?_⟩
        · simp only [restoreEntries, hzf]
          rw [run_bind_ok hef]
          cases hexb : existsInVault st₁.vault entry with
          | true =>
            rw [run_bind_ok (show getAbstractFileExists entry st₁ =
              (Except.ok true, st₁) from by simp [getAbstractFileExists, hexb])]
            simp only [if_true]
            rw [run_bind_ok hwr]
            exact hrun
          | false =>
            rw [run_bind_ok (show getAbstractFileExists entry st₁ =
              (Except.ok false, st₁) from by simp [getAbstractFileExists, hexb])]
            simp only [Bool.false_eq_true, if_false]
            rw [run_bind_ok hwr]
            exact hrun
        · rw [hpres]
          simp only []
          rw [lookup_vaultInsert_other _ _ _ _ hqe, hlook₁]

/-- Under policy `overwrite` with all writes succeeding, an entry whose
name does not recur later in the list ends up with the archive content
at its path. -/
theorem restoreEntries_overwrite_final (env : Env) (z : ZipFile)
    (hWE : ∀ p, env.writeErr p = none) :
    ∀ (l₁ : List String) (q : String) (l₂ : List String) (e : ZipEntry) (st : St),
      q ∉ l₂ → zipGetFile z q = some e →
      ∃ st', restoreEntries env z RestorePolicy.overwrite (l₁ ++ q :: l₂) st =
          (Except.ok (), st') ∧
        lookupFile st'.vault q = some (Content.bytes e.data) := by
  intro l₁
  induction l₁ with
  | nil =>
    intro q l₂ e st hql hzf
    obtain ⟨st₁, hef, _, _, _, _, _, _⟩ := ensureFolders_spec q st
    have hwr : writeFileC env q (Content.bytes e.data) st₁ =
        (Except.ok (),
          { st₁ with
            vault := vaultInsert st₁.vault q (Content.bytes e.data)
            events := st₁.events ++ [Event.writeF q] }) := by
      simp [writeFileC, hWE q]
    obtain ⟨st', hok⟩ := restoreEntries_overwrite_ok env z hWE l₂
      { st₁ with
        vault := vaultInsert st₁.vault q (Content.bytes e.data)
        events := st₁.events ++ [Event.writeF q] }
    obtain ⟨r, st'', hrun₂, hpres⟩ := restoreEntries_overwrite_frame env z q l₂
      { st₁ with
        vault := vaultInsert st₁.vault q (Content.bytes e.data)
        events := st₁.events ++ [Event.writeF q] } hql
    rw [hok] at hrun₂
    obtain ⟨hr, hst⟩ := Prod.mk.injEq _ _ _ _ ▸ hrun₂
    subst hst
    refine ⟨st', ?_, ?_⟩
    · show restoreEntries env z RestorePolicy.overwrite (q :: l₂) st = _
      simp only [restoreEntries, hzf]
      rw [run_bind_ok hef]
      cases hexb : existsInVault st₁.vault q with
      | true =>
        rw [run_bind_ok (show getAbstractFileExists q st₁ =
          (Except.ok true, st₁) from by simp [getAbstractFileExists, hexb])]
        simp only [if_true]
        rw [run_bind_ok hwr]
        exact hok
      | false =>
        rw [run_bind_ok (show getAbstractFileExists q st₁ =
          (Except.ok false, st₁) from by simp [getAbstractFileExists, hexb])]
        simp only [Bool.false_eq_true, if_false]
        rw [run_bind_ok hwr]
        exact hok
    · rw [hpres]
      simp only []
      exact lookup_vaultInsert_self _ _ _
  | cons x l₁' ih =>
    intro q l₂ e st hql hzf
    show ∃ st', restoreEntries env z RestorePolicy.overwrite (x :: (l₁' ++ q :: l₂)) st = _ ∧ _
    cases hzfx : zipGetFile z x with
    | none =>
      obtain ⟨st', hrun, hfin⟩ := ih q l₂ e st hql hzf
      exact ⟨st', by simp only [restoreEntries, hzfx]; exact hrun, hfin⟩
    | some file =>
      obtain ⟨st₁, hef, _, _, _, _, _, _⟩ := ensureFolders_spec x st
      have hwr : writeFileC env x (Content.bytes file.data) st₁ =
          (Except.ok (),
            { st₁ with
              vault := vaultInsert st₁.vault x (Content.bytes file.data)
              events := st₁.events ++ [Event.writeF x] }) := by
        simp [writeFileC, hWE x]
      obtain ⟨st', hrun, hfin⟩ := ih q l₂ e
        { st₁ with
          vault := vaultInsert st₁.vault x (Content.bytes file.data)
          events := st₁.events ++ [Event.writeF x] } hql hzf
      refine ⟨st', ?_, hfin⟩
      simp only [restoreEntries, hzfx]
      rw [run_bind_ok hef]
      cases hexb : existsInVault st₁.vault x with
      | true =>
        rw [run_bind_ok (show getAbstractFileExists x st₁ =
          (Except.ok true, st₁) from by simp [getAbstractFileExists, hexb])]
        simp only [if_true]
        rw [run_bind_ok hwr]
        exact hrun
      | false =>
        rw [run_bind_ok (show getAbstractFileExists x st₁ =
          (Except.ok false, st₁) from by simp [getAbstractFileExists, hexb])]
        simp only [Bool.false_eq_true, if_false]
        rw [run_bind_ok hwr]
        exact hrun

/-! ## Conflict-copy analysis

Under policy `conflict-copy` the hash each conflict write consumes is
determined statically by the initial existence of the destinations:
`assignHashes` replays the supply consumption, pairing each
initially-existing entry name with the hash it will draw. -/

def assignHashes (ex : String → Bool) : List String → List String → List (String × String)
  | [], _ => []
  | n :: rest, hs =>
    if ex n then (n, hs.headD "000000") :: assignHashes ex rest hs.tail
    else assignHashes ex rest hs

/-- The conflict-copy paths the restore will generate. -/
def plannedPathsOf (ex : String → Bool) (names hs : List String) : List String :=
  (assignHashes ex names hs).map (fun nh => conflictPathOf nh.1 nh.2)

/-- All paths a conflict-copy restore can write to. -/
def conflictWriteTargets (ex : String → Bool) (names hs : List String) : List String :=
  names.filter (fun n => !(ex n)) ++ plannedPathsOf ex names hs

theorem nextHash_run (st : St) :
    nextHash st = (Except.ok (st.hashes.headD "000000"), { st with hashes := st.hashes.tail }) := by
  obtain ⟨v, ev, hs, now⟩ := st
  cases hs <;> rfl

theorem bool_eq_of_iff {a b : Bool} (h : (a = true) ↔ (b = true)) : a = b := by
  cases a <;> cases b <;> simp_all

theorem token_infix (n h e : String) :
    strContainsSub (n ++ "-conflict-" ++ h ++ e) "-conflict-" = true := by
  unfold strContainsSub
  rw [decide_eq_true_eq]
  refine ⟨n.data, h.data ++ e.data, ?_⟩
  show n.data ++ "-conflict-".data ++ (h.data ++ e.data) =
    (n ++ "-conflict-" ++ h ++ e).data
  have : (n ++ "-conflict-" ++ h ++ e).data =
      n.data ++ "-conflict-".data ++ h.data ++ e.data := rfl
  rw [this]
  simp [List.append_assoc]

theorem token_infix_dir (d n h e : String) :
    strContainsSub (d ++ "/" ++ (n ++ "-conflict-" ++ h ++ e)) "-conflict-" = true := by
  unfold strContainsSub
  rw [decide_eq_true_eq]
  refine ⟨d.data ++ "/".data ++ n.data, h.data ++ e.data, ?_⟩
  show d.data ++ "/".data ++ n.data ++ "-conflict-".data ++ (h.data ++ e.data) =
    (d ++ "/" ++ (n ++ "-conflict-" ++ h ++ e)).data
  have : (d ++ "/" ++ (n ++ "-conflict-" ++ h ++ e)).data =
      d.data ++ "/".data ++ (n.data ++ "-conflict-".data ++ h.data ++ e.data) := rfl
  rw [this]
  simp [List.append_assoc]

/-- Every generated conflict path contains the literal `-conflict-`. -/
theorem conflictPath_has_token (entry h : String) :
    strContainsSub (conflictPathOf entry h) "-conflict-" = true := by
  unfold conflictPathOf
  by_cases hd : String.intercalate "/" (strSplitSlash entry).dropLast = ""
  · simp only [hd, if_true]
    cases lastDotIndex ((strSplitSlash entry).getLastD "") with
    | none => exact token_infix _ _ _
    | some dot => exact token_infix _ _ _
  · simp only [hd, if_false]
    cases lastDotIndex ((strSplitSlash entry).getLastD "") with
    | none => exact token_infix_dir _ _ _ _
    | some dot => exact token_infix_dir _ _ _ _

theorem existsInVault_eq_of_folders {v v' : Vault} (A : List String)
    (hf : v'.files = v.files)
    (hup : ∀ y ∈ v'.folders, y ∈ v.folders ∨ y ∈ A)
    (hdown : ∀ y ∈ v.folders, y ∈ v'.folders)
    {n : String} (hn : n ∉ A) :
    existsInVault v' n = existsInVault v n := by
  unfold existsInVault lookupFile
  rw [hf]
  have hc : (v'.folders.contains n) = (v.folders.contains n) := by
    refine bool_eq_of_iff ?_
    constructor
    · intro h
      rcases hup n (by simpa using h) with h | h
      · simpa using h
      · exact absurd h hn
    · intro h
      simpa using hdown n (by simpa using h)
  rw [hc]

theorem existsInVault_insert_other (v : Vault) (p q : String) (c : Content)
    (h : q ≠ p) : existsInVault (vaultInsert v p c) q = existsInVault v q := by
  unfold existsInVault
  rw [lookup_vaultInsert_other v p q c h, vaultInsert_folders]

/-- The conflict-copy restore loop: with all writes succeeding, every
listed entry resolvable, and the planned conflict paths fresh, it
returns normally, writes the archive content of every
initially-existing entry at its planned conflict path, and leaves
every path outside its write targets untouched. -/
theorem restoreEntries_conflict_spec (env : Env) (z : ZipFile)
    (hWE : ∀ p, env.writeErr p = none) :
    ∀ (rest : List String) (ex : String → Bool) (st : St),
      (∀ n ∈ rest, ∃ e : ZipEntry, zipGetFile z n = some e) →
      rest.Nodup →
      (∀ x ∈ rest, ∀ y ∈ rest, y ∉ foldersCreatedBy x) →
      (∀ q ∈ plannedPathsOf ex rest st.hashes, q ∉ rest) →
      (plannedPathsOf ex rest st.hashes).Nodup →
      (∀ n ∈ rest, existsInVault st.vault n = ex n) →
      ∃ st', restoreEntries env z RestorePolicy.conflictCopy rest st = (Except.ok (), st') ∧
        (∀ q, q ∉ conflictWriteTargets ex rest st.hashes →
          lookupFile st'.vault q = lookupFile st.vault q) ∧
        (∀ nh ∈ assignHashes ex rest st.hashes, ∀ e : ZipEntry,
          zipGetFile z nh.1 = some e →
          lookupFile st'.vault (conflictPathOf nh.1 nh.2) = some (Content.bytes e.data)) := by
  intro rest
  induction rest with
  | nil =>
    intro ex st _ _ _ _ _ _
    exact ⟨st, by simp [restoreEntries, mPure], fun q _ => rfl, by simp [assignHashes]⟩
  | cons x tail ih =>
    intro ex st hres hnd hfold hppn hpp hex
    have hndt : tail.Nodup := (List.nodup_cons.mp hnd).2
    have hxt : x ∉ tail := (List.nodup_cons.mp hnd).1
    have hrest : ∀ n ∈ tail, ∃ e : ZipEntry, zipGetFile z n = some e :=
      fun n hn => hres n (by simp [hn])
    have hfoldt : ∀ a ∈ tail, ∀ b ∈ tail, b ∉ foldersCreatedBy a := by
      intro a ha b hb
      exact hfold a (by simp [ha]) b (by simp [hb])
    obtain ⟨file, hzf⟩ := hres x (by simp)
    obtain ⟨st₁, hef, hf₁, he₁, hh₁, hn₁, hmono₁, hup₁⟩ := ensureFolders_spec x st
    have hexagree : ∀ n, n ∈ (x :: tail) →
        existsInVault st₁.vault n = existsInVault st.vault n := by
      intro n hn
      exact existsInVault_eq_of_folders (foldersCreatedBy x) hf₁ hup₁ hmono₁
        (hfold x (by simp) n hn)
    have hexx : existsInVault st₁.vault x = ex x :=
      (hexagree x (by simp)).trans (hex x (by simp))
    cases hexcase : ex x with
    | true =>
      -- destination exists: the conflict copy is written
      rw [hexcase] at hexx
      have hnh : nextHash st₁ =
          (Except.ok (st.hashes.headD "000000"), { st₁ with hashes := st.hashes.tail }) := by
        rw [nextHash_run, hh₁]
      have hcp₀ : plannedPathsOf ex (x :: tail) st.hashes =
          conflictPathOf x (st.hashes.headD "000000") ::
            plannedPathsOf ex tail st.hashes.tail := by
        simp [plannedPathsOf, assignHashes, hexcase]
      have hcpn : conflictPathOf x (st.hashes.headD "000000") ∉ (x :: tail) := by
        refine hppn _ ?_
        rw [hcp₀]
        exact List.mem_cons_self _ _
      have hwr : writeFileC env (conflictPathOf x (st.hashes.headD "000000"))
          (Content.bytes file.data) { st₁ with hashes := st.hashes.tail } =
          (Except.ok (),
            { st₁ with
              hashes := st.hashes.tail
              vault := vaultInsert st₁.vault (conflictPathOf x (st.hashes.headD "000000"))
                (Content.bytes file.data)
              events := st₁.events ++
                [Event.writeF (conflictPathOf x (st.hashes.headD "000000"))] }) := by
        simp [writeFileC, hWE _]
      obtain ⟨st', hrun, hframe, hplan⟩ := ih ex
        { st₁ with
          hashes := st.hashes.tail
          vault := vaultInsert st₁.vault (conflictPathOf x (st.hashes.headD "000000"))
            (Content.bytes file.data)
          events := st₁.events ++
            [Event.writeF (conflictPathOf x (st.hashes.headD "000000"))] }
        hrest hndt hfoldt
        (by
          intro q hq
          have hq' : q ∈ plannedPathsOf ex (x :: tail) st.hashes := by
            rw [hcp₀]
            exact List.mem_cons_of_mem _ hq
          intro hc
          exact hppn q hq' (by simp [hc]))
        (by
          have := hpp
          rw [hcp₀] at this
          exact (List.nodup_cons.mp this).2)
        (by
          intro n hn
          have hne : n ≠ conflictPathOf x (st.hashes.headD "000000") := by
            intro hc
            exact hcpn (hc ▸ List.mem_cons_of_mem x hn)
          show existsInVault (vaultInsert st₁.vault
            (conflictPathOf x (st.hashes.headD "000000")) (Content.bytes file.data)) n = ex n
          rw [existsInVault_insert_other _ _ _ _ hne]
          exact (hexagree n (by simp [hn])).trans (hex n (by simp [hn])))
      have hcpfresh : conflictPathOf x (st.hashes.headD "000000") ∉
          conflictWriteTargets ex tail st.hashes.tail := by
        intro hc
        unfold conflictWriteTargets at hc
        rcases List.mem_append.mp hc with hc | hc
        · exact hcpn (List.mem_cons_of_mem x (List.mem_filter.mp hc).1)
        · have := hpp
          rw [hcp₀] at this
          exact (List.nodup_cons.mp this).1 hc
      refine ⟨st', ?_, ?_, ?_⟩
      · simp only [restoreEntries, hzf]
        rw [run_bind_ok hef]
        rw [run_bind_ok (show getAbstractFileExists x st₁ =
          (Except.ok true, st₁) from by simp [getAbstractFileExists, hexx])]
        simp only [if_true]
        rw [run_bind_ok hnh]
        rw [run_bind_ok hwr]
        exact hrun
      · intro q hq
        have hq₁ : q ∉ conflictWriteTargets ex tail st.hashes.tail := by
          intro hc
          apply hq
          unfold conflictWriteTargets at hc ⊢
          rcases List.mem_append.mp hc with hc | hc
          · refine List.mem_append.mpr (Or.inl ?_)
            rcases List.mem_filter.mp hc with ⟨h₁, h₂⟩
            exact List.mem_filter.mpr ⟨by simp [h₁], h₂⟩
          · refine List.mem_append.mpr (Or.inr ?_)
            rw [hcp₀]
            exact List.mem_cons_of_mem _ hc
        have hqcp : q ≠ conflictPathOf x (st.hashes.headD "000000") := by
          intro hc
          apply hq
          unfold conflictWriteTargets
          refine List.mem_append.mpr (Or.inr ?_)
          rw [hcp₀, hc]
          exact List.mem_cons_self _ _
        rw [hframe q hq₁]
        simp only []
        rw [lookup_vaultInsert_other _ _ _ _ hqcp]
        unfold lookupFile
        rw [hf₁]
      · intro nh hnh₂ e he
        have : assignHashes ex (x :: tail) st.hashes =
            (x, st.hashes.headD "000000") :: assignHashes ex tail st.hashes.tail := by
          simp [assignHashes, hexcase]
        rw [this] at hnh₂
        rcases List.mem_cons.mp hnh₂ with hnh₂ | hnh₂
        · -- the head pair: the conflict copy written in this step survives
          subst hnh₂
          have hzfe : file = e := by
            rw [hzf] at he
            exact Option.some.injEq _ _ ▸ he
          subst hzfe
          rw [hframe _ hcpfresh]
          simp only []
          exact lookup_vaultInsert_self _ _ _
        · exact hplan nh hnh₂ e he
    | false =>
      -- destination absent: the entry is written at its own path
      rw [hexcase] at hexx
      have hwr : writeFileC env x (Content.bytes file.data) st₁ =
          (Except.ok (),
            { st₁ with
              vault := vaultInsert st₁.vault x (Content.bytes file.data)
              events := st₁.events ++ [Event.writeF x] }) := by
        simp [writeFileC, hWE x]
      have hpeq : plannedPathsOf ex (x :: tail) st.hashes =
          plannedPathsOf ex tail st.hashes := by
        simp [plannedPathsOf, assignHashes, hexcase]
      obtain ⟨st', hrun, hframe, hplan⟩ := ih ex
        { st₁ with
          vault := vaultInsert st₁.vault x (Content.bytes file.data)
          events := st₁.events ++ [Event.writeF x] }
        hrest hndt hfoldt
        (by
          intro q hq
          have hq' : q ∈ plannedPathsOf ex (x :: tail) st.hashes := by
            rw [hpeq]
            simpa [hh₁] using hq
          intro hc
          exact hppn q hq' (by simp [hc]))
        (by
          have := hpp
          rw [hpeq] at this
          simpa [hh₁] using this)
        (by
          intro n hn
          have hne : n ≠ x := by
            intro hc
            exact hxt (hc ▸ hn)
          show existsInVault (vaultInsert st₁.vault x (Content.bytes file.data)) n = ex n
          rw [existsInVault_insert_other _ _ _ _ hne]
          exact (hexagree n (by simp [hn])).trans (hex n (by simp [hn])))
      refine ⟨st', ?_, ?_, ?_⟩
      · simp only [restoreEntries, hzf]
        rw [run_bind_ok hef]
        rw [run_bind_ok (show getAbstractFileExists x st₁ =
          (Except.ok false, st₁) from by simp [getAbstractFileExists, hexx])]
        simp only [Bool.false_eq_true, if_false]
        rw [run_bind_ok hwr]
        exact hrun
      · intro q hq
        have hq₁ : q ∉ conflictWriteTargets ex tail
            ({ st₁ with
              vault := vaultInsert st₁.vault x (Content.bytes file.data)
              events := st₁.events ++ [Event.writeF x] } : St).hashes := by
          intro hc
          apply hq
          unfold conflictWriteTargets at hc ⊢
          rcases List.mem_append.mp hc with hc | hc
          · refine List.mem_append.mpr (Or.inl ?_)
            rcases List.mem_filter.mp hc with ⟨h₁, h₂⟩
            exact List.mem_filter.mpr ⟨by simp [h₁], h₂⟩
          · refine List.mem_append.mpr (Or.inr ?_)
            rw [hpeq]
            simpa [hh₁] using hc
        have hqx : q ≠ x := by
          intro hc
          apply hq
          unfold conflictWriteTargets
          refine List.mem_append.mpr (Or.inl ?_)
          exact List.mem_filter.mpr ⟨by simp [hc], by simp [hc, hexcase]⟩
        rw [hframe q hq₁]
        simp only []
        rw [lookup_vaultInsert_other _ _ _ _ hqx]
        unfold lookupFile
        rw [hf₁]
      · intro nh hnh₂ e he
        refine hplan nh ?_ e he
        have : assignHashes ex (x :: tail) st.hashes = assignHashes ex tail st.hashes := by
          simp [assignHashes, hexcase]
        rw [this] at hnh₂
        simpa [hh₁] using hnh₂

/-- Running `restoreArchive` when the zip is on disk: the zip is read
(one `readF` event) and the entry loop takes over. -/
theorem restoreArchive_run (env : Env) (zipPath : String) (pol : RestorePolicy)
    (z : ZipFile) (st : St)
    (h : lookupFile st.vault zipPath = some (Content.zipc z)) :
    restoreArchive env zipPath pol st =
      restoreEntries env z pol (zipEntryNames z)
        { st with events := st.events ++ [Event.readF zipPath] } := by
  show (readBinary zipPath >>= fun data =>
    loadZip data >>= fun zip =>
    restoreEntries env zip pol (zipEntryNames zip)) st = _
  rw [run_bind_ok (show readBinary zipPath st = (Except.ok (Content.zipc z),
    { st with events := st.events ++ [Event.readF zipPath] }) from by
      simp [readBinary, h])]
  rfl

/-- Every initially-existing entry name is paired with some hash by the
static conflict-hash assignment. -/
theorem assignHashes_mem (ex : String → Bool) :
    ∀ (names hs : List String) (q : String), q ∈ names → ex q = true →
      ∃ h, (q, h) ∈ assignHashes ex names hs := by
  intro names
  induction names with
  | nil => intro hs q hq _; cases hq
  | cons n rest ih =>
    intro hs q hq hexq
    rcases List.mem_cons.mp hq with hq | hq
    · subst hq
      refine ⟨hs.headD "000000", ?_⟩
      have hone : assignHashes ex (q :: rest) hs =
          (q, hs.headD "000000") :: assignHashes ex rest hs.tail := by
        simp [assignHashes, hexq]
      rw [hone]
      exact List.mem_cons_self _ _
    · cases hn : ex n with
      | true =>
        obtain ⟨h, hm⟩ := ih hs.tail q hq hexq
        refine ⟨h, ?_⟩
        have hone : assignHashes ex (n :: rest) hs =
            (n, hs.headD "000000") :: assignHashes ex rest hs.tail := by
          simp [assignHashes, hn]
        rw [hone]
        exact List.mem_cons_of_mem _ hm
      | false =>
        obtain ⟨h, hm⟩ := ih hs q hq hexq
        refine ⟨h, ?_⟩
        have hone : assignHashes ex (n :: rest) hs = assignHashes ex rest hs := by
          simp [assignHashes, hn]
        rw [hone]
        exact hm

/-! # C6 — the restore policy matrix -/

/-- C6: restore policy matrix.  For an archive on disk and an entry
name `q` whose destination already exists in the store — with all
writes succeeding, the archive's directory records slash-terminated,
its entry names duplicate-free and not lying inside one another's
implied parent folders, and the generated conflict names fresh — the
three policies behave as the matrix says: `overwrite` succeeds and
replaces the destination with the archive content; `skip` preserves the
destination's content and never emits a write event for it;
`conflict-copy` succeeds, preserves the destination's content, and
writes the archive content to a fresh conflict path (the name carries
the `-conflict-` marker and coincides with no entry name). -/
theorem c6_policy_matrix (env : Env) (z : ZipFile) (st : St) (zipPath q : String)
    (e : ZipEntry)
    (hWE : ∀ p, env.writeErr p = none)
    (hzip : lookupFile st.vault zipPath = some (Content.zipc z))
    (hdirs : ∀ d ∈ z.dirs, strEndsWith d "/" = true)
    (hnd : (zipEntryNames z).Nodup)
    (hfold : ∀ a ∈ zipEntryNames z, ∀ b ∈ zipEntryNames z, b ∉ foldersCreatedBy a)
    (hppn : ∀ p ∈ plannedPathsOf (fun n => existsInVault st.vault n)
      (zipEntryNames z) st.hashes, p ∉ zipEntryNames z)
    (hpp : (plannedPathsOf (fun n => existsInVault st.vault n)
      (zipEntryNames z) st.hashes).Nodup)
    (hq : q ∈ zipEntryNames z)
    (he : zipGetFile z q = some e)
    (hex : existsInVault st.vault q = true) :
    (∃ st₁, restoreArchive env zipPath RestorePolicy.overwrite st = (Except.ok (), st₁) ∧
      lookupFile st₁.vault q = some (Content.bytes e.data)) ∧
    (∃ r st₂, restoreArchive env zipPath RestorePolicy.skip st = (r, st₂) ∧
      lookupFile st₂.vault q = lookupFile st.vault q ∧
      ∃ δ, st₂.events = st.events ++ δ ∧ Event.writeF q ∉ δ) ∧
    (∃ st₃ h, restoreArchive env zipPath RestorePolicy.conflictCopy st = (Except.ok (), st₃) ∧
      lookupFile st₃.vault q = lookupFile st.vault q ∧
      (q, h) ∈ assignHashes (fun n => existsInVault st.vault n) (zipEntryNames z) st.hashes ∧
      conflictPathOf q h ∉ zipEntryNames z ∧
      strContainsSub (conflictPathOf q h) "-conflict-" = true ∧
      lookupFile st₃.vault (conflictPathOf q h) = some (Content.bytes e.data)) := by
  refine ⟨?_, ?_, ?_⟩
  · -- overwrite
    obtain ⟨l₁, l₂, hdecomp⟩ := List.append_of_mem hq
    have hql₂ : q ∉ l₂ := by
      have hnd₂ := hnd
      rw [hdecomp] at hnd₂
      exact (List.nodup_cons.mp hnd₂.of_append_right).1
    obtain ⟨st₁, hrun, hfin⟩ := restoreEntries_overwrite_final env z hWE l₁ q l₂ e
      { st with events := st.events ++ [Event.readF zipPath] } hql₂ he
    refine ⟨st₁, ?_, hfin⟩
    rw [restoreArchive_run env zipPath _ z st hzip, hdecomp]
    exact hrun
  · -- skip
    obtain ⟨r, st₂, hrun, hlook, _, δ, hev, hw⟩ := restoreEntries_skip_spec env z q
      (zipEntryNames z) { st with events := st.events ++ [Event.readF zipPath] } hex
    refine ⟨r, st₂, ?_, hlook, Event.readF zipPath :: δ, ?_, ?_⟩
    · rw [restoreArchive_run env zipPath _ z st hzip]
      exact hrun
    · rw [hev]
      simp
    · intro hc
      rcases List.mem_cons.mp hc with hc | hc
      · exact Event.noConfusion hc
      · exact hw hc
  · -- conflict-copy
    have hres : ∀ n ∈ zipEntryNames z, ∃ e₀ : ZipEntry, zipGetFile z n = some e₀ := by
      intro n hn
      obtain ⟨e₀, he₀, _⟩ := zipGetFile_of_mem_entryNames z hdirs n hn
      exact ⟨e₀, he₀⟩
    obtain ⟨st₃, hrun, hframe, hplan⟩ := restoreEntries_conflict_spec env z hWE
      (zipEntryNames z) (fun n => existsInVault st.vault n)
      { st with events := st.events ++ [Event.readF zipPath] }
      hres hnd hfold hppn hpp (fun n _ => rfl)
    obtain ⟨h, hmem⟩ := assignHashes_mem (fun n => existsInVault st.vault n)
      (zipEntryNames z) st.hashes q hq hex
    have hcpp : conflictPathOf q h ∈ plannedPathsOf (fun n => existsInVault st.vault n)
        (zipEntryNames z) st.hashes :=
      List.mem_map_of_mem _ hmem
    have hcpn : conflictPathOf q h ∉ zipEntryNames z := hppn _ hcpp
    have hqt : q ∉ conflictWriteTargets (fun n => existsInVault st.vault n)
        (zipEntryNames z) st.hashes := by
      intro hc
      unfold conflictWriteTargets at hc
      rcases List.mem_append.mp hc with hc | hc
      · have hb := (List.mem_filter.mp hc).2
        simp [hex] at hb
      · exact hppn q hc hq
    refine ⟨st₃, h, ?_, hframe q hqt, hmem, hcpn, conflictPath_has_token q h,
      hplan (q, h) hmem e he⟩
    rw [restoreArchive_run env zipPath _ z st hzip]
    exact hrun

def c6Zip : ZipFile :=
  { entries := [{ name := "a.txt", data := [9], unixPermissions := none }], dirs := [] }

def c6St : St :=
  { vault :=
      { files := [("Ar/x.zip", Content.zipc c6Zip), ("a.txt", Content.bytes [1])]
        folders := ["Ar"] }
    events := []
    hashes := ["h1"]
    now := "T" }

/-- C6 witness: the policy matrix at a one-entry archive whose
destination `a.txt` already holds different content. -/
theorem c6_policy_matrix_witness :
    (∃ st₁, restoreArchive benignEnv "Ar/x.zip" RestorePolicy.overwrite c6St =
        (Except.ok (), st₁) ∧
      lookupFile st₁.vault "a.txt" = some (Content.bytes [9])) ∧
    (∃ r st₂, restoreArchive benignEnv "Ar/x.zip" RestorePolicy.skip c6St = (r, st₂) ∧
      lookupFile st₂.vault "a.txt" = lookupFile c6St.vault "a.txt" ∧
      ∃ δ, st₂.events = c6St.events ++ δ ∧ Event.writeF "a.txt" ∉ δ) ∧
    (∃ st₃ h, restoreArchive benignEnv "Ar/x.zip" RestorePolicy.conflictCopy c6St =
        (Except.ok (), st₃) ∧
      lookupFile st₃.vault "a.txt" = lookupFile c6St.vault "a.txt" ∧
      ("a.txt", h) ∈ assignHashes (fun n => existsInVault c6St.vault n)
        (zipEntryNames c6Zip) c6St.hashes ∧
      conflictPathOf "a.txt" h ∉ zipEntryNames c6Zip ∧
      strContainsSub (conflictPathOf "a.txt" h) "-conflict-" = true ∧
      lookupFile st₃.vault (conflictPathOf "a.txt" h) = some (Content.bytes [9])) :=
  c6_policy_matrix benignEnv c6Zip c6St "Ar/x.zip" "a.txt"
    { name := "a.txt", data := [9], unixPermissions := none }
    (fun _ => rfl) rfl (fun d hd => nomatch hd) (by decide) (by decide)
    (by decide) (by decide) (by decide) rfl (by decide)

/-! # C10 — the conflict path is written without an existence re-check -/

/-- C10: under policy `conflict-copy` the generated conflict path
`{name}-conflict-{hash}{ext}` is written without re-checking whether a
file already occupies it: for any store state where the planned
conflict path already holds some content `c₀`, the restore still
returns normally and the conflict path ends up holding the archive
entry's bytes — the occupant is silently overwritten and no alternative
name is chosen. -/
theorem c10_conflict_path_overwritten (env : Env) (z : ZipFile) (st : St)
    (zipPath q h : String) (e : ZipEntry) (c₀ : Content)
    (hWE : ∀ p, env.writeErr p = none)
    (hzip : lookupFile st.vault zipPath = some (Content.zipc z))
    (hdirs : ∀ d ∈ z.dirs, strEndsWith d "/" = true)
    (hnd : (zipEntryNames z).Nodup)
    (hfold : ∀ a ∈ zipEntryNames z, ∀ b ∈ zipEntryNames z, b ∉ foldersCreatedBy a)
    (hppn : ∀ p ∈ plannedPathsOf (fun n => existsInVault st.vault n)
      (zipEntryNames z) st.hashes, p ∉ zipEntryNames z)
    (hpp : (plannedPathsOf (fun n => existsInVault st.vault n)
      (zipEntryNames z) st.hashes).Nodup)
    (hq : q ∈ zipEntryNames z)
    (he : zipGetFile z q = some e)
    (hmem : (q, h) ∈ assignHashes (fun n => existsInVault st.vault n)
      (zipEntryNames z) st.hashes)
    (hocc : lookupFile st.vault (conflictPathOf q h) = some c₀) :
    ∃ st₃, restoreArchive env zipPath RestorePolicy.conflictCopy st = (Except.ok (), st₃) ∧
      lookupFile st₃.vault (conflictPathOf q h) = some (Content.bytes e.data) := by
  have hres : ∀ n ∈ zipEntryNames z, ∃ e₀ : ZipEntry, zipGetFile z n = some e₀ := by
    intro n hn
    obtain ⟨e₀, he₀, _⟩ := zipGetFile_of_mem_entryNames z hdirs n hn
    exact ⟨e₀, he₀⟩
  obtain ⟨st₃, hrun, _, hplan⟩ := restoreEntries_conflict_spec env z hWE
    (zipEntryNames z) (fun n => existsInVault st.vault n)
    { st with events := st.events ++ [Event.readF zipPath] }
    hres hnd hfold hppn hpp (fun n _ => rfl)
  refine ⟨st₃, ?_, hplan (q, h) hmem e he⟩
  rw [restoreArchive_run env zipPath _ z st hzip]
  exact hrun

def c10St : St :=
  { vault :=
      { files := [("Ar/x.zip", Content.zipc c6Zip), ("a.txt", Content.bytes [1]),
          ("a-conflict-h1.txt", Content.bytes [7])]
        folders := ["Ar"] }
    events := []
    hashes := ["h1"]
    now := "T" }

/-- C10 witness: the conflict path `a-conflict-h1.txt` is already
occupied by different content, yet the restore returns normally and
overwrites it with the archive bytes. -/
theorem c10_conflict_path_overwritten_witness :
    ∃ st₃, restoreArchive benignEnv "Ar/x.zip" RestorePolicy.conflictCopy c10St =
        (Except.ok (), st₃) ∧
      lookupFile st₃.vault (conflictPathOf "a.txt" "h1") = some (Content.bytes [9]) :=
  c10_conflict_path_overwritten benignEnv c6Zip c10St "Ar/x.zip" "a.txt" "h1"
    { name := "a.txt", data := [9], unixPermissions := none } (Content.bytes [7])
    (fun _ => rfl) rfl (fun d hd => nomatch hd) (by decide) (by decide)
    (by decide) (by decide) (by decide) rfl (by decide) (by decide)

/-! # C4 — the create/delete/restore round trip

The round-trip analysis composes a characterization of each pipeline
stage under the fault-free environment: the zip `createArchive` builds
from the inputs, the verification of the written zip, the batched
deletion of the sources, and the `overwrite` restore. -/

/-- The zip accumulated by the read loop. -/
def zipAddAll (z : ZipFile) (files : List String) (b : String → Bytes) : ZipFile :=
  files.foldl (fun acc p => zipAddFile acc p (b p)) z

theorem strAppend_assoc (a b c : String) : a ++ b ++ c = a ++ (b ++ c) := by
  cases a
  cases b
  cases c
  show String.mk _ = String.mk _
  rw [List.append_assoc]

theorem append_ne_self (s x : String) (h : x.data ≠ []) : s ++ x ≠ s := by
  intro hc
  have hdata : s.data ++ x.data = s.data := by
    cases s
    cases x
    exact congrArg String.data hc
  have hlen := congrArg List.length hdata
  rw [List.length_append] at hlen
  exact h (List.length_eq_zero.mp (by omega))

theorem upsertEntry_append (e : ZipEntry) :
    ∀ l : List ZipEntry, e.name ∉ l.map ZipEntry.name → upsertEntry l e = l ++ [e] := by
  intro l
  induction l with
  | nil => intro _; rfl
  | cons x t ih =>
    intro h
    have hx : x.name ≠ e.name := by
      intro hc
      exact h (by simp [← hc])
    have hrest : e.name ∉ t.map ZipEntry.name := by
      intro hc
      exact h (by simp [hc])
    show (if x.name == e.name then e :: t else x :: upsertEntry t e) = x :: t ++ [e]
    rw [if_neg (by simp [hx]), ih hrest]
    rfl

theorem zipAddAll_entries (b : String → Bytes) :
    ∀ (files : List String) (z : ZipFile),
      (∀ p ∈ files, p ∉ z.entries.map ZipEntry.name) → files.Nodup →
      (zipAddAll z files b).entries =
        z.entries ++ files.map
          (fun p => ({ name := p, data := b p, unixPermissions := none } : ZipEntry)) := by
  intro files
  induction files with
  | nil => intro z _ _; simp [zipAddAll]
  | cons p rest ih =>
    intro z hfresh hnd
    have hstep : (zipAddFile z p (b p)).entries =
        z.entries ++ [{ name := p, data := b p, unixPermissions := none }] := by
      show upsertEntry z.entries { name := p, data := b p, unixPermissions := none } = _
      exact upsertEntry_append _ _ (hfresh p (by simp))
    have hfresh₂ : ∀ q ∈ rest, q ∉ (zipAddFile z p (b p)).entries.map ZipEntry.name := by
      intro q hq
      rw [hstep]
      simp only [List.map_append, List.map_cons, List.map_nil, List.mem_append,
        List.mem_cons, List.not_mem_nil]
      intro hc
      rcases hc with hc | hc
      · exact hfresh q (by simp [hq]) hc
      · rcases hc with hc | hc
        · exact (List.nodup_cons.mp hnd).1 (hc ▸ hq)
        · exact hc
    have := ih (zipAddFile z p (b p)) hfresh₂ (List.nodup_cons.mp hnd).2
    show (zipAddAll (zipAddFile z p (b p)) rest b).entries = _
    rw [this, hstep]
    simp

theorem strEndsWith_slash (s : String) : strEndsWith (s ++ "/") "/" = true := by
  unfold strEndsWith
  have hd : (s ++ "/").data = s.data ++ ['/'] := by
    cases s
    rfl
  rw [hd]
  simp [List.isPrefixOf, List.reverse_append]

theorem zipAddAll_dirs (b : String → Bytes) :
    ∀ (files : List String) (z : ZipFile),
      (∀ d ∈ z.dirs, strEndsWith d "/" = true) →
      ∀ d ∈ (zipAddAll z files b).dirs, strEndsWith d "/" = true := by
  intro files
  induction files with
  | nil => intro z hz; exact hz
  | cons p rest ih =>
    intro z hz
    refine ih (zipAddFile z p (b p)) ?_
    intro d hd
    have hd' : d ∈ z.dirs ++ (zipFolderNames p).filter (fun x => !(z.dirs.contains x)) := hd
    rcases List.mem_append.mp hd' with hd₁ | hd₁
    · exact hz d hd₁
    · have hd₂ := (List.mem_filter.mp hd₁).1
      unfold zipFolderNames at hd₂
      obtain ⟨i, _, hi⟩ := List.mem_map.mp hd₂
      rw [← hi]
      exact strEndsWith_slash _

theorem zipAddAll_names (b : String → Bytes) (files : List String)
    (hnd : files.Nodup) (hnoslash : ∀ p ∈ files, strEndsWith p "/" = false) :
    zipEntryNames (zipAddAll { entries := [], dirs := [] } files b) = files := by
  unfold zipEntryNames
  rw [zipAddAll_entries b files { entries := [], dirs := [] } (by simp) hnd]
  rw [List.filter_append]
  have hmapall : ∀ l : List String,
      (l.map (fun p => ({ name := p, data := b p, unixPermissions := none } : ZipEntry))).map
        ZipEntry.name = l := by
    intro l
    induction l with
    | nil => rfl
    | cons x t ih => simp [ih]
  have h₁ : (((([] : List ZipEntry) ++ files.map
      (fun p => ({ name := p, data := b p, unixPermissions := none } : ZipEntry))).map
      ZipEntry.name).filter (fun n => !(strEndsWith n "/"))) = files := by
    rw [List.nil_append, hmapall]
    refine List.filter_eq_self.mpr ?_
    intro a ha
    simp [hnoslash a ha]
  have h₂ : ((zipAddAll { entries := [], dirs := [] } files b).dirs.filter
      (fun n => !(strEndsWith n "/"))) = [] := by
    refine List.filter_eq_nil_iff.mpr ?_
    intro a ha
    have := zipAddAll_dirs b files { entries := [], dirs := [] } (by simp) a ha
    simp [this]
  rw [h₁, h₂, List.append_nil]

theorem find_map_mk (b : String → Bytes) :
    ∀ (files : List String) (p : String), p ∈ files →
      (files.map (fun n => ({ name := n, data := b n, unixPermissions := none } : ZipEntry))).find?
          (fun e => e.name == p) =
        some { name := p, data := b p, unixPermissions := none } := by
  intro files
  induction files with
  | nil => intro p hp; cases hp
  | cons x rest ih =>
    intro p hp
    by_cases hx : x = p
    · subst hx
      simp [List.find?]
    · have hp₂ : p ∈ rest := by
        rcases List.mem_cons.mp hp with hc | hc
        · exact absurd hc.symm hx
        · exact hc
      rw [List.map_cons, List.find?_cons_of_neg _ (by simp [hx]), ih p hp₂]

theorem zipAddAll_get (b : String → Bytes) (files : List String)
    (hnd : files.Nodup) (p : String) (hp : p ∈ files) :
    zipGetFile (zipAddAll { entries := [], dirs := [] } files b) p =
      some { name := p, data := b p, unixPermissions := none } := by
  unfold zipGetFile
  rw [zipAddAll_entries b files { entries := [], dirs := [] } (by simp) hnd]
  rw [List.nil_append]
  exact find_map_mk b files p hp

theorem map_id_of_eq {α : Type} (f : α → α) :
    ∀ l : List α, (∀ a ∈ l, f a = a) → l.map f = l := by
  intro l
  induction l with
  | nil => intro _; rfl
  | cons x t ih =>
    intro h
    simp only [List.map_cons]
    rw [h x (by simp), ih (fun a ha => h a (by simp [ha]))]

theorem filter_not_contains_self (files : List String) :
    files.filter (fun f => !(files.contains f)) = [] := by
  refine List.filter_eq_nil_iff.mpr ?_
  intro a ha
  have hc : files.contains a = true := by
    simp only [List.contains_eq_any_beq, List.any_eq_true]
    refine ⟨a, ha, ?_⟩
    simp
  simp [hc, ha]

/-- The read loop under present inputs: collects the bytes into the
accumulated zip and appends each path to the manifest, emitting one
`readF` event per input. -/
theorem readFilesIntoZip_spec (b : String → Bytes) :
    ∀ (files : List String) (z : ZipFile) (m : List String) (st : St),
      (∀ p ∈ files, lookupFile st.vault p = some (Content.bytes (b p))) →
      readFilesIntoZip files z m st =
        (Except.ok (zipAddAll z files b, m ++ files),
         { st with events := st.events ++ files.map Event.readF }) := by
  intro files
  induction files with
  | nil =>
    intro z m st _
    show mPure (z, m) st = _
    simp [mPure, zipAddAll]
  | cons p rest ih =>
    intro z m st hpres
    show (readBinary p >>= fun data =>
      readFilesIntoZip rest (zipAddFile z p (contentBytes data)) (m ++ [p])) st = _
    rw [run_bind_ok (show readBinary p st = (Except.ok (Content.bytes (b p)),
      { st with events := st.events ++ [Event.readF p] }) from by
        simp [readBinary, hpres p (by simp)])]
    rw [ih (zipAddFile z p (contentBytes (Content.bytes (b p)))) (m ++ [p])
      { st with events := st.events ++ [Event.readF p] }
      (fun q hq => hpres q (by simp [hq]))]
    have h₁ : (m ++ [p]) ++ rest = m ++ p :: rest := by simp
    have h₂ : (st.events ++ [Event.readF p]) ++ rest.map Event.readF =
        st.events ++ (p :: rest).map Event.readF := by simp
    rw [h₁, h₂]
    rfl

/-- `verifyZipIntegrity` at a readable zip whose non-directory entry
names equal the (already-normalized) expected list: zero errors. -/
theorem verifyZipIntegrity_success (zipPath : String) (files : List String) (z : ZipFile)
    (st : St) (hz : lookupFile st.vault zipPath = some (Content.zipc z))
    (hnames : zipEntryNames z = files)
    (hnorm : ∀ p ∈ files, normalizePath p = p) :
    verifyZipIntegrity zipPath files st =
      (Except.ok { isValid := true, fileCount := files.length, errors := [] },
       { st with events := st.events ++ [Event.readF zipPath, Event.verifyDone true] }) := by
  have hmapn : files.map normalizePath = files := map_id_of_eq normalizePath files hnorm
  unfold verifyZipIntegrity
  refine run_tryCatch_ok ?_
  rw [run_bind_ok (show readBinary zipPath st = (Except.ok (Content.zipc z),
    { st with events := st.events ++ [Event.readF zipPath] }) from by
      simp [readBinary, hz])]
  rw [run_bind_ok (show loadZip (Content.zipc z)
    { st with events := st.events ++ [Event.readF zipPath] } = (Except.ok z,
    { st with events := st.events ++ [Event.readF zipPath] }) from rfl)]
  simp only [hnames, hmapn, filter_not_contains_self]
  show ((Except.ok { isValid := true, fileCount := files.length, errors := [] } :
      Except Err ZipVerificationResult),
      ({ st with events := (st.events ++ [Event.readF zipPath]) ++ [Event.verifyDone true] } : St)) =
    ((Except.ok { isValid := true, fileCount := files.length, errors := [] } :
      Except Err ZipVerificationResult),
      ({ st with events := st.events ++ [Event.readF zipPath, Event.verifyDone true] } : St))
  rw [List.append_assoc]
  rfl

theorem catchIgnore_createFolder (p : String) (st : St) :
    ∃ st', catchIgnore (createFolder p) st = (Except.ok (), st') ∧
      st'.vault.files = st.vault.files ∧ st'.events = st.events ∧
      st'.hashes = st.hashes ∧ st'.now = st.now := by
  by_cases h : st.vault.folders.contains p
  · have hm : p ∈ st.vault.folders := by simpa using h
    have hc : createFolder p st =
        (Except.error
          { kind := ErrKind.folderExists
            msg := "Folder already exists: " ++ p
            rollbackError := none }, st) := by
      simp [createFolder, hm]
    refine ⟨st, ?_, rfl, rfl, rfl, rfl⟩
    show mTryCatch (createFolder p) (fun _ => mPure ()) st = (Except.ok (), st)
    rw [run_tryCatch_err hc]
    rfl
  · have hm : p ∉ st.vault.folders := by simpa using h
    have hc : createFolder p st = (Except.ok (),
        { st with vault := { st.vault with folders := st.vault.folders ++ [p] } }) := by
      simp [createFolder, hm]
    refine ⟨{ st with vault := { st.vault with folders := st.vault.folders ++ [p] } },
      ?_, rfl, rfl, rfl, rfl⟩
    show mTryCatch (createFolder p) (fun _ => mPure ()) st = _
    exact run_tryCatch_ok hc

theorem plannedZipPath_eq (af mn : String) (files : List String)
    (opts : CreateArchiveOptions) (now h : String) :
    plannedZipPath af mn files opts now h =
      af ++ "/" ++ (slugify (chooseBaseName mn files opts.preserveBaseName) ++ "-" ++
        isoSlug now ++ "-" ++ h ++ ".zip") := by
  unfold plannedZipPath
  simp [strAppend_assoc]

/-- `createArchiveMain` in the fault-free environment with all inputs
present: returns the planned zip path with the inputs as manifest,
and leaves the zip and its manifest on disk — touching no other path —
with one hash drawn from the supply. -/
theorem createArchiveMain_benign (af mn : String) (b : String → Bytes)
    (files : List String) (opts : CreateArchiveOptions) (st : St)
    (hpres : ∀ p ∈ files, lookupFile st.vault p = some (Content.bytes (b p)))
    (hnd : files.Nodup)
    (hnorm : ∀ p ∈ files, normalizePath p = p)
    (hnoslash : ∀ p ∈ files, strEndsWith p "/" = false) :
    ∃ st', createArchiveMain benignEnv af mn files opts st =
        (Except.ok
          { zipPath := plannedZipPath af mn files opts st.now (st.hashes.headD "000000")
            manifestFiles := files }, st') ∧
      lookupFile st'.vault (plannedZipPath af mn files opts st.now (st.hashes.headD "000000")) =
        some (Content.zipc (zipAddAll { entries := [], dirs := [] } files b)) ∧
      (∀ q, q ≠ plannedZipPath af mn files opts st.now (st.hashes.headD "000000") →
        q ≠ plannedZipPath af mn files opts st.now (st.hashes.headD "000000") ++
          ".manifest.json" →
        lookupFile st'.vault q = lookupFile st.vault q) ∧
      st'.hashes = st.hashes.tail ∧ st'.now = st.now := by
  rw [plannedZipPath_eq]
  have hzne : af ++ "/" ++ (slugify (chooseBaseName mn files opts.preserveBaseName) ++ "-" ++
      isoSlug st.now ++ "-" ++ st.hashes.headD "000000" ++ ".zip") ≠
      af ++ "/" ++ (slugify (chooseBaseName mn files opts.preserveBaseName) ++ "-" ++
      isoSlug st.now ++ "-" ++ st.hashes.headD "000000" ++ ".zip") ++ ".manifest.json" :=
    (append_ne_self _ ".manifest.json" (by decide)).symm
  obtain ⟨stC, hC, hCf, hCe, hCh, hCn⟩ := catchIgnore_createFolder af
    { vault := st.vault, events := st.events ++ files.map Event.readF,
      hashes := st.hashes.tail, now := st.now }
  have hnamesZ : zipEntryNames (zipAddAll { entries := [], dirs := [] } files b) = files :=
    zipAddAll_names b files hnd hnoslash
  have hlook : lookupFile
      (vaultInsert stC.vault
        (af ++ "/" ++ (slugify (chooseBaseName mn files opts.preserveBaseName) ++ "-" ++
          isoSlug st.now ++ "-" ++ st.hashes.headD "000000" ++ ".zip"))
        (Content.zipc (zipAddAll { entries := [], dirs := [] } files b)))
      (af ++ "/" ++ (slugify (chooseBaseName mn files opts.preserveBaseName) ++ "-" ++
        isoSlug st.now ++ "-" ++ st.hashes.headD "000000" ++ ".zip")) =
      some (Content.zipc (zipAddAll { entries := [], dirs := [] } files b)) :=
    lookup_vaultInsert_self _ _ _
  refine ⟨{ stC with
      vault := vaultInsert (vaultInsert stC.vault
        (af ++ "/" ++ (slugify (chooseBaseName mn files opts.preserveBaseName) ++ "-" ++
          isoSlug st.now ++ "-" ++ st.hashes.headD "000000" ++ ".zip"))
        (Content.zipc (zipAddAll { entries := [], dirs := [] } files b)))
        (af ++ "/" ++ (slugify (chooseBaseName mn files opts.preserveBaseName) ++ "-" ++
          isoSlug st.now ++ "-" ++ st.hashes.headD "000000" ++ ".zip") ++ ".manifest.json")
        (Content.jsonManifest ([] ++ files))
      events := (stC.events ++ [Event.writeF
          (af ++ "/" ++ (slugify (chooseBaseName mn files opts.preserveBaseName) ++ "-" ++
            isoSlug st.now ++ "-" ++ st.hashes.headD "000000" ++ ".zip"))] ++ [Event.writeF
          (af ++ "/" ++ (slugify (chooseBaseName mn files opts.preserveBaseName) ++ "-" ++
            isoSlug st.now ++ "-" ++ st.hashes.headD "000000" ++ ".zip") ++
            ".manifest.json")]) ++ [Event.readF
          (af ++ "/" ++ (slugify (chooseBaseName mn files opts.preserveBaseName) ++ "-" ++
            isoSlug st.now ++ "-" ++ st.hashes.headD "000000" ++ ".zip")),
          Event.verifyDone true] }, ?_, ?_, ?_, ?_, ?_⟩
  case _ =>
    rw [show createArchiveMain benignEnv af mn files opts =
      (readFilesIntoZip files { entries := [], dirs := [] } [] >>= fun zm =>
       getSt >>= fun st0 =>
       nextHash >>= fun hash =>
       catchIgnore (createFolder af) >>= fun _ =>
       writeFileC benignEnv
         (af ++ "/" ++ (slugify (chooseBaseName mn files opts.preserveBaseName) ++ "-" ++
           isoSlug st0.now ++ "-" ++ hash ++ ".zip")) (Content.zipc zm.1) >>= fun _ =>
       writeFileC benignEnv
         (af ++ "/" ++ (slugify (chooseBaseName mn files opts.preserveBaseName) ++ "-" ++
           isoSlug st0.now ++ "-" ++ hash ++ ".zip") ++ ".manifest.json")
         (Content.jsonManifest zm.2) >>= fun _ =>
       verifyZipIntegrity
         (af ++ "/" ++ (slugify (chooseBaseName mn files opts.preserveBaseName) ++ "-" ++
           isoSlug st0.now ++ "-" ++ hash ++ ".zip")) files >>= fun verification =>
       if !verification.isValid then
         mThrow ErrKind.verificationFailed
           ("Zip verification failed: " ++ String.intercalate "; " verification.errors)
       else
         mPure
           { zipPath := af ++ "/" ++
               (slugify (chooseBaseName mn files opts.preserveBaseName) ++ "-" ++
                isoSlug st0.now ++ "-" ++ hash ++ ".zip")
             manifestFiles := zm.2 }) from rfl]
    rw [run_bind_ok (readFilesIntoZip_spec b files { entries := [], dirs := [] } [] st hpres)]
    rw [run_bind_ok (show getSt
      { st with events := st.events ++ files.map Event.readF } =
      (Except.ok ({ st with events := st.events ++ files.map Event.readF } : St),
       { st with events := st.events ++ files.map Event.readF }) from rfl)]
    rw [run_bind_ok (nextHash_run { st with events := st.events ++ files.map Event.readF })]
    dsimp only
    rw [run_bind_ok hC]
    rw [run_bind_ok (show writeFileC benignEnv
      (af ++ "/" ++ (slugify (chooseBaseName mn files opts.preserveBaseName) ++ "-" ++
        isoSlug st.now ++ "-" ++ st.hashes.headD "000000" ++ ".zip"))
      (Content.zipc (zipAddAll { entries := [], dirs := [] } files b)) stC =
      (Except.ok (),
       { stC with
         vault := vaultInsert stC.vault
           (af ++ "/" ++ (slugify (chooseBaseName mn files opts.preserveBaseName) ++ "-" ++
             isoSlug st.now ++ "-" ++ st.hashes.headD "000000" ++ ".zip"))
           (Content.zipc (zipAddAll { entries := [], dirs := [] } files b))
         events := stC.events ++ [Event.writeF
           (af ++ "/" ++ (slugify (chooseBaseName mn files opts.preserveBaseName) ++ "-" ++
             isoSlug st.now ++ "-" ++ st.hashes.headD "000000" ++ ".zip"))] }) from rfl)]
    rw [run_bind_ok (show writeFileC benignEnv
      (af ++ "/" ++ (slugify (chooseBaseName mn files opts.preserveBaseName) ++ "-" ++
        isoSlug st.now ++ "-" ++ st.hashes.headD "000000" ++ ".zip") ++ ".manifest.json")
      (Content.jsonManifest ([] ++ files))
      ({ stC with
         vault := vaultInsert stC.vault
           (af ++ "/" ++ (slugify (chooseBaseName mn files opts.preserveBaseName) ++ "-" ++
             isoSlug st.now ++ "-" ++ st.hashes.headD "000000" ++ ".zip"))
           (Content.zipc (zipAddAll { entries := [], dirs := [] } files b))
         events := stC.events ++ [Event.writeF
           (af ++ "/" ++ (slugify (chooseBaseName mn files opts.preserveBaseName) ++ "-" ++
             isoSlug st.now ++ "-" ++ st.hashes.headD "000000" ++ ".zip"))] } : St) =
      (Except.ok (),
       { stC with
         vault := vaultInsert (vaultInsert stC.vault
           (af ++ "/" ++ (slugify (chooseBaseName mn files opts.preserveBaseName) ++ "-" ++
             isoSlug st.now ++ "-" ++ st.hashes.headD "000000" ++ ".zip"))
           (Content.zipc (zipAddAll { entries := [], dirs := [] } files b)))
           (af ++ "/" ++ (slugify (chooseBaseName mn files opts.preserveBaseName) ++ "-" ++
             isoSlug st.now ++ "-" ++ st.hashes.headD "000000" ++ ".zip") ++ ".manifest.json")
           (Content.jsonManifest ([] ++ files))
         events := (stC.events ++ [Event.writeF
           (af ++ "/" ++ (slugify (chooseBaseName mn files opts.preserveBaseName) ++ "-" ++
             isoSlug st.now ++ "-" ++ st.hashes.headD "000000" ++ ".zip"))]) ++ [Event.writeF
           (af ++ "/" ++ (slugify (chooseBaseName mn files opts.preserveBaseName) ++ "-" ++
             isoSlug st.now ++ "-" ++ st.hashes.headD "000000" ++ ".zip") ++ ".manifest.json")] })
      from rfl)]
    rw [run_bind_ok (verifyZipIntegrity_success
      (af ++ "/" ++ (slugify (chooseBaseName mn files opts.preserveBaseName) ++ "-" ++
        isoSlug st.now ++ "-" ++ st.hashes.headD "000000" ++ ".zip")) files
      (zipAddAll { entries := [], dirs := [] } files b) _
      (by
        show lookupFile (vaultInsert (vaultInsert stC.vault _ _) _ _) _ = _
        rw [lookup_vaultInsert_other _ _ _ _ hzne]
        exact hlook)
      hnamesZ hnorm)]
    rfl
  case _ =>
    show lookupFile (vaultInsert (vaultInsert stC.vault _ _) _ _) _ = _
    rw [lookup_vaultInsert_other _ _ _ _ hzne]
    exact hlook
  case _ =>
    intro q hq₁ hq₂
    show lookupFile (vaultInsert (vaultInsert stC.vault _ _) _ _) q = _
    rw [lookup_vaultInsert_other _ _ _ _ hq₂, lookup_vaultInsert_other _ _ _ _ hq₁]
    show lookupFileL stC.vault.files q = lookupFileL st.vault.files q
    rw [hCf]
  case _ =>
    show stC.hashes = st.hashes.tail
    rw [hCh]
  case _ =>
    show stC.now = st.now
    rw [hCn]

/-- In the fault-free environment a present file is deleted by the
first strategy (`app.vault.delete`). -/
theorem deleteOneFile_present (p : String) (st : St) (c : Content)
    (h : lookupFile st.vault p = some c) :
    deleteOneFile benignEnv p st =
      (Except.ok true,
        { st with vault := vaultRemove st.vault p
                  events := st.events ++ [Event.removeF p] }) := by
  have hex : existsInVault st.vault p = true := by
    unfold existsInVault
    rw [h]
    simp
  unfold deleteOneFile
  rw [run_bind_ok (show getAbstractFileExists p st = (Except.ok true, st) from by
    simp [getAbstractFileExists, hex])]
  simp only [if_true]
  rw [run_bind_ok (run_tryCatch_ok (show (vaultDelete benignEnv p >>= fun _ => mPure true) st =
    (Except.ok true, { st with vault := vaultRemove st.vault p
                               events := st.events ++ [Event.removeF p] }) from rfl))]
  rfl

/-- The per-batch file loop under the fault-free environment with the
whole batch present: every file is deleted, none fails, and no other
path's content changes. -/
theorem processBatchFiles_benign :
    ∀ (batch d f bd : List String) (st : St),
      (∀ p ∈ batch, ∃ c, lookupFile st.vault p = some c) →
      batch.Nodup →
      ∃ st', processBatchFiles benignEnv batch d f bd st =
          (Except.ok (d ++ batch, f, bd ++ batch), st') ∧
        (∀ q, q ∉ batch → lookupFile st'.vault q = lookupFile st.vault q) ∧
        st'.vault.folders = st.vault.folders ∧
        st'.hashes = st.hashes ∧ st'.now = st.now := by
  intro batch
  induction batch with
  | nil =>
    intro d f bd st _ _
    exact ⟨st, by simp [processBatchFiles, mPure], fun q _ => rfl, rfl, rfl, rfl⟩
  | cons p rest ih =>
    intro d f bd st hpres hnd
    obtain ⟨c, hc⟩ := hpres p (by simp)
    have h₁ := deleteOneFile_present p st c hc
    have hpres₂ : ∀ r ∈ rest, ∃ c₀, lookupFile
        ({ st with vault := vaultRemove st.vault p
                   events := st.events ++ [Event.removeF p] } : St).vault r = some c₀ := by
      intro r hr
      obtain ⟨c₀, hc₀⟩ := hpres r (by simp [hr])
      refine ⟨c₀, ?_⟩
      show lookupFile (vaultRemove st.vault p) r = some c₀
      rw [lookup_vaultRemove_other _ _ _ (by
        intro hrp
        exact (List.nodup_cons.mp hnd).1 (hrp ▸ hr))]
      exact hc₀
    obtain ⟨st', hrun, hframe, hfold, hh, hn⟩ := ih (d ++ [p]) f (bd ++ [p])
      { st with vault := vaultRemove st.vault p
                events := st.events ++ [Event.removeF p] }
      hpres₂ (List.nodup_cons.mp hnd).2
    refine ⟨st', ?_, ?_, ?_, hh, hn⟩
    · show (deleteOneFile benignEnv p >>= fun success =>
        if success then processBatchFiles benignEnv rest (d ++ [p]) f (bd ++ [p])
        else processBatchFiles benignEnv rest d (f ++ [p]) bd) st = _
      rw [run_bind_ok h₁]
      simp only [if_true]
      rw [hrun]
      have ha : (d ++ [p]) ++ rest = d ++ p :: rest := by simp
      have hb : (bd ++ [p]) ++ rest = bd ++ p :: rest := by simp
      rw [ha, hb]
    · intro q hq
      have hq₁ : q ∉ rest := fun hc => hq (by simp [hc])
      have hq₂ : q ≠ p := fun hc => hq (by simp [hc])
      rw [hframe q hq₁]
      show lookupFile (vaultRemove st.vault p) q = lookupFile st.vault q
      exact lookup_vaultRemove_other _ _ _ hq₂
    · rw [hfold]
      show (vaultRemove st.vault p).folders = st.vault.folders
      exact vaultRemove_folders _ _

/-- One batch in the fault-free environment with the batch present:
all its files are deleted, the checkpoint is written, and only batch
paths and the checkpoint path are touched. -/
theorem processOneBatch_benign (zipPath : String) (batch : List String) (bi tb : Nat)
    (d f : List String) (st : St)
    (hpres : ∀ p ∈ batch, ∃ c, lookupFile st.vault p = some c)
    (hnd : batch.Nodup) :
    ∃ st', processOneBatch benignEnv zipPath batch bi tb d f st =
        (Except.ok (d ++ batch, f), st') ∧
      (∀ q, q ∉ batch → q ≠ zipPath ++ ".checkpoint.json" →
        lookupFile st'.vault q = lookupFile st.vault q) ∧
      st'.vault.folders = st.vault.folders ∧
      st'.hashes = st.hashes ∧ st'.now = st.now := by
  obtain ⟨st₁, h₁, hframe₁, hfold₁, hh₁, hn₁⟩ :=
    processBatchFiles_benign batch d f [] st hpres hnd
  refine ⟨{ st₁ with
      vault := vaultInsert st₁.vault (zipPath ++ ".checkpoint.json")
        (Content.jsonCheckpoint (d ++ batch) (bi + 1) tb st₁.now)
      events := st₁.events ++ [Event.writeF (zipPath ++ ".checkpoint.json")] },
    ?_, ?_, ?_, hh₁, hn₁⟩
  · rw [show processOneBatch benignEnv zipPath batch bi tb d f =
      (processBatchFiles benignEnv batch d f [] >>= fun res =>
        getSt >>= fun st₀ =>
        mTryCatch
          (writeFileC benignEnv (zipPath ++ ".checkpoint.json")
            (Content.jsonCheckpoint res.1 (bi + 1) tb st₀.now) >>= fun _ =>
            mPure (none : Option Err))
          (fun batchError => mPure (some batchError)) >>= fun r =>
        match r with
        | none => mPure (res.1, res.2.1)
        | some batchError =>
            restoreBatchFiles benignEnv zipPath res.2.2 >>= fun _ =>
            mThrow' batchError) from rfl]
    rw [run_bind_ok h₁]
    rw [run_bind_ok (show getSt st₁ = (Except.ok st₁, st₁) from rfl)]
    rw [run_bind_ok (run_tryCatch_ok (show
      (writeFileC benignEnv (zipPath ++ ".checkpoint.json")
        (Content.jsonCheckpoint (d ++ batch, f, [] ++ batch).1 (bi + 1) tb st₁.now) >>= fun _ =>
        mPure (none : Option Err)) st₁ =
      (Except.ok (none : Option Err),
       { st₁ with
         vault := vaultInsert st₁.vault (zipPath ++ ".checkpoint.json")
           (Content.jsonCheckpoint (d ++ batch) (bi + 1) tb st₁.now)
         events := st₁.events ++ [Event.writeF (zipPath ++ ".checkpoint.json")] }) from rfl))]
    rfl
  · intro q hq hcp
    show lookupFile (vaultInsert st₁.vault (zipPath ++ ".checkpoint.json")
      (Content.jsonCheckpoint (d ++ batch) (bi + 1) tb st₁.now)) q = lookupFile st.vault q
    rw [lookup_vaultInsert_other _ _ _ _ hcp]
    exact hframe₁ q hq
  · show (vaultInsert st₁.vault (zipPath ++ ".checkpoint.json")
      (Content.jsonCheckpoint (d ++ batch) (bi + 1) tb st₁.now)).folders = st.vault.folders
    rw [vaultInsert_folders]
    exact hfold₁

/-- The batch loop in the fault-free environment with everything
present: all files across the batches are deleted and only they and the
checkpoint path are touched. -/
theorem processBatches_benign (zipPath : String) (tb : Nat) :
    ∀ (batches : List (List String)) (bi : Nat) (d f : List String) (st : St),
      batches.flatten.Nodup →
      (∀ p ∈ batches.flatten, ∃ c, lookupFile st.vault p = some c) →
      (zipPath ++ ".checkpoint.json") ∉ batches.flatten →
      ∃ st', processBatches benignEnv zipPath tb batches bi d f st =
          (Except.ok (d ++ batches.flatten, f), st') ∧
        (∀ q, q ∉ batches.flatten → q ≠ zipPath ++ ".checkpoint.json" →
          lookupFile st'.vault q = lookupFile st.vault q) ∧
        st'.vault.folders = st.vault.folders ∧
        st'.hashes = st.hashes ∧ st'.now = st.now := by
  intro batches
  induction batches with
  | nil =>
    intro bi d f st _ _ _
    exact ⟨st, by simp [processBatches, mPure], fun q _ _ => rfl, rfl, rfl, rfl⟩
  | cons batch rest ih =>
    intro bi d f st hnd hpres hcp
    have hflat : (batch :: rest).flatten = batch ++ rest.flatten := rfl
    rw [hflat] at hnd hpres hcp ⊢
    obtain ⟨hndb, hndr, hdisj⟩ := List.nodup_append.mp hnd
    obtain ⟨st₁, h₁, hframe₁, hfold₁, hh₁, hn₁⟩ := processOneBatch_benign zipPath batch bi tb
      d f st (fun p hp => hpres p (List.mem_append.mpr (Or.inl hp))) hndb
    have hpres₂ : ∀ p ∈ rest.flatten, ∃ c, lookupFile st₁.vault p = some c := by
      intro p hp
      obtain ⟨c, hc⟩ := hpres p (List.mem_append.mpr (Or.inr hp))
      refine ⟨c, ?_⟩
      rw [hframe₁ p (fun hcb => hdisj hcb hp)
        (fun hpc => hcp (hpc ▸ List.mem_append.mpr (Or.inr hp)))]
      exact hc
    obtain ⟨st', hrun, hframe, hfoldr, hh, hn⟩ := ih (bi + 1) (d ++ batch) f st₁ hndr hpres₂
      (fun hc => hcp (List.mem_append.mpr (Or.inr hc)))
    refine ⟨st', ?_, ?_, ?_, hh.trans hh₁, hn.trans hn₁⟩
    · show (processOneBatch benignEnv zipPath batch bi tb d f >>= fun res =>
        processBatches benignEnv zipPath tb rest (bi + 1) res.1 res.2) st = _
      rw [run_bind_ok h₁]
      show processBatches benignEnv zipPath tb rest (bi + 1) (d ++ batch) f st₁ = _
      rw [hrun]
      have ha : (d ++ batch) ++ rest.flatten = d ++ (batch ++ rest.flatten) := by simp
      rw [ha]
    · intro q hq hqcp
      have hq₁ : q ∉ rest.flatten := fun hc => hq (List.mem_append.mpr (Or.inr hc))
      have hq₂ : q ∉ batch := fun hc => hq (List.mem_append.mpr (Or.inl hc))
      rw [hframe q hq₁ hqcp]
      exact hframe₁ q hq₂ hqcp
    · rw [hfoldr, hfold₁]

theorem catchIgnore_adapterRemove_benign (p : String) (st : St) :
    ∃ st', catchIgnore (adapterRemove benignEnv p) st = (Except.ok (), st') ∧
      (∀ q, q ≠ p → lookupFile st'.vault q = lookupFile st.vault q) ∧
      st'.vault.folders = st.vault.folders ∧
      st'.hashes = st.hashes ∧ st'.now = st.now := by
  cases hl : lookupFile st.vault p with
  | none =>
    refine ⟨st, ?_, fun q _ => rfl, rfl, rfl, rfl⟩
    show mTryCatch (adapterRemove benignEnv p) (fun _ => mPure ()) st = _
    rw [run_tryCatch_err (show adapterRemove benignEnv p st =
      (Except.error { kind := ErrKind.notFound, msg := "enoent: " ++ p }, st) from by
        simp [adapterRemove, hl])]
    rfl
  | some c =>
    refine ⟨{ st with vault := vaultRemove st.vault p
                      events := st.events ++ [Event.removeF p] }, ?_, ?_, ?_, rfl, rfl⟩
    · show mTryCatch (adapterRemove benignEnv p) (fun _ => mPure ()) st = _
      exact run_tryCatch_ok (show adapterRemove benignEnv p st = (Except.ok (),
        { st with vault := vaultRemove st.vault p
                  events := st.events ++ [Event.removeF p] }) from by
        simp [adapterRemove, benignEnv, hl])
    · intro q hq
      exact lookup_vaultRemove_other _ _ _ hq
    · exact vaultRemove_folders _ _

/-- The `try` body of the deletion protocol in the fault-free
environment: returns normally and touches only the input files, the
checkpoint path and the deletelog path. -/
theorem deleteTryBody_benign (zipPath : String) (files : List String) (bs : Option Nat)
    (st : St) (hnd : files.Nodup)
    (hpres : ∀ p ∈ files, ∃ c, lookupFile st.vault p = some c)
    (hcp : (zipPath ++ ".checkpoint.json") ∉ files) :
    ∃ st', deleteTryBody benignEnv zipPath files bs st = (Except.ok (), st') ∧
      (∀ q, q ∉ files → q ≠ zipPath ++ ".checkpoint.json" →
        q ≠ zipPath ++ ".deletelog.json" →
        lookupFile st'.vault q = lookupFile st.vault q) ∧
      st'.vault.folders = st.vault.folders ∧ st'.now = st.now := by
  have hflat : (chunkList (effBatchSize bs) files).flatten = files := chunkList_flatten _ _
  obtain ⟨st₁, h₁, hframe₁, hfold₁, hh₁, hn₁⟩ := processBatches_benign zipPath
    (chunkList (effBatchSize bs) files).length (chunkList (effBatchSize bs) files) 0 [] [] st
    (by rw [hflat]; exact hnd) (by rw [hflat]; exact hpres) (by rw [hflat]; exact hcp)
  rw [hflat] at h₁ hframe₁
  obtain ⟨st₃, h₃, hframe₃, hfold₃, hh₃, hn₃⟩ := catchIgnore_adapterRemove_benign
    (zipPath ++ ".checkpoint.json")
    { st₁ with
      vault := vaultInsert st₁.vault (zipPath ++ ".deletelog.json")
        (Content.jsonDeleteLog ([] ++ files) [] st₁.now)
      events := st₁.events ++ [Event.writeF (zipPath ++ ".deletelog.json")] }
  refine ⟨st₃, ?_, ?_, ?_, ?_⟩
  · show (processBatches benignEnv zipPath (chunkList (effBatchSize bs) files).length
      (chunkList (effBatchSize bs) files) 0 [] [] >>= fun res =>
      getSt >>= fun st₀ =>
      writeFileC benignEnv (zipPath ++ ".deletelog.json")
        (Content.jsonDeleteLog res.1 res.2 st₀.now) >>= fun _ =>
      catchIgnore (adapterRemove benignEnv (zipPath ++ ".checkpoint.json"))) st = _
    rw [run_bind_ok h₁]
    show (getSt >>= fun st₀ =>
      writeFileC benignEnv (zipPath ++ ".deletelog.json")
        (Content.jsonDeleteLog ([] ++ files) [] st₀.now) >>= fun _ =>
      catchIgnore (adapterRemove benignEnv (zipPath ++ ".checkpoint.json"))) st₁ = _
    rw [run_bind_ok (show getSt st₁ = (Except.ok st₁, st₁) from rfl)]
    show (writeFileC benignEnv (zipPath ++ ".deletelog.json")
        (Content.jsonDeleteLog ([] ++ files) [] st₁.now) >>= fun _ =>
      catchIgnore (adapterRemove benignEnv (zipPath ++ ".checkpoint.json"))) st₁ = _
    rw [run_bind_ok (show writeFileC benignEnv (zipPath ++ ".deletelog.json")
      (Content.jsonDeleteLog ([] ++ files) [] st₁.now) st₁ = (Except.ok (),
      { st₁ with
        vault := vaultInsert st₁.vault (zipPath ++ ".deletelog.json")
          (Content.jsonDeleteLog ([] ++ files) [] st₁.now)
        events := st₁.events ++ [Event.writeF (zipPath ++ ".deletelog.json")] }) from rfl)]
    exact h₃
  · intro q hq hqcp hqlog
    rw [hframe₃ q hqcp]
    show lookupFile (vaultInsert st₁.vault (zipPath ++ ".deletelog.json")
      (Content.jsonDeleteLog ([] ++ files) [] st₁.now)) q = lookupFile st.vault q
    rw [lookup_vaultInsert_other _ _ _ _ hqlog]
    exact hframe₁ q hq hqcp
  · rw [hfold₃]
    show (vaultInsert st₁.vault (zipPath ++ ".deletelog.json")
      (Content.jsonDeleteLog ([] ++ files) [] st₁.now)).folders = st.vault.folders
    rw [vaultInsert_folders]
    exact hfold₁
  · rw [hn₃]
    exact hn₁

/-- `deleteOriginalsWithRollback` in the fault-free environment:
returns normally (the rollback handler never runs) and touches only the
input files and the protocol's two metadata paths. -/
theorem deleteOriginals_benign (zipPath : String) (files : List String) (bs : Option Nat)
    (st : St) (hnd : files.Nodup)
    (hpres : ∀ p ∈ files, ∃ c, lookupFile st.vault p = some c)
    (hcp : (zipPath ++ ".checkpoint.json") ∉ files) :
    ∃ st', deleteOriginalsWithRollback benignEnv zipPath files bs st = (Except.ok (), st') ∧
      (∀ q, q ∉ files → q ≠ zipPath ++ ".checkpoint.json" →
        q ≠ zipPath ++ ".deletelog.json" →
        lookupFile st'.vault q = lookupFile st.vault q) ∧
      st'.vault.folders = st.vault.folders ∧ st'.now = st.now := by
  obtain ⟨st', h, hf, hfo, hn⟩ := deleteTryBody_benign zipPath files bs st hnd hpres hcp
  exact ⟨st', run_tryCatch_ok h, hf, hfo, hn⟩

/-- C4: round trip.  For any set of (path, bytes) pairs present in the
store (paths duplicate-free, already normalized, not slash-terminated,
and distinct from the four generated artifact paths), running
`createArchive` over those paths with `deleteOriginals` — which builds
the archive, verifies it and deletes the sources — and then
`restoreArchive` on the returned archive path with policy `overwrite`
reproduces byte-identical content at every original path. -/
theorem c4_round_trip (af mn : String) (b : String → Bytes) (files : List String)
    (bs : Option Nat) (pb : Bool) (st : St)
    (hpres : ∀ p ∈ files, lookupFile st.vault p = some (Content.bytes (b p)))
    (hnd : files.Nodup)
    (hnorm : ∀ p ∈ files, normalizePath p = p)
    (hnoslash : ∀ p ∈ files, strEndsWith p "/" = false)
    (hzp : plannedZipPath af mn files
      { deleteOriginals := true, batchSize := bs, preserveBaseName := pb }
      st.now (st.hashes.headD "000000") ∉ files)
    (hmp : plannedZipPath af mn files
      { deleteOriginals := true, batchSize := bs, preserveBaseName := pb }
      st.now (st.hashes.headD "000000") ++ ".manifest.json" ∉ files)
    (hcp : plannedZipPath af mn files
      { deleteOriginals := true, batchSize := bs, preserveBaseName := pb }
      st.now (st.hashes.headD "000000") ++ ".checkpoint.json" ∉ files)
    (hlp : plannedZipPath af mn files
      { deleteOriginals := true, batchSize := bs, preserveBaseName := pb }
      st.now (st.hashes.headD "000000") ++ ".deletelog.json" ∉ files) :
    ∃ res st₂ st₃,
      createArchive benignEnv af mn files
        { deleteOriginals := true, batchSize := bs, preserveBaseName := pb } st =
        (Except.ok res, st₂) ∧
      res.zipPath = plannedZipPath af mn files
        { deleteOriginals := true, batchSize := bs, preserveBaseName := pb }
        st.now (st.hashes.headD "000000") ∧
      res.manifestFiles = files ∧
      restoreArchive benignEnv res.zipPath RestorePolicy.overwrite st₂ = (Except.ok (), st₃) ∧
      ∀ p ∈ files, lookupFile st₃.vault p = some (Content.bytes (b p)) := by
  obtain ⟨stF, hmain, hzpF, hframeF, hhF, hnF⟩ :=
    createArchiveMain_benign af mn b files
      { deleteOriginals := true, batchSize := bs, preserveBaseName := pb } st
      hpres hnd hnorm hnoslash
  have hpres₂ : ∀ p ∈ files, ∃ c, lookupFile stF.vault p = some c := by
    intro p hp
    refine ⟨Content.bytes (b p), ?_⟩
    rw [hframeF p (fun hc => hzp (hc ▸ hp)) (fun hc => hmp (hc ▸ hp))]
    exact hpres p hp
  obtain ⟨st₂, hdel, hframeD, _, _⟩ := deleteOriginals_benign
    (plannedZipPath af mn files
      { deleteOriginals := true, batchSize := bs, preserveBaseName := pb }
      st.now (st.hashes.headD "000000")) files bs stF hnd hpres₂ hcp
  have hzp₂ : lookupFile st₂.vault (plannedZipPath af mn files
      { deleteOriginals := true, batchSize := bs, preserveBaseName := pb }
      st.now (st.hashes.headD "000000")) =
      some (Content.zipc (zipAddAll { entries := [], dirs := [] } files b)) := by
    rw [hframeD _ hzp (append_ne_self _ ".checkpoint.json" (by decide)).symm
      (append_ne_self _ ".deletelog.json" (by decide)).symm]
    exact hzpF
  have hnamesZ : zipEntryNames (zipAddAll { entries := [], dirs := [] } files b) = files :=
    zipAddAll_names b files hnd hnoslash
  obtain ⟨st₃, hok⟩ := restoreEntries_overwrite_ok benignEnv
    (zipAddAll { entries := [], dirs := [] } files b) (fun _ => rfl) files
    { st₂ with events := st₂.events ++ [Event.readF (plannedZipPath af mn files
        { deleteOriginals := true, batchSize := bs, preserveBaseName := pb }
        st.now (st.hashes.headD "000000"))] }
  refine ⟨{ zipPath := plannedZipPath af mn files
              { deleteOriginals := true, batchSize := bs, preserveBaseName := pb }
              st.now (st.hashes.headD "000000"),
            manifestFiles := files }, st₂, st₃, ?_, rfl, rfl, ?_, ?_⟩
  · show (createArchiveMain benignEnv af mn files
      { deleteOriginals := true, batchSize := bs, preserveBaseName := pb } >>= fun result =>
      if ({ deleteOriginals := true, batchSize := bs, preserveBaseName := pb } :
          CreateArchiveOptions).deleteOriginals then
        deleteOriginalsWithRollback benignEnv result.zipPath files bs >>= fun _ =>
        mPure result
      else mPure result) st = _
    rw [run_bind_ok hmain]
    show (deleteOriginalsWithRollback benignEnv (plannedZipPath af mn files
        { deleteOriginals := true, batchSize := bs, preserveBaseName := pb }
        st.now (st.hashes.headD "000000")) files bs >>= fun _ =>
      mPure ({ zipPath := plannedZipPath af mn files
                 { deleteOriginals := true, batchSize := bs, preserveBaseName := pb }
                 st.now (st.hashes.headD "000000"),
               manifestFiles := files } : ArchiveResult)) stF = _
    rw [run_bind_ok hdel]
    rfl
  · show restoreArchive benignEnv (plannedZipPath af mn files
        { deleteOriginals := true, batchSize := bs, preserveBaseName := pb }
        st.now (st.hashes.headD "000000")) RestorePolicy.overwrite st₂ = _
    rw [restoreArchive_run benignEnv _ _ _ st₂ hzp₂, hnamesZ]
    exact hok
  · intro p hp
    obtain ⟨l₁, l₂, hdec⟩ := List.append_of_mem hp
    have hql₂ : p ∉ l₂ := by
      have hnd₂ := hnd
      rw [hdec] at hnd₂
      exact (List.nodup_cons.mp hnd₂.of_append_right).1
    obtain ⟨st₃', hrun', hfin⟩ := restoreEntries_overwrite_final benignEnv
      (zipAddAll { entries := [], dirs := [] } files b) (fun _ => rfl) l₁ p l₂
      { name := p, data := b p, unixPermissions := none }
      { st₂ with events := st₂.events ++ [Event.readF (plannedZipPath af mn files
          { deleteOriginals := true, batchSize := bs, preserveBaseName := pb }
          st.now (st.hashes.headD "000000"))] }
      hql₂ (zipAddAll_get b files hnd p hp)
    have hok₂ := hok
    nth_rewrite 2 [hdec] at hok₂
    rw [hrun'] at hok₂
    have hst : st₃' = st₃ := by
      have := congrArg Prod.snd hok₂
      simpa using this
    rw [← hst]
    exact hfin

def c4St : St :=
  { vault := { files := [("a.txt", Content.bytes [1])], folders := [] }
    events := []
    hashes := ["h1"]
    now := "2025-01-02T03:04:05.678Z" }

/-- C4 witness: the round trip at a one-file store. -/
theorem c4_round_trip_witness :
    ∃ res st₂ st₃,
      createArchive benignEnv "Archive" "mode" ["a.txt"]
        { deleteOriginals := true, batchSize := none, preserveBaseName := false } c4St =
        (Except.ok res, st₂) ∧
      res.zipPath = plannedZipPath "Archive" "mode" ["a.txt"]
        { deleteOriginals := true, batchSize := none, preserveBaseName := false }
        c4St.now (c4St.hashes.headD "000000") ∧
      res.manifestFiles = ["a.txt"] ∧
      restoreArchive benignEnv res.zipPath RestorePolicy.overwrite st₂ = (Except.ok (), st₃) ∧
      ∀ p ∈ ["a.txt"], lookupFile st₃.vault p = some (Content.bytes [1]) :=
  c4_round_trip "Archive" "mode" (fun _ => [1]) ["a.txt"] none false c4St
    (by decide) (by decide) (by decide) (by decide) (by decide) (by decide)
    (by decide) (by decide)

/-! # C1 — originals survive until the archive is written and verified

The temporal analysis tracks `removeF` events: the archive-building
phase (`createArchiveMain`) emits none, and the deletion phase — the
only remover — starts only after a normal return of the main phase,
which requires the zip write and a zero-error verification, both
recorded in the trace. -/

/-- The file-removal markers in a trace segment. -/
def removeEvents (l : List Event) : List String :=
  l.filterMap (fun ev =>
    match ev with
    | Event.removeF p => some p
    | _ => none)

theorem removeEvents_append (a b : List Event) :
    removeEvents (a ++ b) = removeEvents a ++ removeEvents b := by
  simp [removeEvents]

/-- `EventsExtend m`: the step only appends to the event trace. -/
def EventsExtend {α : Type} (m : M α) : Prop :=
  ∀ st : St, ∃ δ, ((m st).2).events = st.events ++ δ

theorem eventsExtend_bind {α β : Type} {m : M α} {f : α → M β}
    (hm : EventsExtend m) (hf : ∀ a, EventsExtend (f a)) : EventsExtend (m >>= f) := by
  intro st
  rw [run_bind]
  rcases hr : m st with ⟨r, st₂⟩
  obtain ⟨δ₁, he₁⟩ := hm st
  rw [hr] at he₁
  cases r with
  | ok a =>
    obtain ⟨δ₂, he₂⟩ := hf a st₂
    exact ⟨δ₁ ++ δ₂, by simp only []; rw [he₂, he₁, List.append_assoc]⟩
  | error e => exact ⟨δ₁, by simpa using he₁⟩

theorem eventsExtend_tryCatch {α : Type} {m : M α} {h : Err → M α}
    (hm : EventsExtend m) (hh : ∀ e, EventsExtend (h e)) :
    EventsExtend (mTryCatch m h) := by
  intro st
  unfold mTryCatch
  rcases hr : m st with ⟨r, st₂⟩
  obtain ⟨δ₁, he₁⟩ := hm st
  rw [hr] at he₁
  cases r with
  | ok a => exact ⟨δ₁, by simpa using he₁⟩
  | error e =>
    obtain ⟨δ₂, he₂⟩ := hh e st₂
    exact ⟨δ₁ ++ δ₂, by simp only []; rw [he₂, he₁, List.append_assoc]⟩

theorem eventsExtend_of_emitsNoSingle {α : Type} {m : M α} (h : EmitsNoSingle m) :
    EventsExtend m := fun st => ⟨(h st).choose, (h st).choose_spec.1⟩

theorem eventsExtend_mPure {α : Type} (a : α) : EventsExtend (mPure a : M α) :=
  fun st => ⟨[], by simp [mPure]⟩

theorem eventsExtend_pure {α : Type} (a : α) : EventsExtend (pure a : M α) :=
  eventsExtend_mPure a

theorem eventsExtend_mThrow {α : Type} (k : ErrKind) (msg : String) :
    EventsExtend (mThrow k msg : M α) := fun st => ⟨[], by simp [mThrow]⟩

theorem eventsExtend_mThrowP {α : Type} (e : Err) : EventsExtend (mThrow' e : M α) :=
  fun st => ⟨[], by simp [mThrow']⟩

theorem eventsExtend_emit (e : Event) : EventsExtend (emit e) :=
  fun st => ⟨[e], by simp [emit]⟩

theorem eventsExtend_getSt : EventsExtend getSt := fun st => ⟨[], by simp [getSt]⟩

theorem eventsExtend_nextHash : EventsExtend nextHash := by
  intro st
  rw [nextHash_run]
  exact ⟨[], by simp⟩

theorem eventsExtend_getAbstractFileExists (p : String) :
    EventsExtend (getAbstractFileExists p) :=
  fun st => ⟨[], by simp [getAbstractFileExists]⟩

theorem eventsExtend_vaultDelete (env : Env) (p : String) :
    EventsExtend (vaultDelete env p) := by
  intro st
  unfold vaultDelete
  split
  · exact ⟨[Event.removeF p], by simp⟩
  · exact ⟨[], by simp⟩

theorem eventsExtend_adapterRemove (env : Env) (p : String) :
    EventsExtend (adapterRemove env p) := by
  intro st
  unfold adapterRemove
  cases lookupFile st.vault p with
  | none => exact ⟨[], by simp⟩
  | some c =>
    cases env.removeErr p with
    | some m => exact ⟨[], by simp⟩
    | none => exact ⟨[Event.removeF p], by simp⟩

theorem eventsExtend_adapterRename (env : Env) (src dst : String) :
    EventsExtend (adapterRename env src dst) := by
  intro st
  unfold adapterRename
  cases lookupFile st.vault src with
  | none => exact ⟨[], by simp⟩
  | some c =>
    refine ⟨[], ?_⟩
    by_cases hr : env.renameOk src = true
    · simp [hr]
    · simp [hr]

theorem eventsExtend_catchIgnore {m : M Unit} (hm : EventsExtend m) :
    EventsExtend (catchIgnore m) :=
  eventsExtend_tryCatch hm (fun _ => eventsExtend_mPure ())

theorem eventsExtend_readBinary (p : String) : EventsExtend (readBinary p) :=
  eventsExtend_of_emitsNoSingle (emitsNoSingle_readBinary p)

theorem eventsExtend_writeFileC (env : Env) (p : String) (c : Content) :
    EventsExtend (writeFileC env p c) :=
  eventsExtend_of_emitsNoSingle (emitsNoSingle_writeFileC env p c)

theorem eventsExtend_createFolder (p : String) : EventsExtend (createFolder p) :=
  eventsExtend_of_emitsNoSingle (emitsNoSingle_createFolder p)

theorem eventsExtend_loadZip (c : Content) : EventsExtend (loadZip c) :=
  eventsExtend_of_emitsNoSingle (emitsNoSingle_loadZip c)

theorem eventsExtend_ensureFolders (p : String) : EventsExtend (ensureFolders p) :=
  eventsExtend_of_emitsNoSingle (emitsNoSingle_ensureFolders p)

theorem eventsExtend_removeAttemptLoop (env : Env) (p : String) :
    ∀ (n : Nat) (le : Option String), EventsExtend (removeAttemptLoop env p n le) := by
  intro n
  induction n with
  | zero => intro le; exact eventsExtend_mPure _
  | succ k ih =>
    intro le
    refine eventsExtend_tryCatch ?_ ?_
    · exact eventsExtend_bind (eventsExtend_adapterRemove env p) (fun _ => eventsExtend_mPure _)
    · intro e
      by_cases h : isRetryableMsg e.msg = true
      · simpa [removeAttemptLoop, h] using ih (some e.msg)
      · simpa [removeAttemptLoop, h] using eventsExtend_mPure (α := Bool × Option String) _

theorem eventsExtend_tryRemove (env : Env) (p : String) : EventsExtend (tryRemove env p) := by
  refine eventsExtend_bind (eventsExtend_removeAttemptLoop env p 5 none) ?_
  intro res
  by_cases h : res.1 = true
  · simpa [tryRemove, h] using eventsExtend_mPure (α := Bool) _
  · simp only [tryRemove, h]
    refine eventsExtend_bind (eventsExtend_tryCatch ?_ (fun _ => eventsExtend_mPure _)) ?_
    · refine eventsExtend_bind eventsExtend_nextHash ?_
      intro hh
      by_cases hr : env.hasRename = true
      · simp only [hr, if_true]
        exact eventsExtend_bind (eventsExtend_adapterRename env p _)
          (fun _ => eventsExtend_bind (eventsExtend_adapterRemove env _)
            (fun _ => eventsExtend_mPure _))
      · simpa [hr] using eventsExtend_mPure (α := Bool) _
    · intro renamed
      by_cases hr : renamed = true
      · simpa [hr] using eventsExtend_mPure (α := Bool) _
      · simp only [hr]
        cases res.2 with
        | some m => simpa using eventsExtend_mThrow (α := Bool) _ _
        | none => simpa using eventsExtend_mPure (α := Bool) _

theorem eventsExtend_deleteOneFile (env : Env) (p : String) :
    EventsExtend (deleteOneFile env p) := by
  unfold deleteOneFile
  refine eventsExtend_bind (eventsExtend_getAbstractFileExists p) ?_
  intro af
  refine eventsExtend_bind ?_ ?_
  · by_cases h : af = true
    · simp only [h, if_true]
      exact eventsExtend_tryCatch
        (eventsExtend_bind (eventsExtend_vaultDelete env p) (fun _ => eventsExtend_mPure _))
        (fun _ => eventsExtend_mPure _)
    · simp only [h, if_false]
      exact eventsExtend_mPure _
  · intro s₁
    by_cases h : s₁ = true
    · simp only [h, if_true]
      exact eventsExtend_mPure _
    · simp only [h, if_false]
      exact eventsExtend_tryCatch (eventsExtend_tryRemove env p)
        (fun _ => eventsExtend_mPure _)

theorem eventsExtend_processBatchFiles (env : Env) :
    ∀ (batch d f bd : List String), EventsExtend (processBatchFiles env batch d f bd) := by
  intro batch
  induction batch with
  | nil => intro d f bd; exact eventsExtend_mPure _
  | cons p rest ih =>
    intro d f bd
    refine eventsExtend_bind (eventsExtend_deleteOneFile env p) ?_
    intro s
    by_cases h : s = true
    · simpa [h] using ih (d ++ [p]) f (bd ++ [p])
    · simpa [h] using ih d (f ++ [p]) bd

theorem eventsExtend_restoreFileFromZip (env : Env) (zp fp : String) :
    EventsExtend (restoreFileFromZip env zp fp) := by
  intro st
  obtain ⟨δ, he, _⟩ := restoreFileFromZip_trace env zp fp st
  refine ⟨[Event.singleRestore fp] ++ δ, ?_⟩
  rw [he]
  simp [List.append_assoc]

theorem eventsExtend_restoreBatchFiles (env : Env) (zp : String) :
    ∀ (l : List String), EventsExtend (restoreBatchFiles env zp l) := by
  intro l
  induction l with
  | nil => exact eventsExtend_mPure _
  | cons f rest ih =>
    exact eventsExtend_bind
      (eventsExtend_tryCatch (eventsExtend_restoreFileFromZip env zp f)
        (fun _ => eventsExtend_mPure _))
      (fun _ => ih)

theorem eventsExtend_processOneBatch (env : Env) (zp : String) (batch : List String)
    (bi tb : Nat) (d f : List String) :
    EventsExtend (processOneBatch env zp batch bi tb d f) := by
  refine eventsExtend_bind (eventsExtend_processBatchFiles env batch d f []) ?_
  intro res
  refine eventsExtend_bind eventsExtend_getSt ?_
  intro st₀
  refine eventsExtend_bind (eventsExtend_tryCatch ?_ (fun _ => eventsExtend_mPure _)) ?_
  · exact eventsExtend_bind (eventsExtend_writeFileC env _ _) (fun _ => eventsExtend_mPure _)
  · intro r
    cases r with
    | none => exact eventsExtend_mPure _
    | some batchError =>
      exact eventsExtend_bind (eventsExtend_restoreBatchFiles env zp _)
        (fun _ => eventsExtend_mThrowP _)

theorem eventsExtend_processBatches (env : Env) (zp : String) (tb : Nat) :
    ∀ (batches : List (List String)) (bi : Nat) (d f : List String),
      EventsExtend (processBatches env zp tb batches bi d f) := by
  intro batches
  induction batches with
  | nil => intro bi d f; exact eventsExtend_mPure _
  | cons batch rest ih =>
    intro bi d f
    exact eventsExtend_bind (eventsExtend_processOneBatch env zp batch bi tb d f)
      (fun res => ih (bi + 1) res.1 res.2)

theorem eventsExtend_restoreEntries (env : Env) (z : ZipFile) (pol : RestorePolicy) :
    ∀ (entries : List String), EventsExtend (restoreEntries env z pol entries) := by
  intro entries
  induction entries with
  | nil => exact eventsExtend_mPure _
  | cons e rest ih =>
    cases hz : zipGetFile z e with
    | none => simpa [restoreEntries, hz] using ih
    | some file =>
      simp only [restoreEntries, hz]
      refine eventsExtend_bind (eventsExtend_ensureFolders e) ?_
      intro _
      refine eventsExtend_bind (eventsExtend_getAbstractFileExists e) ?_
      intro existing
      by_cases hex : existing = true
      · simp only [hex, if_true]
        cases pol with
        | skip => exact ih
        | conflictCopy =>
          refine eventsExtend_bind eventsExtend_nextHash ?_
          intro hh
          exact eventsExtend_bind (eventsExtend_writeFileC env _ _) (fun _ => ih)
        | overwrite =>
          exact eventsExtend_bind (eventsExtend_writeFileC env _ _) (fun _ => ih)
      · simp only [hex, if_false]
        exact eventsExtend_bind (eventsExtend_writeFileC env _ _) (fun _ => ih)

theorem eventsExtend_restoreArchive (env : Env) (zp : String) (pol : RestorePolicy) :
    EventsExtend (restoreArchive env zp pol) := by
  refine eventsExtend_bind (eventsExtend_readBinary zp) ?_
  intro data
  refine eventsExtend_bind (eventsExtend_loadZip data) ?_
  intro zip
  exact eventsExtend_restoreEntries env zip pol _

theorem eventsExtend_rollbackHandler (env : Env) (zp : String) (err : Err) :
    EventsExtend (rollbackHandler env zp err) := by
  refine eventsExtend_bind (eventsExtend_emit _) ?_
  intro _
  refine eventsExtend_bind (eventsExtend_tryCatch ?_ (fun _ => eventsExtend_mPure _)) ?_
  · exact eventsExtend_bind (eventsExtend_restoreArchive env zp _)
      (fun _ => eventsExtend_mPure _)
  · intro r
    cases r with
    | none => exact eventsExtend_mThrowP _
    | some re => exact eventsExtend_mThrowP _

theorem eventsExtend_deleteTryBody (env : Env) (zp : String) (files : List String)
    (bs : Option Nat) : EventsExtend (deleteTryBody env zp files bs) := by
  refine eventsExtend_bind (eventsExtend_processBatches env zp _ _ 0 [] []) ?_
  intro res
  refine eventsExtend_bind eventsExtend_getSt ?_
  intro st₀
  exact eventsExtend_bind (eventsExtend_writeFileC env _ _)
    (fun _ => eventsExtend_catchIgnore (eventsExtend_adapterRemove env _))

theorem eventsExtend_deleteOriginals (env : Env) (zp : String) (files : List String)
    (bs : Option Nat) : EventsExtend (deleteOriginalsWithRollback env zp files bs) :=
  eventsExtend_tryCatch (eventsExtend_deleteTryBody env zp files bs)
    (fun e => eventsExtend_rollbackHandler env zp e)

theorem lookup_insert_preserves (v : Vault) (p q : String) (c c₀ : Content)
    (h : lookupFile v q = some c₀) : ∃ c', lookupFile (vaultInsert v p c) q = some c' := by
  by_cases hqp : q = p
  · subst hqp
    exact ⟨c, lookup_vaultInsert_self _ _ _⟩
  · exact ⟨c₀, by rw [lookup_vaultInsert_other _ _ _ _ hqp]; exact h⟩

/-- The read loop never touches the vault, the supply or the clock,
appends only read events, and fails only with NotFound. -/
theorem readFilesIntoZip_frame :
    ∀ (files : List String) (z : ZipFile) (m : List String) (st : St),
      ((readFilesIntoZip files z m st).2).vault = st.vault ∧
      ((readFilesIntoZip files z m st).2).hashes = st.hashes ∧
      ((readFilesIntoZip files z m st).2).now = st.now ∧
      (∃ δ, ((readFilesIntoZip files z m st).2).events = st.events ++ δ ∧
        removeEvents δ = []) ∧
      (∀ e, (readFilesIntoZip files z m st).1 = Except.error e →
        e.kind = ErrKind.notFound) := by
  intro files
  induction files with
  | nil =>
    intro z m st
    refine ⟨rfl, rfl, rfl, ⟨[], by simp [readFilesIntoZip, mPure], rfl⟩, ?_⟩
    intro e he
    simp [readFilesIntoZip, mPure] at he
  | cons p rest ih =>
    intro z m st
    have hshape : ∀ st₀ : St, readFilesIntoZip (p :: rest) z m st₀ =
        (readBinary p >>= fun data =>
          readFilesIntoZip rest (zipAddFile z p (contentBytes data)) (m ++ [p])) st₀ :=
      fun _ => rfl
    cases hl : lookupFile st.vault p with
    | none =>
      have hrb : readBinary p st =
          (Except.error { kind := ErrKind.notFound, msg := "ENOENT: " ++ p }, st) := by
        simp [readBinary, hl]
      rw [hshape st, run_bind_err hrb]
      refine ⟨rfl, rfl, rfl, ⟨[], by simp, rfl⟩, ?_⟩
      intro e he
      simp only [Except.error.injEq] at he
      rw [← he]
    | some c =>
      have hrb : readBinary p st = (Except.ok c,
          { st with events := st.events ++ [Event.readF p] }) := by
        simp [readBinary, hl]
      rw [hshape st, run_bind_ok hrb]
      obtain ⟨hv, hh, hn, ⟨δ, he, hr⟩, hek⟩ := ih (zipAddFile z p (contentBytes c)) (m ++ [p])
        { st with events := st.events ++ [Event.readF p] }
      refine ⟨hv, hh, hn, ⟨Event.readF p :: δ, ?_, ?_⟩, hek⟩
      · rw [he]
        simp
      · simpa [removeEvents] using hr

/-- Any run of `verifyZipIntegrity` returns normally, leaves the vault,
supply and clock untouched, and appends non-removal events that include
`verifyDone true` whenever the result says valid. -/
theorem verifyZipIntegrity_events (zp : String) (files : List String) (st : St) :
    ∃ v st', verifyZipIntegrity zp files st = (Except.ok v, st') ∧
      st'.vault = st.vault ∧ st'.hashes = st.hashes ∧ st'.now = st.now ∧
      ∃ δ, st'.events = st.events ++ δ ∧ removeEvents δ = [] ∧
        (v.isValid = true → Event.verifyDone true ∈ δ) := by
  cases hl : lookupFile st.vault zp with
  | none =>
    refine ⟨{ isValid := false,
              fileCount := 0,
              errors := ["Failed to verify zip: " ++ ("ENOENT: " ++ zp)] },
      { st with events := st.events ++ [Event.verifyDone false] }, ?_, rfl, rfl, rfl,
      [Event.verifyDone false], rfl, rfl, ?_⟩
    · unfold verifyZipIntegrity
      rw [run_tryCatch_err (run_bind_err (show readBinary zp st =
        (Except.error { kind := ErrKind.notFound, msg := "ENOENT: " ++ zp }, st) from by
          simp [readBinary, hl]))]
      rfl
    · intro h
      simp at h
  | some c =>
    have hrb : readBinary zp st = (Except.ok c,
        { st with events := st.events ++ [Event.readF zp] }) := by
      simp [readBinary, hl]
    cases c with
    | zipc z =>
      let E : List String :=
        (if (((files.map normalizePath).filter
            (fun f => !((zipEntryNames z).contains f))).length > 0) then
          ["Missing files in zip: " ++ String.intercalate ", "
            ((files.map normalizePath).filter
              (fun f => !((zipEntryNames z).contains f)))] else []) ++
        (if (((zipEntryNames z).filter
            (fun f => !((files.map normalizePath).contains f))).length > 0) then
          ["Extra files in zip: " ++ String.intercalate ", "
            ((zipEntryNames z).filter
              (fun f => !((files.map normalizePath).contains f)))] else [])
      refine ⟨{ isValid := E.length == 0,
                fileCount := (zipEntryNames z).length,
                errors := E },
        { st with events := (st.events ++ [Event.readF zp]) ++
            [Event.verifyDone (decide (E.length = 0))] },
        ?_, rfl, rfl, rfl,
        [Event.readF zp, Event.verifyDone (decide (E.length = 0))], by simp, rfl, ?_⟩
      · unfold verifyZipIntegrity
        refine run_tryCatch_ok ?_
        rw [run_bind_ok hrb]
        rw [run_bind_ok (show loadZip (Content.zipc z)
          { st with events := st.events ++ [Event.readF zp] } = (Except.ok z,
          { st with events := st.events ++ [Event.readF zp] }) from rfl)]
        rfl
      · intro h
        have h0 : E.length = 0 := by simpa using h
        rw [h0]
        simp
    | bytes b =>
      refine ⟨{ isValid := false,
                fileCount := 0,
                errors := ["Failed to verify zip: " ++ "Corrupted zip"] },
        { st with events := (st.events ++ [Event.readF zp]) ++ [Event.verifyDone false] },
        ?_, rfl, rfl, rfl, [Event.readF zp, Event.verifyDone false], by simp, rfl, ?_⟩
      · unfold verifyZipIntegrity mTryCatch
        rw [run_bind_ok hrb]
        rw [run_bind_err (show loadZip (Content.bytes b)
          { st with events := st.events ++ [Event.readF zp] } = (Except.error
          { kind := ErrKind.corruptZip, msg := "Corrupted zip" },
          { st with events := st.events ++ [Event.readF zp] }) from rfl)]
        rfl
      · intro h
        simp at h
    | jsonManifest fs =>
      refine ⟨{ isValid := false,
                fileCount := 0,
                errors := ["Failed to verify zip: " ++ "Corrupted zip"] },
        { st with events := (st.events ++ [Event.readF zp]) ++ [Event.verifyDone false] },
        ?_, rfl, rfl, rfl, [Event.readF zp, Event.verifyDone false], by simp, rfl, ?_⟩
      · unfold verifyZipIntegrity mTryCatch
        rw [run_bind_ok hrb]
        rw [run_bind_err (show loadZip (Content.jsonManifest fs)
          { st with events := st.events ++ [Event.readF zp] } = (Except.error
          { kind := ErrKind.corruptZip, msg := "Corrupted zip" },
          { st with events := st.events ++ [Event.readF zp] }) from rfl)]
        rfl
      · intro h
        simp at h
    | jsonCheckpoint a b₀ c₀ d₀ =>
      refine ⟨{ isValid := false,
                fileCount := 0,
                errors := ["Failed to verify zip: " ++ "Corrupted zip"] },
        { st with events := (st.events ++ [Event.readF zp]) ++ [Event.verifyDone false] },
        ?_, rfl, rfl, rfl, [Event.readF zp, Event.verifyDone false], by simp, rfl, ?_⟩
      · unfold verifyZipIntegrity mTryCatch
        rw [run_bind_ok hrb]
        rw [run_bind_err (show loadZip (Content.jsonCheckpoint a b₀ c₀ d₀)
          { st with events := st.events ++ [Event.readF zp] } = (Except.error
          { kind := ErrKind.corruptZip, msg := "Corrupted zip" },
          { st with events := st.events ++ [Event.readF zp] }) from rfl)]
        rfl
      · intro h
        simp at h
    | jsonDeleteLog a b₀ c₀ =>
      refine ⟨{ isValid := false,
                fileCount := 0,
                errors := ["Failed to verify zip: " ++ "Corrupted zip"] },
        { st with events := (st.events ++ [Event.readF zp]) ++ [Event.verifyDone false] },
        ?_, rfl, rfl, rfl, [Event.readF zp, Event.verifyDone false], by simp, rfl, ?_⟩
      · unfold verifyZipIntegrity mTryCatch
        rw [run_bind_ok hrb]
        rw [run_bind_err (show loadZip (Content.jsonDeleteLog a b₀ c₀)
          { st with events := st.events ++ [Event.readF zp] } = (Except.error
          { kind := ErrKind.corruptZip, msg := "Corrupted zip" },
          { st with events := st.events ++ [Event.readF zp] }) from rfl)]
        rfl
      · intro h
        simp at h

/-- Full case analysis of a `createArchiveMain` run under any
environment: it never emits a removal event, never deletes an existing
file, returns normally only with the zip write and a `verifyDone true`
recorded in its trace, and fails with `verificationFailed` only with
the zip and its manifest on disk. -/
theorem createArchiveMain_cases (env : Env) (af mn : String) (files : List String)
    (opts : CreateArchiveOptions) (st : St) (r : Except Err ArchiveResult) (st' : St)
    (hrun : createArchiveMain env af mn files opts st = (r, st')) :
    (∃ δ, st'.events = st.events ++ δ ∧ removeEvents δ = []) ∧
    (∀ q c, lookupFile st.vault q = some c → ∃ c', lookupFile st'.vault q = some c') ∧
    (∀ res, r = Except.ok res →
      ∃ δ, st'.events = st.events ++ δ ∧
        Event.writeF (plannedZipPath af mn files opts st.now (st.hashes.headD "000000")) ∈ δ ∧
        Event.verifyDone true ∈ δ) ∧
    (∀ e, r = Except.error e → e.kind = ErrKind.verificationFailed →
      (∃ z, lookupFile st'.vault
        (plannedZipPath af mn files opts st.now (st.hashes.headD "000000")) =
        some (Content.zipc z)) ∧
      (∃ m, lookupFile st'.vault
        (plannedZipPath af mn files opts st.now (st.hashes.headD "000000") ++
          ".manifest.json") = some (Content.jsonManifest m))) := by
  rw [plannedZipPath_eq]
  rw [show createArchiveMain env af mn files opts =
    (readFilesIntoZip files { entries := [], dirs := [] } [] >>= fun zm =>
     getSt >>= fun st0 =>
     nextHash >>= fun hash =>
     catchIgnore (createFolder af) >>= fun _ =>
     writeFileC env
       (af ++ "/" ++ (slugify (chooseBaseName mn files opts.preserveBaseName) ++ "-" ++
         isoSlug st0.now ++ "-" ++ hash ++ ".zip")) (Content.zipc zm.1) >>= fun _ =>
     writeFileC env
       (af ++ "/" ++ (slugify (chooseBaseName mn files opts.preserveBaseName) ++ "-" ++
         isoSlug st0.now ++ "-" ++ hash ++ ".zip") ++ ".manifest.json")
       (Content.jsonManifest zm.2) >>= fun _ =>
     verifyZipIntegrity
       (af ++ "/" ++ (slugify (chooseBaseName mn files opts.preserveBaseName) ++ "-" ++
         isoSlug st0.now ++ "-" ++ hash ++ ".zip")) files >>= fun verification =>
     if !verification.isValid then
       mThrow ErrKind.verificationFailed
         ("Zip verification failed: " ++ String.intercalate "; " verification.errors)
     else
       mPure
         { zipPath := af ++ "/" ++
             (slugify (chooseBaseName mn files opts.preserveBaseName) ++ "-" ++
              isoSlug st0.now ++ "-" ++ hash ++ ".zip")
           manifestFiles := zm.2 }) from rfl] at hrun
  obtain ⟨hv1, hh1, hn1, ⟨δ1, he1, hre1⟩, hek1⟩ :=
    readFilesIntoZip_frame files { entries := [], dirs := [] } [] st
  rcases h1 : readFilesIntoZip files { entries := [], dirs := [] } [] st with ⟨r1, st1⟩
  rw [h1] at hv1 hh1 hn1 he1 hek1
  dsimp only at hv1 hh1 hn1 he1 hek1
  cases r1 with
  | error e1 =>
    rw [run_bind_err h1] at hrun
    injection hrun with hr hst
    subst hst
    refine ⟨⟨δ1, he1, hre1⟩, ?_, ?_, ?_⟩
    · intro q c hq
      refine ⟨c, ?_⟩
      unfold lookupFile
      rw [show st1.vault.files = st.vault.files from congrArg Vault.files hv1]
      exact hq
    · intro res hres
      rw [← hr] at hres
      exact Except.noConfusion hres
    · intro e he hkind
      rw [← hr] at he
      injection he with heq
      rw [← heq] at hkind
      have hk1 := hek1 e1 rfl
      rw [hk1] at hkind
      exact ErrKind.noConfusion hkind
  | ok zm =>
    rw [run_bind_ok h1] at hrun
    rw [run_bind_ok (show getSt st1 = (Except.ok st1, st1) from rfl)] at hrun
    rw [run_bind_ok (nextHash_run st1)] at hrun
    rw [hh1, hn1] at hrun
    obtain ⟨stC, hC, hCf, hCe, hCh, hCn⟩ := catchIgnore_createFolder af
      { vault := st1.vault, events := st1.events, hashes := st.hashes.tail, now := st.now }
    rw [run_bind_ok hC] at hrun
    have hCf' : stC.vault.files = st.vault.files := by
      rw [hCf]
      show st1.vault.files = st.vault.files
      rw [hv1]
    have hCe' : stC.events = st.events ++ δ1 := by
      rw [hCe]
      exact he1
    set ZP := af ++ "/" ++ (slugify (chooseBaseName mn files opts.preserveBaseName) ++ "-" ++
      isoSlug st.now ++ "-" ++ st.hashes.headD "000000" ++ ".zip") with hZP
    have hMPne : ZP ≠ ZP ++ ".manifest.json" :=
      (append_ne_self ZP ".manifest.json" (by decide)).symm
    cases hw5 : env.writeErr ZP with
    | some m5 =>
      rw [run_bind_err (show writeFileC env ZP (Content.zipc zm.1) stC =
        (Except.error { kind := ErrKind.writeFailed, msg := m5 }, stC) from by
          simp [writeFileC, hw5])] at hrun
      injection hrun with hr hst
      subst hst
      refine ⟨⟨δ1, hCe', hre1⟩, ?_, ?_, ?_⟩
      · intro q c hq
        refine ⟨c, ?_⟩
        unfold lookupFile
        rw [hCf']
        exact hq
      · intro res hres
        rw [← hr] at hres
        exact Except.noConfusion hres
      · intro e he hkind
        rw [← hr] at he
        injection he with heq
        rw [← heq] at hkind
        simp at hkind
    | none =>
      rw [run_bind_ok (show writeFileC env ZP (Content.zipc zm.1) stC = (Except.ok (),
        { stC with vault := vaultInsert stC.vault ZP (Content.zipc zm.1)
                   events := stC.events ++ [Event.writeF ZP] }) from by
          simp [writeFileC, hw5])] at hrun
      cases hw6 : env.writeErr (ZP ++ ".manifest.json") with
      | some m6 =>
        rw [run_bind_err (show writeFileC env (ZP ++ ".manifest.json")
          (Content.jsonManifest zm.2)
          { stC with vault := vaultInsert stC.vault ZP (Content.zipc zm.1)
                     events := stC.events ++ [Event.writeF ZP] } =
          (Except.error { kind := ErrKind.writeFailed, msg := m6 },
          { stC with vault := vaultInsert stC.vault ZP (Content.zipc zm.1)
                     events := stC.events ++ [Event.writeF ZP] }) from by
            simp [writeFileC, hw6])] at hrun
        injection hrun with hr hst
        subst hst
        refine ⟨⟨δ1 ++ [Event.writeF ZP], ?_, ?_⟩, ?_, ?_, ?_⟩
        · show stC.events ++ [Event.writeF ZP] = st.events ++ (δ1 ++ [Event.writeF ZP])
          rw [hCe', List.append_assoc]
        · rw [removeEvents_append, hre1]
          rfl
        · intro q c hq
          show ∃ c', lookupFile (vaultInsert stC.vault ZP (Content.zipc zm.1)) q = some c'
          refine lookup_insert_preserves _ _ _ _ c ?_
          unfold lookupFile
          rw [hCf']
          exact hq
        · intro res hres
          rw [← hr] at hres
          exact Except.noConfusion hres
        · intro e he hkind
          rw [← hr] at he
          injection he with heq
          rw [← heq] at hkind
          simp at hkind
      | none =>
        rw [run_bind_ok (show writeFileC env (ZP ++ ".manifest.json")
          (Content.jsonManifest zm.2)
          { stC with vault := vaultInsert stC.vault ZP (Content.zipc zm.1)
                     events := stC.events ++ [Event.writeF ZP] } =
          (Except.ok (),
          { stC with
              vault := vaultInsert (vaultInsert stC.vault ZP (Content.zipc zm.1))
                (ZP ++ ".manifest.json") (Content.jsonManifest zm.2)
              events := (stC.events ++ [Event.writeF ZP]) ++
                [Event.writeF (ZP ++ ".manifest.json")] }) from by
            simp [writeFileC, hw6])] at hrun
        obtain ⟨v, stF, hVrun, hVv, hVh, hVn, δv, hVe, hVr, hVimp⟩ :=
          verifyZipIntegrity_events ZP files
          { stC with
              vault := vaultInsert (vaultInsert stC.vault ZP (Content.zipc zm.1))
                (ZP ++ ".manifest.json") (Content.jsonManifest zm.2)
              events := (stC.events ++ [Event.writeF ZP]) ++
                [Event.writeF (ZP ++ ".manifest.json")] }
        rw [run_bind_ok hVrun] at hrun
        have hFe : stF.events = st.events ++
            (δ1 ++ (Event.writeF ZP :: Event.writeF (ZP ++ ".manifest.json") :: δv)) := by
          have h₀ : stF.events = ((stC.events ++ [Event.writeF ZP]) ++
              [Event.writeF (ZP ++ ".manifest.json")]) ++ δv := hVe
          rw [h₀, hCe']
          simp [List.append_assoc]
        have hFr : removeEvents
            (δ1 ++ (Event.writeF ZP :: Event.writeF (ZP ++ ".manifest.json") :: δv)) = [] := by
          rw [removeEvents_append, hre1]
          show removeEvents (Event.writeF ZP :: Event.writeF (ZP ++ ".manifest.json") :: δv) = []
          simpa [removeEvents] using hVr
        have hFpres : ∀ q c, lookupFile st.vault q = some c →
            ∃ c', lookupFile stF.vault q = some c' := by
          intro q c hq
          rw [hVv]
          show ∃ c', lookupFile (vaultInsert (vaultInsert stC.vault ZP (Content.zipc zm.1))
            (ZP ++ ".manifest.json") (Content.jsonManifest zm.2)) q = some c'
          obtain ⟨c₁, hc₁⟩ : ∃ c₁, lookupFile (vaultInsert stC.vault ZP
              (Content.zipc zm.1)) q = some c₁ := by
            refine lookup_insert_preserves _ _ _ _ c ?_
            unfold lookupFile
            rw [hCf']
            exact hq
          exact lookup_insert_preserves _ _ _ _ c₁ hc₁
        cases hval : v.isValid with
        | true =>
          rw [hval] at hrun
          simp only [Bool.not_true, Bool.false_eq_true, if_false] at hrun
          have hrun₂ : (Except.ok
              ({ zipPath := ZP, manifestFiles := zm.2 } : ArchiveResult), stF) = (r, st') :=
            hrun
          injection hrun₂ with hr hst
          subst hst
          refine ⟨⟨_, hFe, hFr⟩, hFpres, ?_, ?_⟩
          · intro res hres
            refine ⟨_, hFe, ?_, ?_⟩
            · simp
            · have := hVimp hval
              simp [this]
          · intro e he _
            rw [← hr] at he
            exact Except.noConfusion he
        | false =>
          rw [hval] at hrun
          simp only [Bool.not_false, if_true] at hrun
          have hrun₂ : (Except.error
              ({ kind := ErrKind.verificationFailed,
                 msg := "Zip verification failed: " ++ String.intercalate "; " v.errors } : Err),
              stF) = (r, st') := hrun
          injection hrun₂ with hr hst
          subst hst
          refine ⟨⟨_, hFe, hFr⟩, hFpres, ?_, ?_⟩
          · intro res hres
            rw [← hr] at hres
            exact Except.noConfusion hres
          · intro e _ _
            constructor
            · refine ⟨zm.1, ?_⟩
              rw [hVv]
              show lookupFile (vaultInsert (vaultInsert stC.vault ZP (Content.zipc zm.1))
                (ZP ++ ".manifest.json") (Content.jsonManifest zm.2)) ZP = _
              rw [lookup_vaultInsert_other _ _ _ _ hMPne]
              exact lookup_vaultInsert_self _ _ _
            · refine ⟨zm.2, ?_⟩
              rw [hVv]
              exact lookup_vaultInsert_self _ _ _

/-- C1: no original is removed before the archive is written and
verified.  The trace of any `createArchive` run splits into a phase
`δ₁` containing no removal event and a phase `δ₂` that is non-empty
only when `δ₁` already records the zip write and a `verifyDone true`;
and when the main phase fails with `verificationFailed`,
`createArchive` re-throws that error, every file present before is
still present (nothing was deleted), and the zip and its manifest
remain on disk. -/
theorem c1_no_removal_before_verification (env : Env) (af mn : String)
    (files : List String) (opts : CreateArchiveOptions) (st : St) :
    (∀ r st₂, createArchive env af mn files opts st = (r, st₂) →
      ∃ δ₁ δ₂, st₂.events = st.events ++ (δ₁ ++ δ₂) ∧ removeEvents δ₁ = [] ∧
        (δ₂ = [] ∨
          (Event.writeF (plannedZipPath af mn files opts st.now
            (st.hashes.headD "000000")) ∈ δ₁ ∧
           Event.verifyDone true ∈ δ₁))) ∧
    (∀ e st₂, createArchiveMain env af mn files opts st = (Except.error e, st₂) →
      e.kind = ErrKind.verificationFailed →
      createArchive env af mn files opts st = (Except.error e, st₂) ∧
      (∀ q c, lookupFile st.vault q = some c → ∃ c', lookupFile st₂.vault q = some c') ∧
      (∃ z, lookupFile st₂.vault
        (plannedZipPath af mn files opts st.now (st.hashes.headD "000000")) =
        some (Content.zipc z)) ∧
      (∃ m, lookupFile st₂.vault
        (plannedZipPath af mn files opts st.now (st.hashes.headD "000000") ++
          ".manifest.json") = some (Content.jsonManifest m))) := by
  have hshape : ∀ st₀ : St, createArchive env af mn files opts st₀ =
      (createArchiveMain env af mn files opts >>= fun result =>
        if opts.deleteOriginals then
          deleteOriginalsWithRollback env result.zipPath files opts.batchSize >>= fun _ =>
          mPure result
        else mPure result) st₀ := fun _ => rfl
  constructor
  · intro r st₂ h
    rw [hshape st] at h
    rcases hM : createArchiveMain env af mn files opts st with ⟨rM, stM⟩
    obtain ⟨⟨δm, hem, hrm⟩, _, hok, _⟩ :=
      createArchiveMain_cases env af mn files opts st rM stM hM
    cases rM with
    | error eM =>
      rw [run_bind_err hM] at h
      injection h with hr hst
      subst hst
      exact ⟨δm, [], by simpa using hem, hrm, Or.inl rfl⟩
    | ok res =>
      rw [run_bind_ok hM] at h
      obtain ⟨δm', hem', hw, hv⟩ := hok res rfl
      have hδeq : δm' = δm := List.append_cancel_left (hem'.symm.trans hem)
      rw [hδeq] at hw hv
      cases hdo : opts.deleteOriginals with
      | false =>
        rw [hdo] at h
        simp only [Bool.false_eq_true, if_false] at h
        have h₂ : (Except.ok res, stM) = (r, st₂) := h
        injection h₂ with hr hst
        subst hst
        exact ⟨δm, [], by simpa using hem, hrm, Or.inr ⟨hw, hv⟩⟩
      | true =>
        rw [hdo] at h
        simp only [if_true] at h
        rcases hD : deleteOriginalsWithRollback env res.zipPath files opts.batchSize stM
          with ⟨rD, stD⟩
        obtain ⟨δd, hed⟩ := eventsExtend_deleteOriginals env res.zipPath files
          opts.batchSize stM
        rw [hD] at hed
        dsimp only at hed
        cases rD with
        | error eD =>
          rw [run_bind_err hD] at h
          injection h with hr hst
          subst hst
          refine ⟨δm, δd, ?_, hrm, Or.inr ⟨hw, hv⟩⟩
          rw [hed, hem, List.append_assoc]
        | ok u =>
          rw [run_bind_ok hD] at h
          have h₂ : (Except.ok res, stD) = (r, st₂) := h
          injection h₂ with hr hst
          subst hst
          refine ⟨δm, δd, ?_, hrm, Or.inr ⟨hw, hv⟩⟩
          rw [hed, hem, List.append_assoc]
  · intro e st₂ hM hkind
    obtain ⟨_, hpres, _, herr⟩ := createArchiveMain_cases env af mn files opts st
      (Except.error e) st₂ hM
    obtain ⟨hz, hm⟩ := herr e rfl hkind
    refine ⟨?_, hpres, hz, hm⟩
    rw [hshape st]
    rw [run_bind_err hM]

/-- C1 witness: the temporal decomposition at a concrete run with
deletion requested. -/
theorem c1_no_removal_before_verification_witness :
    ∃ δ₁ δ₂, ((createArchive benignEnv "Archive" "mode" ["a.txt"]
        { deleteOriginals := true, batchSize := none, preserveBaseName := false }
        c4St).2).events =
      c4St.events ++ (δ₁ ++ δ₂) ∧ removeEvents δ₁ = [] ∧
      (δ₂ = [] ∨
        (Event.writeF (plannedZipPath "Archive" "mode" ["a.txt"]
          { deleteOriginals := true, batchSize := none, preserveBaseName := false }
          c4St.now (c4St.hashes.headD "000000")) ∈ δ₁ ∧
         Event.verifyDone true ∈ δ₁)) :=
  (c1_no_removal_before_verification benignEnv "Archive" "mode" ["a.txt"]
    { deleteOriginals := true, batchSize := none, preserveBaseName := false } c4St).1
    ((createArchive benignEnv "Archive" "mode" ["a.txt"]
      { deleteOriginals := true, batchSize := none, preserveBaseName := false } c4St).1)
    ((createArchive benignEnv "Archive" "mode" ["a.txt"]
      { deleteOriginals := true, batchSize := none, preserveBaseName := false } c4St).2)
    rfl

end ModeShifter
